import Mathlib

/-!
# Tessa: edge provenance, ingestion, label repair and domain classification

A shallow embedding of `src/main.cpp` (with `tessa_triangulation.h` and
`parse_wkt.h`) of tcvdijk/tessa.

Conventions of the embedding.

* The exact-construction kernel computes with exact numbers, and every input
  coordinate is a finite `double`, hence a rational: a `Point` is a pair of
  rationals.
* A `Vertex_handle` is the position of the vertex in the triangulation's
  vertex container; handle comparison (the key order of `std::map`) is the
  order of positions.
* `int` values (`id`, `index`, edge types, counters) are integers; the
  sentinel identity is `-1`. The counters count vertices and edges held in
  memory and stay far below `2^31`: no wrap-around is modelled.
* `std::map<tuple<Vertex_handle,Vertex_handle>,int>` is a list of key/value
  pairs kept in key order: `find` returns the first entry with the key,
  `assign` is `operator[]` followed by assignment.
* What the geometric kernel owns (the finite edges and faces of the
  triangulation, the order in which it enumerates vertices) is an argument of
  the function that reads it.
-/

namespace Tessa

/-! ## Data model -/

/-- Point of the kernel: exact coordinates. -/
structure Point where
  x : ℚ
  y : ℚ
deriving DecidableEq

/-- Handle of a vertex: its position in the vertex container of the triangulation. -/
abbrev Vertex_handle := Nat

/-- Vertex record `Tessa_vertex`: a point and the integer `id()`. -/
structure Vertex where
  point : Point
  id : Int
deriving DecidableEq

/-- The part of the triangulation `CDT` that `main.cpp` itself reads and writes during
ingestion: the vertex container and the constraints handed to `insert_constraint`. -/
structure CDT where
  vertices : List Vertex
  constraints : List (Vertex_handle × Vertex_handle)

/-- Default-constructed vertex: `Tessa_vertex()` sets `id() = -1`
(`tessa_triangulation.h`, lines 32-34). -/
def Vertex.fresh (p : Point) : Vertex := ⟨p, -1⟩

/-- The value of `vh->point()`. -/
def CDT.point (cdt : CDT) (vh : Vertex_handle) : Point :=
  (cdt.vertices.getD vh (Vertex.fresh ⟨0, 0⟩)).point

/-- The value of `vh->id()`. -/
def CDT.id (cdt : CDT) (vh : Vertex_handle) : Int :=
  (cdt.vertices.getD vh (Vertex.fresh ⟨0, 0⟩)).id

/-- The assignment `vh->id() = i`. -/
def CDT.set_id (cdt : CDT) (vh : Vertex_handle) (i : Int) : CDT :=
  { cdt with vertices := cdt.vertices.modify (fun v => { v with id := i }) vh }

/-- Modelled from the spec: the kernel operation `insert(point) → vertex` (the body of
`cdt.insert` is not part of the sources). Inserting a point that is already a vertex returns
that vertex ("re-insertion of an existing point ... must reuse the same identity"); otherwise
a default-constructed vertex is appended to the container. -/
def CDT.insert (cdt : CDT) (p : Point) : CDT × Vertex_handle :=
  let vh := cdt.vertices.findIdx (fun v => decide (v.point = p))
  if vh < cdt.vertices.length then (cdt, vh)
  else ({ cdt with vertices := cdt.vertices ++ [Vertex.fresh p] }, vh)

/-- Modelled from the spec: the kernel operation `insert_constraint(vertex,vertex)`; only
the request is recorded, nothing of the vertex container changes. -/
def CDT.insert_constraint (cdt : CDT) (a b : Vertex_handle) : CDT :=
  { cdt with constraints := cdt.constraints ++ [(a, b)] }

/-- The empty triangulation `CDT cdt;`. -/
def CDT.empty : CDT := ⟨[], []⟩

/-! ## The provenance table `map<tuple<Vertex_handle,Vertex_handle>,int>` -/

/-- Key of the provenance table: a directed pair of handles. -/
abbrev Key := Vertex_handle × Vertex_handle

/-- The table `chain_edges`, entries in key order. -/
abbrev Table := List (Key × Int)

/-- Strict order of `std::tuple` keys: lexicographic on the two handles. -/
def Key.lt (a b : Key) : Bool :=
  decide (a.1 < b.1) || (decide (a.1 = b.1) && decide (a.2 < b.2))

/-- The lookup `chain_edges.find(k)`: the stored value, or `none` for `end()`. -/
def Table.find : Table → Key → Option Int
  | [], _ => none
  | (k', v) :: rest, k => if k' = k then some v else Table.find rest k

/-- The assignment `chain_edges[k] = v`: overwrite the entry of `k`, or insert it at its
place in key order. -/
def Table.assign : Table → Key → Int → Table
  | [], k, v => [(k, v)]
  | (k', v') :: rest, k, v =>
    if k' = k then (k, v) :: rest
    else if Key.lt k k' then (k, v) :: (k', v') :: rest
    else (k', v') :: Table.assign rest k v

/-- The call `chain_edges.merge(new_chain_edges)`: every entry of the source whose key is
absent from the target is moved into it; entries whose key is present are left behind. -/
def Table.merge (target source : Table) : Table :=
  source.foldl (fun acc e => if (Table.find acc e.1).isSome then acc else Table.assign acc e.1 e.2)
    target

/-- Edge types of `main.cpp`: 0 boundary, 1 hole, 2 road, 3 mesh. -/
def boundary : Int := 0

/-- Type of the edges of the second and later rings. -/
def hole : Int := 1

/-- Type of the edges of the line-strings. -/
def road : Int := 2

/-- Type returned by `edge_type` for a pair that is in the table in neither orientation. -/
def mesh : Int := 3

/-- The function `edge_type` (main.cpp, lines 386-393). -/
def edge_type (a b : Vertex_handle) (chain_edges : Table) : Int :=
  match Table.find chain_edges (a, b) with
  | some t => t
  | none =>
    match Table.find chain_edges (b, a) with
    | some t => t
    | none => 3

/-- The function `type_name` (main.cpp, lines 345-353). -/
def type_name (type : Int) : String :=
  if type = 0 then "boundary"
  else if type = 1 then "hole"
  else if type = 2 then "road"
  else if type = 3 then "mesh"
  else "unknown"

/-! ## Ingestion: `insert_chain` and the two loops of `main` that call it -/

/-- The variables of `main` that `insert_chain` receives by reference. -/
structure Ingest where
  cdt : CDT
  chain_edges : Table
  index : Int
  num_edges_inserted : Int

/-- Body of the first loop of `insert_chain` (lines 368-370): insert the point and give the
vertex the next identity if it still has the sentinel. -/
def insert_chain_point (cdt : CDT) (index : Int) (p : Point) : CDT × Int × Vertex_handle :=
  let r := cdt.insert p
  if r.1.id r.2 = -1 then (r.1.set_id r.2 index, index + 1, r.2) else (r.1, index, r.2)

/-- First loop of `insert_chain` (lines 367-371); the handles are appended to `cgal_polygon`. -/
def insert_chain_points (cdt : CDT) (index : Int) (cgal_polygon : List Vertex_handle) :
    List Point → CDT × Int × List Vertex_handle
  | [] => (cdt, index, cgal_polygon)
  | p :: rest =>
    let r := insert_chain_point cdt index p
    insert_chain_points r.1 r.2.1 (cgal_polygon ++ [r.2.2]) rest

/-- Body of the second loop of `insert_chain` (lines 375-382) for the pair
`a = cgal_polygon[i]`, `b = cgal_polygon[i+1]`: a pair of equal identities is skipped
(`continue`), any other pair becomes a constraint and a table entry and advances the edge
counter. -/
def insert_chain_edge (type : Int) (a b : Vertex_handle) (cdt : CDT) (chain_edges : Table)
    (num_edges_inserted : Int) : CDT × Table × Int :=
  if cdt.id a = cdt.id b then (cdt, chain_edges, num_edges_inserted)
  else (cdt.insert_constraint a b, Table.assign chain_edges (a, b) type, num_edges_inserted + 1)

/-- Second loop of `insert_chain` (lines 374-383) over the consecutive pairs of
`cgal_polygon`. -/
def insert_chain_edges (type : Int) :
    List Vertex_handle → CDT → Table → Int → CDT × Table × Int
  | a :: b :: rest, cdt, chain_edges, num_edges_inserted =>
    insert_chain_edges type (b :: rest)
      (insert_chain_edge type a b cdt chain_edges num_edges_inserted).1
      (insert_chain_edge type a b cdt chain_edges num_edges_inserted).2.1
      (insert_chain_edge type a b cdt chain_edges num_edges_inserted).2.2
  | _, cdt, chain_edges, num_edges_inserted => (cdt, chain_edges, num_edges_inserted)

/-- The function `insert_chain` (main.cpp, lines 365-384), called with an empty
`cgal_polygon` as `main` does; the second component is `cgal_polygon` on return. -/
def insert_chain (s : Ingest) (chain : List Point) (type : Int) : Ingest × List Vertex_handle :=
  let r := insert_chain_points s.cdt s.index [] chain
  if r.2.2.length = 1 then
    ({ s with cdt := r.1, index := r.2.1 }, r.2.2)
  else
    let e := insert_chain_edges type r.2.2 r.1 s.chain_edges s.num_edges_inserted
    ({ cdt := e.1, chain_edges := e.2.1, index := r.2.1, num_edges_inserted := e.2.2 }, r.2.2)

/-- Result of the parser: `parser::TessaInput`. -/
structure TessaInput where
  polygon : List (List Point)
  linestrings : List (List Point)

/-- State of `main` before the first ring (lines 123-129). -/
def Ingest.init : Ingest := ⟨CDT.empty, [], 0, 0⟩

/-- The loop over `input.polygon` (lines 130-134): the first ring gets `type`, later rings
get type 1. -/
def ingest_rings : List (List Point) → Int → Ingest → List (List Vertex_handle) →
    Ingest × List (List Vertex_handle)
  | [], _, s, cgal_polygon => (s, cgal_polygon)
  | ring :: rest, type, s, cgal_polygon =>
    let r := insert_chain s ring type
    ingest_rings rest 1 r.1 (cgal_polygon ++ [r.2])

/-- The loop over `input.linestrings` (lines 136-139): every chain gets type 2. -/
def ingest_linestrings : List (List Point) → Ingest → List (List Vertex_handle) →
    Ingest × List (List Vertex_handle)
  | [], s, cgal_polygon => (s, cgal_polygon)
  | chain :: rest, s, cgal_polygon =>
    let r := insert_chain s chain 2
    ingest_linestrings rest r.1 (cgal_polygon ++ [r.2])

/-- Lines 123-139 of `main`: the state and `cgal_polygon` after both ingestion loops. -/
def main_ingest (input : TessaInput) : Ingest × List (List Vertex_handle) :=
  let r := ingest_rings input.polygon 0 Ingest.init []
  ingest_linestrings input.linestrings r.1 r.2

/-! ## Kernel primitives used by label repair and by the domain classifier -/

/-- Segment of the kernel. -/
structure Segment where
  source : Point
  target : Point
deriving DecidableEq

/-- Signed area test: positive when `r` is to the left of the directed line `p q`, zero when
the three points are collinear. -/
def orientation (p q r : Point) : ℚ :=
  (q.x - p.x) * (r.y - p.y) - (q.y - p.y) * (r.x - p.x)

/-- Scalar product of `p - a` with `b - a`: the position of `p` along `a b`, scaled by the
squared length of `a b`. -/
def along (a b p : Point) : ℚ :=
  (p.x - a.x) * (b.x - a.x) + (p.y - a.y) * (b.y - a.y)

/-- The point `a + (n / d) * (b - a)`. -/
def point_at (a b : Point) (n d : ℚ) : Point :=
  ⟨a.x + n / d * (b.x - a.x), a.y + n / d * (b.y - a.y)⟩

/-- Closed segment membership: `p` is collinear with `a b` and inside their bounding box. -/
def on_segment (a b p : Point) : Bool :=
  decide (orientation a b p = 0) && decide (min a.x b.x ≤ p.x) && decide (p.x ≤ max a.x b.x)
    && decide (min a.y b.y ≤ p.y) && decide (p.y ≤ max a.y b.y)

/-- Alternatives of the result of `intersection(Segment, Segment)`. -/
inductive Intersection_result where
  | point (p : Point)
  | segment (s : Segment)
deriving DecidableEq

/-- Modelled from the spec: the kernel's exact segment-intersection primitive
`intersection(needle, seg)` (its body is not part of the sources): "the geometric
intersection of the candidate edge's segment with the provenance edge's segment", which is
empty, a single point, or a segment. Two segments meet in a segment exactly when both have
two distinct endpoints, all four endpoints are collinear and the two parameter intervals
along the first segment share more than one point. -/
def intersection (s t : Segment) : Option Intersection_result :=
  if s.source = s.target then
    if on_segment t.source t.target s.source then some (.point s.source) else none
  else if t.source = t.target then
    if on_segment s.source s.target t.source then some (.point t.source) else none
  else if orientation s.source s.target t.source = 0
      ∧ orientation s.source s.target t.target = 0 then
    let len := along s.source s.target s.target
    let c := along s.source s.target t.source
    let d := along s.source s.target t.target
    let lo := max 0 (min c d)
    let hi := min len (max c d)
    if lo < hi then
      some (.segment ⟨point_at s.source s.target lo len, point_at s.source s.target hi len⟩)
    else if lo = hi then some (.point (point_at s.source s.target lo len))
    else none
  else
    let den := (s.target.x - s.source.x) * (t.target.y - t.source.y)
      - (s.target.y - s.source.y) * (t.target.x - t.source.x)
    let n1 := (t.source.x - s.source.x) * (t.target.y - t.source.y)
      - (t.source.y - s.source.y) * (t.target.x - t.source.x)
    let n2 := (t.source.x - s.source.x) * (s.target.y - s.source.y)
      - (t.source.y - s.source.y) * (s.target.x - s.source.x)
    if den = 0 then none
    else if 0 ≤ n1 / den ∧ n1 / den ≤ 1 ∧ 0 ≤ n2 / den ∧ n2 / den ≤ 1 then
      some (.point (point_at s.source s.target n1 den))
    else none

/-- The test `boost::get<Segment>(&*result)` on an intersection result. -/
def is_segment : Option Intersection_result → Bool
  | some (.segment _) => true
  | _ => false

/-- Result of the point-in-polygon primitive. -/
inductive Bounded_side where
  | ON_UNBOUNDED_SIDE
  | ON_BOUNDARY
  | ON_BOUNDED_SIDE
deriving DecidableEq

/-- Edges of the closed polygon with the given vertices: every vertex with its cyclic
successor. -/
def polygon_edges (poly : List Point) : List (Point × Point) :=
  poly.zip (poly.rotate 1)

/-- The edge `a b` crosses the horizontal ray that leaves `p` in the direction of
increasing `x` (an edge contains its lower endpoint and not its upper one). -/
def crosses_ray (p a b : Point) : Bool :=
  (decide (a.y ≤ p.y) && decide (p.y < b.y) && decide (0 < orientation a b p))
    || (decide (b.y ≤ p.y) && decide (p.y < a.y) && decide (orientation a b p < 0))

/-- Modelled from the spec: the kernel's "boundary/inside/outside point-in-polygon
primitive" `bounded_side_2(begin, end, p, K())` (its body is not part of the sources), for
the polygon that closes the vertex list: a point on an edge is `ON_BOUNDARY`; any other point
is on the bounded side exactly when its ray crosses the edges an odd number of times. -/
def bounded_side_2 (poly : List Point) (p : Point) : Bounded_side :=
  if (polygon_edges poly).any (fun e => on_segment e.1 e.2 p) then Bounded_side.ON_BOUNDARY
  else if ((polygon_edges poly).countP (fun e => crosses_ray p e.1 e.2)) % 2 = 1 then
    Bounded_side.ON_BOUNDED_SIDE
  else Bounded_side.ON_UNBOUNDED_SIDE

/-! ## Label repair -/

/-- The function `find_edge_type_bruteforce` (main.cpp, lines 395-414): the type of the
first table entry, in table order, whose segment meets the needle in a segment; `-1` when
there is none. -/
def find_edge_type_bruteforce (cdt : CDT) (a b : Vertex_handle) : Table → Int
  | [] => -1
  | (k, t) :: rest =>
    if is_segment (intersection ⟨cdt.point a, cdt.point b⟩ ⟨cdt.point k.1, cdt.point k.2⟩)
    then t
    else find_edge_type_bruteforce cdt a b rest

/-- Body of the loop of the label repair (lines 209-218) for the finite edge with end
vertices `vh1`, `vh2`; the last argument is `new_chain_edges`. -/
def repair_edge (cdt : CDT) (chain_edges : Table) (vh1 vh2 : Vertex_handle)
    (new_chain_edges : Table) : Table :=
  if cdt.id vh1 = -1 ∨ cdt.id vh2 = -1 then
    if find_edge_type_bruteforce cdt vh1 vh2 chain_edges ≠ -1 then
      Table.assign new_chain_edges (vh1, vh2) (find_edge_type_bruteforce cdt vh1 vh2 chain_edges)
    else new_chain_edges
  else new_chain_edges

/-- The loop of the label repair (lines 206-219) over the finite edges `(vh1, vh2)` in the
order the triangulation enumerates them; the last argument is `new_chain_edges`. -/
def repair_new_chain_edges (cdt : CDT) (chain_edges : Table) :
    List (Vertex_handle × Vertex_handle) → Table → Table
  | [], new_chain_edges => new_chain_edges
  | e :: rest, new_chain_edges =>
    repair_new_chain_edges cdt chain_edges rest (repair_edge cdt chain_edges e.1 e.2 new_chain_edges)

/-- The label repair (lines 200-222): `chain_edges` after
`chain_edges.merge(new_chain_edges)`. -/
def repair_labels (cdt : CDT) (finite_edges : List (Vertex_handle × Vertex_handle))
    (chain_edges : Table) : Table :=
  Table.merge chain_edges (repair_new_chain_edges cdt chain_edges finite_edges [])

/-- The three operation flags of the command line. -/
structure Flags where
  op_cdt : Bool
  op_mesh : Bool
  op_gabriel : Bool

/-- The values of `did_something` and `should_repair_labels` after the three operation
blocks of `main` (lines 157-197). -/
def main_op_flags (f : Flags) : Bool × Bool :=
  let s0 : Bool × Bool := (false, false)
  let s1 : Bool × Bool := if f.op_cdt then (true, s0.2) else s0
  let s2 : Bool × Bool := if f.op_mesh then (true, true) else s1
  if f.op_gabriel then (true, true) else s2

/-- The flag `did_something` when the output starts. -/
def did_something (f : Flags) : Bool := (main_op_flags f).1

/-- The flag `should_repair_labels` at line 200. -/
def should_repair_labels (f : Flags) : Bool := (main_op_flags f).2

/-- Lines 199-222 of `main`: the table after the guarded repair. -/
def main_repair (f : Flags) (cdt : CDT) (finite_edges : List (Vertex_handle × Vertex_handle))
    (chain_edges : Table) : Table :=
  if should_repair_labels f then repair_labels cdt finite_edges chain_edges else chain_edges

/-! ## Domain classification -/

/-- The loop over the rings of index 1 and more in `point_is_in_domain` (lines 292-294):
it returns false at the first ring that has the point on its bounded side. -/
def point_is_in_domain_holes (p : Point) : List (List Point) → Bool
  | [] => true
  | ring :: rest =>
    if bounded_side_2 ring p = Bounded_side.ON_BOUNDED_SIDE then false
    else point_is_in_domain_holes p rest

/-- The function `point_is_in_domain` (main.cpp, lines 288-297); `none` stands for the
access `polygon[0]` into an empty vector. -/
def point_is_in_domain (p : Point) : List (List Point) → Option Bool
  | [] => none
  | outer :: rest =>
    if bounded_side_2 outer p ≠ Bounded_side.ON_BOUNDED_SIDE then some false
    else some (point_is_in_domain_holes p rest)

/-- The `double` literal `0.33` as the exact number the kernel computes with:
5944751508129055 / 2^54. -/
def c033 : ℚ := 5944751508129055 / 18014398509481984

/-- The representative point of a face (line 314):
`p0 + 0.33*(p1 - p0) + 0.33*(p2 - p0)`. -/
def centroid (p0 p1 p2 : Point) : Point :=
  ⟨p0.x + c033 * (p1.x - p0.x) + c033 * (p2.x - p0.x),
   p0.y + c033 * (p1.y - p0.y) + c033 * (p2.y - p0.y)⟩

/-- Face of the triangulation as `set_domain_from_rings` reads it: its three vertices. -/
abbrev Face := Vertex_handle × Vertex_handle × Vertex_handle

/-- The function `set_domain_from_rings` (main.cpp, lines 298-317): the value handed to
`set_in_domain` for every face, in the order of `all_face_handles()`. -/
def set_domain_from_rings (cdt : CDT) (faces : List Face) (vhs : List (List Vertex_handle)) :
    List (Option Bool) :=
  let polygon := vhs.map (fun ring => ring.map cdt.point)
  faces.map (fun f =>
    point_is_in_domain (centroid (cdt.point f.1) (cdt.point f.2.1) (cdt.point f.2.2)) polygon)

/-! ## Identity backfill and output -/

/-- The loop of the cleanup (lines 227-229) over the vertices in the order of
`finite_vertex_handles()`: a vertex with the sentinel receives `index++`. -/
def cleanup_ids : List Vertex → Int → List Vertex × Int
  | [], index => ([], index)
  | v :: rest, index =>
    ((if v.id = -1 then { v with id := index } else v)
        :: (cleanup_ids rest (if v.id = -1 then index + 1 else index)).1,
      (cleanup_ids rest (if v.id = -1 then index + 1 else index)).2)

/-- Lines 224-232 of `main`: the backfill runs only when something was done. -/
def main_cleanup (did : Bool) (vertices : List Vertex) (index : Int) : List Vertex × Int :=
  if did then cleanup_ids vertices index else (vertices, index)

/-- The loop of the vertex output (lines 243-251), reduced to the diagnostic: the value of
`warned_bad_ids` after the loop, that is whether the error
"Vertex ids are not consecutive from 0" was logged. -/
def output_vertices_warned : List Vertex → Int → Bool → Bool
  | [], _, warned_bad_ids => warned_bad_ids
  | v :: rest, check_index, warned_bad_ids =>
    output_vertices_warned rest (check_index + 1)
      (if v.id ≠ check_index ∧ warned_bad_ids = false then true else warned_bad_ids)

/-- Whether the vertex output of `main` logs the identity diagnostic
(`check_index = 0`, `warned_bad_ids = false` at the start). -/
def warned_bad_ids (vertices : List Vertex) : Bool :=
  output_vertices_warned vertices 0 false

/-- Finite edge of the triangulation as the output reads it: the two end vertices
`f.vertex(f.cw(i))`, `f.vertex(f.ccw(i))` and the in-domain flags of the two faces. -/
structure Finite_edge where
  vh1 : Vertex_handle
  vh2 : Vertex_handle
  f_in_domain : Bool
  other_f_in_domain : Bool

/-- One line written by `output_edge`; the squared length is kept exact (the conversion
`to_double` and the printing of the number are not part of the embedding). -/
structure Edge_line where
  id_a : Int
  id_b : Int
  squared_length : ℚ
  free_for : String
  bidirectional : String
  type_name : String
deriving DecidableEq

/-- The function `output_edge` (main.cpp, lines 354-363). -/
def output_edge (cdt : CDT) (vh1 vh2 : Vertex_handle) (free_for : String) (type : Int) :
    Edge_line :=
  { id_a := cdt.id vh1
    id_b := cdt.id vh2
    squared_length := ((cdt.point vh1).x - (cdt.point vh2).x) ^ 2
      + ((cdt.point vh1).y - (cdt.point vh2).y) ^ 2
    free_for := free_for
    bidirectional := "1"
    type_name := type_name type }

/-- The branch "output triangulation edges" (lines 257-267). -/
def output_triangulation_edges (cdt : CDT) (chain_edges : Table) (free_for : String) :
    List Finite_edge → List Edge_line
  | [] => []
  | e :: rest =>
    (if e.f_in_domain = true ∨ e.other_f_in_domain = true then
        [output_edge cdt e.vh1 e.vh2 free_for (edge_type e.vh1 e.vh2 chain_edges)]
      else [])
      ++ output_triangulation_edges cdt chain_edges free_for rest

/-- The inner loop of the branch "spit out original edges" (lines 272-278); the first
argument is the current `vh1`. -/
def output_ring_edges (cdt : CDT) (chain_edges : Table) (free_for : String) :
    Vertex_handle → List Vertex_handle → List Edge_line
  | _, [] => []
  | vh1, vh2 :: rest =>
    (if vh1 ≠ vh2 then [output_edge cdt vh1 vh2 free_for (edge_type vh1 vh2 chain_edges)]
      else [])
      ++ output_ring_edges cdt chain_edges free_for vh2 rest

/-- The branch "spit out original edges" (lines 270-279); a ring without vertices, for
which `ring[0]` does not exist, writes nothing. -/
def output_original_edges (cdt : CDT) (chain_edges : Table) (free_for : String) :
    List (List Vertex_handle) → List Edge_line
  | [] => []
  | ring :: rest =>
    (match ring with
      | [] => []
      | first :: _ => output_ring_edges cdt chain_edges free_for first ring)
      ++ output_original_edges cdt chain_edges free_for rest

/-- The number written on line 2 of the output (lines 238-240): one count per finite edge
of the triangulation. -/
def output_num_edges (finite_edges : List Finite_edge) : Int :=
  finite_edges.foldl (fun num_edges _ => num_edges + 1) 0

/-- The edge lines of the output (lines 254-280). -/
def output_edges (did : Bool) (cdt : CDT) (chain_edges : Table) (free_for : String)
    (finite_edges : List Finite_edge) (cgal_polygon : List (List Vertex_handle)) :
    List Edge_line :=
  if did then output_triangulation_edges cdt chain_edges free_for finite_edges
  else output_original_edges cdt chain_edges free_for cgal_polygon

/-! ## Inputs used in the evaluations -/

/-- The input `GEOMETRYCOLLECTION(POLYGON((0 0,4 0,4 4,0 4,0 0)),MULTILINESTRING((4 0,0 0)))`:
a square ring and a road that runs along its first side in the opposite direction. -/
def input_road_on_boundary : TessaInput :=
  ⟨[[⟨0, 0⟩, ⟨4, 0⟩, ⟨4, 4⟩, ⟨0, 4⟩, ⟨0, 0⟩]], [[⟨4, 0⟩, ⟨0, 0⟩]]⟩

/-- The input `POLYGON((0 0,4 0,4 4,0 4,0 0))`. -/
def input_square : TessaInput :=
  ⟨[[⟨0, 0⟩, ⟨4, 0⟩, ⟨4, 4⟩, ⟨0, 4⟩, ⟨0, 0⟩]], []⟩

/-- The outer ring `[(0,0),(4,0),(4,4),(0,4)]`. -/
def square_outer : List Point := [⟨0, 0⟩, ⟨4, 0⟩, ⟨4, 4⟩, ⟨0, 4⟩]

/-- The hole ring `[(1,1),(3,1),(3,3),(1,3)]`. -/
def square_hole : List Point := [⟨1, 1⟩, ⟨3, 1⟩, ⟨3, 3⟩, ⟨1, 3⟩]

/-- The input
`GEOMETRYCOLLECTION(POLYGON((0 0,4 0,4 4,0 4,0 0)),MULTILINESTRING((1 1,3 1,2 3)))`:
a square ring without holes and one open road with three points inside it. -/
def input_road_in_square : TessaInput :=
  ⟨[[⟨0, 0⟩, ⟨4, 0⟩, ⟨4, 4⟩, ⟨0, 4⟩, ⟨0, 0⟩]], [[⟨1, 1⟩, ⟨3, 1⟩, ⟨2, 3⟩]]⟩

/-- The input
`GEOMETRYCOLLECTION(POLYGON((0 1,10 0,20 1,10 2,0 1)),MULTILINESTRING((0 1,20 1)))`:
a thin rhombus with a road along its long diagonal. The road is not a Delaunay edge (the
corner `(10,0)` is inside the circle through `(0,1)`, `(20,1)`, `(10,2)`), so the
conforming-Delaunay operation has to subdivide it. -/
def input_rhombus : TessaInput :=
  ⟨[[⟨0, 1⟩, ⟨10, 0⟩, ⟨20, 1⟩, ⟨10, 2⟩, ⟨0, 1⟩]], [[⟨0, 1⟩, ⟨20, 1⟩]]⟩

/-- The triangulation of `input_rhombus` after ingestion and the insertion of one new
vertex, the midpoint `(10,1)` of the road, with the sentinel identity (handle 4). -/
def cdt_rhombus_split : CDT :=
  { (main_ingest input_rhombus).1.cdt with
    vertices := (main_ingest input_rhombus).1.cdt.vertices ++ [Vertex.fresh ⟨10, 1⟩] }

/-! ## Specification vocabulary -/

/-- The identities of a vertex list, in order. -/
def ids (vs : List Vertex) : List Int := vs.map Vertex.id

/-- The identities `0, 1, ..., n-1` in this order. -/
def consecutive_ids (n : Nat) : List Int := (List.range n).map Int.ofNat

/-- Invariant of the triangulation and the identity counter between two steps of
ingestion: the counter is the number of vertices, the vertex at position `i` has identity
`i`, and no two vertices have the same point. -/
def Ingested (cdt : CDT) (index : Int) : Prop :=
  index = Int.ofNat cdt.vertices.length
    ∧ ids cdt.vertices = consecutive_ids cdt.vertices.length
    ∧ (cdt.vertices.map Vertex.point).Nodup

/-- The consecutive pairs `(l[i], l[i+1])` of a list. -/
def consecutive_pairs {α : Type} : List α → List (α × α)
  | a :: b :: rest => (a, b) :: consecutive_pairs (b :: rest)
  | _ => []

/-- The handle pairs `(cgal_polygon[i], cgal_polygon[i+1])` of the indices `i` at which the
chain has two different points `chain[i] ≠ chain[i+1]`. -/
def nonzero_edges (chain : List Point) (cgal_polygon : List Vertex_handle) : List Key :=
  ((consecutive_pairs (chain.zip cgal_polygon)).filter (fun e => decide (e.1.1 ≠ e.2.1))).map
    (fun e => (e.1.2, e.2.2))

/-- The number of indices `i` with `chain[i] ≠ chain[i+1]`. -/
def count_nonzero_edges (chain : List Point) : Nat :=
  ((consecutive_pairs chain).filter (fun e => decide (e.1 ≠ e.2))).length

/-- The vertex container of the second triangulation starts with the vertices of the first:
handles of the first stay valid and keep their point and identity. -/
def CDT.Extends (cdt cdt' : CDT) : Prop := ∃ l, cdt'.vertices = cdt.vertices ++ l

/-- Every handle of the list is a vertex of the triangulation, and its point is the chain
point at the same position. -/
def Recorded (cdt : CDT) (chain : List Point) (cgal_polygon : List Vertex_handle) : Prop :=
  List.Forall₂ (fun p vh => vh < cdt.vertices.length ∧ cdt.point vh = p) chain cgal_polygon

/-- The finite edges of the constrained Delaunay triangulation of the four corners of
`input_square`: the four sides and one diagonal (a triangulation of four points in convex
position has five edges, whichever diagonal the kernel picks). No face is flagged: no
operation has run. -/
def square_finite_edges : List Finite_edge :=
  [⟨0, 1, false, false⟩, ⟨1, 2, false, false⟩, ⟨2, 3, false, false⟩, ⟨3, 0, false, false⟩,
    ⟨0, 2, false, false⟩]

/-- The point `c` lies strictly between `a` and `b` on the segment `a b`. -/
def strictly_between (a b c : Point) : Prop :=
  ∃ t : ℚ, 0 < t ∧ t < 1 ∧ c.x = a.x + t * (b.x - a.x) ∧ c.y = a.y + t * (b.y - a.y)

/-- The segment of a table entry: from the point of the first vertex of the key to the point
of the second. -/
def CDT.segment (cdt : CDT) (k : Key) : Segment := ⟨cdt.point k.1, cdt.point k.2⟩

/-- The triangulation of `input_road_on_boundary` after ingestion and the insertion of one
new vertex, the midpoint `(2,0)` of the side that the road shares with the ring, with the
sentinel identity (handle 4). -/
def cdt_square_split : CDT :=
  { (main_ingest input_road_on_boundary).1.cdt with
    vertices := (main_ingest input_road_on_boundary).1.cdt.vertices ++ [Vertex.fresh ⟨2, 0⟩] }

/-! ## Seed synthesis -/

/-- The `double` literal `0.0001` as the exact number the kernel computes with:
7378697629483821 / 2^66. -/
def c00001 : ℚ := 7378697629483821 / 73786976294838206464

/-- The `double` literal `0.01` as the exact number the kernel computes with:
5764607523034235 / 2^59. -/
def c001 : ℚ := 5764607523034235 / 576460752303423488

/-- The first seed (line 325): `b + 0.0001*((a-b) + (c-b))`. -/
def seed_first (a b c : Point) : Point :=
  ⟨b.x + c00001 * ((a.x - b.x) + (c.x - b.x)), b.y + c00001 * ((a.y - b.y) + (c.y - b.y))⟩

/-- The second seed (line 334): `b - 0.01*((a-b) + (c-b))`. -/
def seed_second (a b c : Point) : Point :=
  ⟨b.x - c001 * ((a.x - b.x) + (c.x - b.x)), b.y - c001 * ((a.y - b.y) + (c.y - b.y))⟩

/-- What `construct_point_in_polygon` logs: the info "Seed is inside the hole on first
attempt", the info "Seed inside the hole on second attempt", or the error "Seed point not in
the hole :(. Result will be bad.". -/
inductive Seed_message where
  | first_attempt
  | second_attempt
  | not_in_hole
deriving DecidableEq

/-- The function `construct_point_in_polygon` (main.cpp, lines 319-343): the returned seed
and the message that is logged; `none` stands for the access `vhs[0]`, `vhs[1]` or `vhs[2]`
into a vector with fewer than three elements. -/
def construct_point_in_polygon (cdt : CDT) (vhs : List Vertex_handle) :
    Option (Point × Seed_message) :=
  match vhs with
  | v0 :: v1 :: v2 :: _ =>
    if bounded_side_2 (vhs.map cdt.point)
        (seed_first (cdt.point v0) (cdt.point v1) (cdt.point v2))
        = Bounded_side.ON_BOUNDED_SIDE then
      some (seed_first (cdt.point v0) (cdt.point v1) (cdt.point v2), Seed_message.first_attempt)
    else if bounded_side_2 (vhs.map cdt.point)
        (seed_second (cdt.point v0) (cdt.point v1) (cdt.point v2))
        = Bounded_side.ON_BOUNDED_SIDE then
      some (seed_second (cdt.point v0) (cdt.point v1) (cdt.point v2),
        Seed_message.second_attempt)
    else
      some (seed_second (cdt.point v0) (cdt.point v1) (cdt.point v2), Seed_message.not_in_hole)
  | _ => none

/-- The loop of `main` that synthesizes one seed per hole (lines 145-152):
`construct_point_in_polygon(cgal_polygon[i])` for `i` from 1 below `input.polygon.size()`. -/
def main_seeds (cdt : CDT) (input : TessaInput) (cgal_polygon : List (List Vertex_handle)) :
    List (Option (Point × Seed_message)) :=
  ((cgal_polygon.take input.polygon.length).drop 1).map (construct_point_in_polygon cdt)

/-- Two edges of a polygon meet properly: consecutive edges share exactly their common
vertex, other edges do not meet. -/
def edges_meet_properly (e f : Point × Point) : Prop :=
  if e.2 = f.1 then intersection ⟨e.1, e.2⟩ ⟨f.1, f.2⟩ = some (Intersection_result.point e.2)
  else if f.2 = e.1 then
    intersection ⟨e.1, e.2⟩ ⟨f.1, f.2⟩ = some (Intersection_result.point e.1)
  else intersection ⟨e.1, e.2⟩ ⟨f.1, f.2⟩ = none

/-- The vertex list (closing vertex not repeated) is a simple polygon: at least three
pairwise distinct vertices, and any two edges meet properly. -/
def simple_polygon (poly : List Point) : Prop :=
  3 ≤ poly.length ∧ poly.Nodup ∧ (polygon_edges poly).Pairwise edges_meet_properly

/-- The hole ring `[(1,1),(3,1),(3,3),(1,3)]` as the parser delivers it, closing point
repeated. -/
def square_hole_closed : List Point := [⟨1, 1⟩, ⟨3, 1⟩, ⟨3, 3⟩, ⟨1, 3⟩, ⟨1, 1⟩]

/-- The input `POLYGON((0 0,4 0,4 4,0 4,0 0),(1 1,3 1,3 3,1 3,1 1))`. -/
def input_square_with_hole : TessaInput :=
  ⟨[[⟨0, 0⟩, ⟨4, 0⟩, ⟨4, 4⟩, ⟨0, 4⟩, ⟨0, 0⟩], square_hole_closed], []⟩

/-- A simple polygon with four vertices: the corner `(1,1)` between two long sides, and a
fourth vertex `(2,2)` close to that corner. -/
def dart : List Point := [⟨20001, 1⟩, ⟨1, 1⟩, ⟨1, 20001⟩, ⟨2, 2⟩]

/-- The input
`POLYGON((0 0,30000 0,30000 30000,0 30000,0 0),(20001 1,1 1,1 20001,2 2,20001 1))`:
a square with the hole `dart`. -/
def input_dart_hole : TessaInput :=
  ⟨[[⟨0, 0⟩, ⟨30000, 0⟩, ⟨30000, 30000⟩, ⟨0, 30000⟩, ⟨0, 0⟩],
    [⟨20001, 1⟩, ⟨1, 1⟩, ⟨1, 20001⟩, ⟨2, 2⟩, ⟨20001, 1⟩]], []⟩

/-- Every type stored in the table is boundary, hole or road. -/
def Table.Typed (t : Table) : Prop := ∀ e ∈ t, e.2 = boundary ∨ e.2 = hole ∨ e.2 = road

/-! ## The whole run: `main` -/

/-- The content of `list_of_seeds` after the loop of lines 147-152, from the results of the
calls of `construct_point_in_polygon`; `none` when one of the calls is undefined. -/
def list_of_seeds : List (Option (Point × Seed_message)) → Option (List Point)
  | [] => some []
  | none :: _ => none
  | some s :: rest => (list_of_seeds rest).map (fun l => s.1 :: l)

/-- Modelled from the spec: the calls of the kernel in the three operation blocks of `main`
(lines 157-197), whose bodies are not part of the sources, as functions on the
triangulation; and the finite edges of the resulting triangulation with the in-domain
flags of their faces, as left by `set_domain_from_rings` or by the mesher. The calls are
taken to return. -/
structure Kernel where
  make_conforming_Delaunay_2 : CDT → CDT
  refine_Delaunay_mesh_2 : CDT → List Point → CDT
  make_conforming_Gabriel_2 : CDT → CDT
  finite_edges : Flags → CDT → List (List Vertex_handle) → List Finite_edge

/-- The triangulation after the three operation blocks of `main` (lines 157-197): every
block runs only under its flag. -/
def main_operations (kernel : Kernel) (f : Flags) (cdt : CDT) (list_of_seeds : List Point) :
    CDT :=
  let cdt1 := if f.op_cdt then kernel.make_conforming_Delaunay_2 cdt else cdt
  let cdt2 := if f.op_mesh then kernel.refine_Delaunay_mesh_2 cdt1 list_of_seeds else cdt1
  if f.op_gabriel then kernel.make_conforming_Gabriel_2 cdt2 else cdt2

/-- One line written to the output stream (lines 237-280). -/
inductive Output_line
  | number_of_vertices (n : Nat)
  | num_edges (n : Int)
  | vertex (id : Int) (x y : ℚ)
  | edge (e : Edge_line)
deriving DecidableEq

/-- The function `main` from the result of `parse_wkt_polygon` on (lines 115-285): the exit
status and the lines written to the output stream. `none` stands for a run that reaches
an undefined access (`vhs[2]` in `construct_point_in_polygon`). -/
def main (success : Bool) (input : TessaInput) (f : Flags) (free_for : String)
    (kernel : Kernel) : Option (Int × List Output_line) :=
  if success = false then some (2, [])
  else
    let s := main_ingest input
    match list_of_seeds (main_seeds s.1.cdt input s.2) with
    | none => none
    | some seeds =>
      let cdt1 := main_operations kernel f s.1.cdt seeds
      let finite_edges := kernel.finite_edges f cdt1 s.2
      let chain_edges :=
        main_repair f cdt1 (finite_edges.map (fun e => (e.vh1, e.vh2))) s.1.chain_edges
      let vertices := (main_cleanup (did_something f) cdt1.vertices s.1.index).1
      let cdt : CDT := { cdt1 with vertices := vertices }
      some (0,
        [Output_line.number_of_vertices vertices.length,
          Output_line.num_edges (output_num_edges finite_edges)]
        ++ vertices.map (fun v => Output_line.vertex v.id v.point.x v.point.y)
        ++ (output_edges (did_something f) cdt chain_edges free_for finite_edges s.2).map
            Output_line.edge)

/-- The input `POLYGON((0 0,4 0,4 4,0 4,0 0),(1 1,2 2))`: the second ring has two points. -/
def input_short_hole : TessaInput :=
  ⟨[[⟨0, 0⟩, ⟨4, 0⟩, ⟨4, 4⟩, ⟨0, 4⟩, ⟨0, 0⟩], [⟨1, 1⟩, ⟨2, 2⟩]], []⟩

/-- A kernel that changes nothing and reports no finite edge. -/
def kernel_idle : Kernel := ⟨fun cdt => cdt, fun cdt _ => cdt, fun cdt => cdt, fun _ _ _ => []⟩

/-- The type that `main` hands to `insert_chain` for every ring, from the value of `type`
at the first of them: `type` itself, then `hole` for every later ring (lines 128-133). -/
def ring_types (type : Int) : List (List Point) → List Int
  | [] => []
  | _ :: rest => type :: rest.map (fun _ => hole)

/-- The type of every chain, in the order of ingestion: boundary for the first ring, hole
for every later ring, road for every line-string. -/
def chain_types (input : TessaInput) : List Int :=
  ring_types boundary input.polygon ++ input.linestrings.map (fun _ => road)

/-- The original chain edges: for every chain, in the order of ingestion, the handle pairs
of its consecutive pairs of distinct points, with the type of the chain. -/
def original_edges (input : TessaInput) : List (List Key × Int) :=
  (List.zipWith nonzero_edges (input.polygon ++ input.linestrings) (main_ingest input).2).zip
    (chain_types input)

/-- The type of the last chain, in the order of the list, that has the directed pair `k`
among its edges. -/
def last_type : List (List Key × Int) → Key → Option Int
  | [], _ => none
  | c :: rest, k =>
    match last_type rest k with
    | some w => some w
    | none => if k ∈ c.1 then some c.2 else none

/-- The input `GEOMETRYCOLLECTION(POLYGON((0 0,4 0,4 4,0 4,0 0)),MULTILINESTRING((0 0,4 0)))`:
a square ring and a road that runs along its first side in the same direction. -/
def input_road_along_boundary : TessaInput :=
  ⟨[[⟨0, 0⟩, ⟨4, 0⟩, ⟨4, 4⟩, ⟨0, 4⟩, ⟨0, 0⟩]], [[⟨0, 0⟩, ⟨4, 0⟩]]⟩

/-- A kernel for the four corners of the square: the operations change nothing, the
finite edges are the four sides and one diagonal. -/
def kernel_square : Kernel :=
  ⟨fun cdt => cdt, fun cdt _ => cdt, fun cdt => cdt, fun _ _ _ => square_finite_edges⟩

/-- The table records, for every directed pair, the type of the last of the chains that
has it; `done`, `polys` and `types` are the chains ingested so far, their handle lists and
their types. -/
def Tabled (done : List (List Point)) (polys : List (List Vertex_handle)) (types : List Int)
    (t : Table) : Prop :=
  done.length = polys.length ∧ types.length = polys.length
    ∧ ∀ k, Table.find t k = last_type ((List.zipWith nonzero_edges done polys).zip types) k

/-- The edge lines of the original chain edges: one line for every edge of
`original_edges`, in order, with the type that `edge_type` finds for its handle pair in
the table after ingestion. -/
def original_edge_lines (input : TessaInput) (free_for : String) : List Edge_line :=
  (original_edges input).flatMap (fun c => c.1.map (fun k =>
    output_edge (main_ingest input).1.cdt k.1 k.2 free_for
      (edge_type k.1 k.2 (main_ingest input).1.chain_edges)))

/-- The vertex list (closing vertex not repeated) is a strictly convex polygon: at least
three pairwise distinct vertices, and every vertex that is not an endpoint of an edge lies
strictly to the left of that edge, for all edges (counterclockwise polygon), or strictly
to the right of it, for all edges (clockwise polygon). -/
def strictly_convex (poly : List Point) : Prop :=
  3 ≤ poly.length ∧ poly.Nodup
    ∧ ((∀ e ∈ polygon_edges poly, ∀ w ∈ poly, w ≠ e.1 → w ≠ e.2 → 0 < orientation e.1 e.2 w)
      ∨ (∀ e ∈ polygon_edges poly, ∀ w ∈ poly, w ≠ e.1 → w ≠ e.2 → orientation e.1 e.2 w < 0))

/-- A clockwise triangle with the corners `(0,0)`, `(0,3000000)`, `(4000000,0)`. -/
def big_triangle : List Point := [⟨0, 0⟩, ⟨0, 3000000⟩, ⟨4000000, 0⟩]

/-- A triangulation whose vertices are the corners of `big_triangle`. -/
def cdt_big_triangle : CDT :=
  ⟨[⟨⟨0, 0⟩, 0⟩, ⟨⟨0, 3000000⟩, 1⟩, ⟨⟨4000000, 0⟩, 2⟩], []⟩

/-! # Theorems -/

/-! ## Lookup after assignment -/

theorem Table.find_assign_self (t : Table) (k : Key) (v : Int) :
    Table.find (Table.assign t k v) k = some v := by
  induction t with
  | nil => simp [Table.assign, Table.find]
  | cons e rest ih =>
    obtain ⟨k', v'⟩ := e
    by_cases h1 : k' = k
    · simp [Table.assign, Table.find, h1]
    · by_cases h2 : Key.lt k k' = true
      · simp [Table.assign, Table.find, h1, h2]
      · simp [Table.assign, Table.find, h1, h2, ih]

theorem Table.find_assign_ne (t : Table) (k k2 : Key) (v : Int) (h : k2 ≠ k) :
    Table.find (Table.assign t k v) k2 = Table.find t k2 := by
  induction t with
  | nil => simp [Table.assign, Table.find, Ne.symm h]
  | cons e rest ih =>
    obtain ⟨k', v'⟩ := e
    by_cases h1 : k' = k
    · subst h1
      simp [Table.assign, Table.find, Ne.symm h]
    · by_cases h2 : Key.lt k k' = true
      · simp [Table.assign, Table.find, h1, h2, Ne.symm h]
      · simp [Table.assign, Table.find, h1, h2, ih]

/-- Lookup in reverse order returns the recorded type when the table holds no entry for
the reversed key. -/
theorem edge_type_assign_reverse (t : Table) (a b : Vertex_handle) (v : Int)
    (hab : a ≠ b) (hrev : Table.find t (b, a) = none) :
    edge_type b a (Table.assign t (a, b) v) = v := by
  have hne : ((b, a) : Key) ≠ (a, b) := by
    intro h
    exact hab (congrArg Prod.snd h)
  simp [edge_type, Table.find_assign_ne t (a, b) (b, a) v hne, hrev, Table.find_assign_self]

/-- C1 (evaluation at the failing input): for the square ring followed by the road
`(4 0, 0 0)`, ingestion ends by recording `(1,0) → road` with `chain_edges[{1,0}] = 2` in a
table that already holds `(0,1) → boundary`; afterwards `edge_type(0,1)` is boundary, not
road, while `edge_type(1,0)` is road. -/
theorem C1_edge_type_reverse_lookup_stale :
    (ingest_rings input_road_on_boundary.polygon 0 Ingest.init []).1.chain_edges
        = [((0, 1), boundary), ((1, 2), boundary), ((2, 3), boundary), ((3, 0), boundary)]
      ∧ (main_ingest input_road_on_boundary).1.chain_edges
        = Table.assign
            (ingest_rings input_road_on_boundary.polygon 0 Ingest.init []).1.chain_edges
            (1, 0) road
      ∧ edge_type 0 1 (main_ingest input_road_on_boundary).1.chain_edges = boundary
      ∧ edge_type 1 0 (main_ingest input_road_on_boundary).1.chain_edges = road
      ∧ boundary ≠ road := by
  simp [main_ingest, input_road_on_boundary, ingest_rings, ingest_linestrings, insert_chain,
    insert_chain_points, insert_chain_point, insert_chain_edges, insert_chain_edge, CDT.insert,
    CDT.id, CDT.set_id, Ingest.init, CDT.empty, Vertex.fresh, List.findIdx_cons,
    CDT.insert_constraint, Table.assign, Table.find, Key.lt, edge_type, boundary, road]

/-! ## Domain classification -/

theorem point_is_in_domain_holes_eq (p : Point) (holes : List (List Point)) :
    point_is_in_domain_holes p holes = true
      ↔ ∀ ring ∈ holes, bounded_side_2 ring p ≠ Bounded_side.ON_BOUNDED_SIDE := by
  induction holes with
  | nil => simp [point_is_in_domain_holes]
  | cons ring rest ih =>
    by_cases h : bounded_side_2 ring p = Bounded_side.ON_BOUNDED_SIDE
    · simp [point_is_in_domain_holes, h]
    · simp [point_is_in_domain_holes, h, ih]

theorem point_is_in_domain_cons (p : Point) (outer : List Point) (holes : List (List Point)) :
    point_is_in_domain p (outer :: holes)
      = some (decide (bounded_side_2 outer p = Bounded_side.ON_BOUNDED_SIDE
          ∧ ∀ ring ∈ holes, bounded_side_2 ring p ≠ Bounded_side.ON_BOUNDED_SIDE)) := by
  by_cases h : bounded_side_2 outer p = Bounded_side.ON_BOUNDED_SIDE
  · by_cases h2 : point_is_in_domain_holes p holes = true
    · have := (point_is_in_domain_holes_eq p holes).1 h2
      simpa [point_is_in_domain, h, h2] using this
    · have h3 : ¬ ∀ ring ∈ holes, bounded_side_2 ring p ≠ Bounded_side.ON_BOUNDED_SIDE :=
        fun hh => h2 ((point_is_in_domain_holes_eq p holes).2 hh)
      simp only [Bool.not_eq_true] at h2
      simp [point_is_in_domain, h, h2, h3]
  · simp [point_is_in_domain, h]

/-- C3: for a ring list with outer ring `outer` and further rings `holes`,
`point_is_in_domain` is true exactly when the point is on the bounded side of the outer ring
and on the bounded side of no further ring. For the square `[(0,0),(4,0),(4,4),(0,4)]` with
the hole `[(1,1),(3,1),(3,3),(1,3)]`: `(0.5,0.5)` is in the domain and `(2,2)` is not; `(0,2)`,
on the outer boundary, is not in the domain; `(1,2)`, on the boundary of the hole, is not
counted as inside the hole and is in the domain. -/
theorem C3_point_is_in_domain_iff :
    (∀ (p : Point) (outer : List Point) (holes : List (List Point)),
      point_is_in_domain p (outer :: holes)
        = some (decide (bounded_side_2 outer p = Bounded_side.ON_BOUNDED_SIDE
            ∧ ∀ ring ∈ holes, bounded_side_2 ring p ≠ Bounded_side.ON_BOUNDED_SIDE)))
      ∧ point_is_in_domain ⟨1 / 2, 1 / 2⟩ [square_outer, square_hole] = some true
      ∧ point_is_in_domain ⟨2, 2⟩ [square_outer, square_hole] = some false
      ∧ bounded_side_2 square_outer ⟨0, 2⟩ = Bounded_side.ON_BOUNDARY
      ∧ point_is_in_domain ⟨0, 2⟩ [square_outer, square_hole] = some false
      ∧ bounded_side_2 square_hole ⟨1, 2⟩ = Bounded_side.ON_BOUNDARY
      ∧ point_is_in_domain ⟨1, 2⟩ [square_outer, square_hole] = some true := by
  refine ⟨point_is_in_domain_cons, ?_, ?_, ?_, ?_, ?_, ?_⟩
  all_goals
    norm_num [point_is_in_domain, point_is_in_domain_holes, square_outer, square_hole,
      bounded_side_2, polygon_edges, on_segment, crosses_ray, orientation, List.rotate,
      List.countP_cons] <;> decide

/-! ## The chain list handed to the domain classifier -/

theorem main_ingest_road_in_square : main_ingest input_road_in_square
      = (⟨⟨[⟨⟨0, 0⟩, 0⟩, ⟨⟨4, 0⟩, 1⟩, ⟨⟨4, 4⟩, 2⟩, ⟨⟨0, 4⟩, 3⟩, ⟨⟨1, 1⟩, 4⟩, ⟨⟨3, 1⟩, 5⟩,
            ⟨⟨2, 3⟩, 6⟩],
          [(0, 1), (1, 2), (2, 3), (3, 0), (4, 5), (5, 6)]⟩,
          [((0, 1), 0), ((1, 2), 0), ((2, 3), 0), ((3, 0), 0), ((4, 5), 2), ((5, 6), 2)],
          7, 6⟩, [[0, 1, 2, 3, 0], [4, 5, 6]]) := by
    simp [main_ingest, input_road_in_square, ingest_rings, ingest_linestrings, insert_chain,
      insert_chain_points, insert_chain_point, insert_chain_edges, insert_chain_edge,
      CDT.insert, CDT.id, CDT.set_id, Ingest.init, CDT.empty, Vertex.fresh, List.findIdx_cons,
      CDT.insert_constraint, Table.assign, Key.lt]

/-- C4 (evaluation at the failing input): for the square ring with the open road
`(1 1, 3 1, 2 3)`, `main` hands `set_domain_from_rings` the chain list
`[[0,1,2,3,0],[4,5,6]]`, road included. The Delaunay face on the three vertices of the road
(in each of its three vertex orders) gets the flag false, although its representative point
is strictly inside ring 0 and the input has no hole: classified against the rings alone the
face is in the domain. -/
theorem C4_road_chain_classified_as_hole :
    (main_ingest input_road_in_square).2 = [[0, 1, 2, 3, 0], [4, 5, 6]]
      ∧ set_domain_from_rings (main_ingest input_road_in_square).1.cdt
          [(4, 5, 6), (5, 6, 4), (6, 4, 5)] (main_ingest input_road_in_square).2
        = [some false, some false, some false]
      ∧ set_domain_from_rings (main_ingest input_road_in_square).1.cdt
          [(4, 5, 6), (5, 6, 4), (6, 4, 5)]
          ((main_ingest input_road_in_square).2.take input_road_in_square.polygon.length)
        = [some true, some true, some true] := by
  rw [main_ingest_road_in_square]
  have h0 : ∀ cs, CDT.point ⟨[⟨⟨0, 0⟩, 0⟩, ⟨⟨4, 0⟩, 1⟩, ⟨⟨4, 4⟩, 2⟩, ⟨⟨0, 4⟩, 3⟩, ⟨⟨1, 1⟩, 4⟩,
      ⟨⟨3, 1⟩, 5⟩, ⟨⟨2, 3⟩, 6⟩], cs⟩ 0 = ⟨0, 0⟩ := fun _ => rfl
  have h1 : ∀ cs, CDT.point ⟨[⟨⟨0, 0⟩, 0⟩, ⟨⟨4, 0⟩, 1⟩, ⟨⟨4, 4⟩, 2⟩, ⟨⟨0, 4⟩, 3⟩, ⟨⟨1, 1⟩, 4⟩,
      ⟨⟨3, 1⟩, 5⟩, ⟨⟨2, 3⟩, 6⟩], cs⟩ 1 = ⟨4, 0⟩ := fun _ => rfl
  have h2 : ∀ cs, CDT.point ⟨[⟨⟨0, 0⟩, 0⟩, ⟨⟨4, 0⟩, 1⟩, ⟨⟨4, 4⟩, 2⟩, ⟨⟨0, 4⟩, 3⟩, ⟨⟨1, 1⟩, 4⟩,
      ⟨⟨3, 1⟩, 5⟩, ⟨⟨2, 3⟩, 6⟩], cs⟩ 2 = ⟨4, 4⟩ := fun _ => rfl
  have h3 : ∀ cs, CDT.point ⟨[⟨⟨0, 0⟩, 0⟩, ⟨⟨4, 0⟩, 1⟩, ⟨⟨4, 4⟩, 2⟩, ⟨⟨0, 4⟩, 3⟩, ⟨⟨1, 1⟩, 4⟩,
      ⟨⟨3, 1⟩, 5⟩, ⟨⟨2, 3⟩, 6⟩], cs⟩ 3 = ⟨0, 4⟩ := fun _ => rfl
  have h4 : ∀ cs, CDT.point ⟨[⟨⟨0, 0⟩, 0⟩, ⟨⟨4, 0⟩, 1⟩, ⟨⟨4, 4⟩, 2⟩, ⟨⟨0, 4⟩, 3⟩, ⟨⟨1, 1⟩, 4⟩,
      ⟨⟨3, 1⟩, 5⟩, ⟨⟨2, 3⟩, 6⟩], cs⟩ 4 = ⟨1, 1⟩ := fun _ => rfl
  have h5 : ∀ cs, CDT.point ⟨[⟨⟨0, 0⟩, 0⟩, ⟨⟨4, 0⟩, 1⟩, ⟨⟨4, 4⟩, 2⟩, ⟨⟨0, 4⟩, 3⟩, ⟨⟨1, 1⟩, 4⟩,
      ⟨⟨3, 1⟩, 5⟩, ⟨⟨2, 3⟩, 6⟩], cs⟩ 5 = ⟨3, 1⟩ := fun _ => rfl
  have h6 : ∀ cs, CDT.point ⟨[⟨⟨0, 0⟩, 0⟩, ⟨⟨4, 0⟩, 1⟩, ⟨⟨4, 4⟩, 2⟩, ⟨⟨0, 4⟩, 3⟩, ⟨⟨1, 1⟩, 4⟩,
      ⟨⟨3, 1⟩, 5⟩, ⟨⟨2, 3⟩, 6⟩], cs⟩ 6 = ⟨2, 3⟩ := fun _ => rfl
  refine ⟨rfl, ?_, ?_⟩
  all_goals
    simp only [set_domain_from_rings, input_road_in_square, List.map_cons, List.map_nil,
      List.length_cons, List.length_nil, List.take_succ_cons, List.take_zero, Nat.reduceAdd,
      h0, h1, h2, h3, h4, h5, h6]
    norm_num [centroid, c033, point_is_in_domain, point_is_in_domain_holes,
      bounded_side_2, polygon_edges, on_segment, crosses_ray, orientation, List.rotate,
      List.countP_cons]

/-! ## When the label repair runs -/

theorem main_ingest_rhombus : main_ingest input_rhombus
    = (⟨⟨[⟨⟨0, 1⟩, 0⟩, ⟨⟨10, 0⟩, 1⟩, ⟨⟨20, 1⟩, 2⟩, ⟨⟨10, 2⟩, 3⟩],
          [(0, 1), (1, 2), (2, 3), (3, 0), (0, 2)]⟩,
        [((0, 1), 0), ((0, 2), 2), ((1, 2), 0), ((2, 3), 0), ((3, 0), 0)], 4, 5⟩,
      [[0, 1, 2, 3, 0], [0, 2]]) := by
  simp [main_ingest, input_rhombus, ingest_rings, ingest_linestrings, insert_chain,
    insert_chain_points, insert_chain_point, insert_chain_edges, insert_chain_edge,
    CDT.insert, CDT.id, CDT.set_id, Ingest.init, CDT.empty, Vertex.fresh, List.findIdx_cons,
    CDT.insert_constraint, Table.assign, Key.lt]

/-- C10 (evaluation at the failing input): with `--cdt` alone the conforming-Delaunay
operation is requested (`did_something` is true) and the repair pass does not run
(`should_repair_labels` is false), so the table is left as ingestion built it: the repair
runs exactly when `--mesh` or `--gabriel` is given. For the rhombus whose road
`(0 1, 20 1)` is subdivided at `(10,1)`, the two halves of the road are typed mesh after
`--cdt`, and road after `--gabriel`. -/
theorem C10_repair_skipped_for_cdt_only :
    did_something ⟨true, false, false⟩ = true
      ∧ should_repair_labels ⟨true, false, false⟩ = false
      ∧ (∀ cdt finite_edges chain_edges,
          main_repair ⟨true, false, false⟩ cdt finite_edges chain_edges = chain_edges)
      ∧ (∀ f : Flags, should_repair_labels f = (f.op_mesh || f.op_gabriel))
      ∧ (∀ f : Flags, did_something f = (f.op_cdt || f.op_mesh || f.op_gabriel))
      ∧ edge_type 0 4 (main_repair ⟨true, false, false⟩ cdt_rhombus_split [(0, 4), (4, 2)]
          (main_ingest input_rhombus).1.chain_edges) = mesh
      ∧ edge_type 4 2 (main_repair ⟨true, false, false⟩ cdt_rhombus_split [(0, 4), (4, 2)]
          (main_ingest input_rhombus).1.chain_edges) = mesh
      ∧ edge_type 0 4 (main_repair ⟨false, false, true⟩ cdt_rhombus_split [(0, 4), (4, 2)]
          (main_ingest input_rhombus).1.chain_edges) = road
      ∧ edge_type 4 2 (main_repair ⟨false, false, true⟩ cdt_rhombus_split [(0, 4), (4, 2)]
          (main_ingest input_rhombus).1.chain_edges) = road := by
  have hp0 : cdt_rhombus_split.point 0 = ⟨0, 1⟩ := by
    simp only [cdt_rhombus_split, main_ingest_rhombus]; rfl
  have hp1 : cdt_rhombus_split.point 1 = ⟨10, 0⟩ := by
    simp only [cdt_rhombus_split, main_ingest_rhombus]; rfl
  have hp2 : cdt_rhombus_split.point 2 = ⟨20, 1⟩ := by
    simp only [cdt_rhombus_split, main_ingest_rhombus]; rfl
  have hp3 : cdt_rhombus_split.point 3 = ⟨10, 2⟩ := by
    simp only [cdt_rhombus_split, main_ingest_rhombus]; rfl
  have hp4 : cdt_rhombus_split.point 4 = ⟨10, 1⟩ := by
    simp only [cdt_rhombus_split, main_ingest_rhombus]; rfl
  have hi0 : cdt_rhombus_split.id 0 = 0 := by
    simp only [cdt_rhombus_split, main_ingest_rhombus]; rfl
  have hi2 : cdt_rhombus_split.id 2 = 2 := by
    simp only [cdt_rhombus_split, main_ingest_rhombus]; rfl
  have hi4 : cdt_rhombus_split.id 4 = -1 := by
    simp only [cdt_rhombus_split, main_ingest_rhombus]; rfl
  have hb1 : find_edge_type_bruteforce cdt_rhombus_split 0 4
      [((0, 1), 0), ((0, 2), 2), ((1, 2), 0), ((2, 3), 0), ((3, 0), 0)] = 2 := by
    simp only [find_edge_type_bruteforce, hp0, hp1, hp2, hp3, hp4]
    norm_num [intersection, is_segment, orientation, along, on_segment]
  have hb2 : find_edge_type_bruteforce cdt_rhombus_split 4 2
      [((0, 1), 0), ((0, 2), 2), ((1, 2), 0), ((2, 3), 0), ((3, 0), 0)] = 2 := by
    simp only [find_edge_type_bruteforce, hp0, hp1, hp2, hp3, hp4]
    norm_num [intersection, is_segment, orientation, along, on_segment]
  refine ⟨by decide, by decide, ?_, ?_, ?_, ?_, ?_, ?_, ?_⟩
  · intro cdt finite_edges chain_edges
    simp [main_repair, should_repair_labels, main_op_flags]
  · rintro ⟨a, b, c⟩
    cases a <;> cases b <;> cases c <;> rfl
  · rintro ⟨a, b, c⟩
    cases a <;> cases b <;> cases c <;> rfl
  · rw [main_ingest_rhombus]
    simp [main_repair, should_repair_labels, main_op_flags, edge_type,
      Table.find, mesh]
  · rw [main_ingest_rhombus]
    simp [main_repair, should_repair_labels, main_op_flags, edge_type,
      Table.find, mesh]
  · rw [main_ingest_rhombus]
    simp [main_repair, should_repair_labels, main_op_flags, repair_labels,
      repair_new_chain_edges, repair_edge, hi0, hi2, hi4, hb1, hb2, Table.merge, Table.assign,
      Key.lt, edge_type, Table.find, road]
  · rw [main_ingest_rhombus]
    simp [main_repair, should_repair_labels, main_op_flags, repair_labels,
      repair_new_chain_edges, repair_edge, hi0, hi2, hi4, hb1, hb2, Table.merge, Table.assign,
      Key.lt, edge_type, Table.find, road]

/-! ## Ingestion: the invariant and what `insert_chain` does -/

theorem consecutive_ids_succ (n : Nat) :
    consecutive_ids (n + 1) = consecutive_ids n ++ [Int.ofNat n] := by
  simp [consecutive_ids, List.range_succ]

theorem consecutive_ids_length (n : Nat) : (consecutive_ids n).length = n := by
  simp [consecutive_ids]

theorem consecutive_ids_getD (n h : Nat) (d : Int) (hlt : h < n) :
    (consecutive_ids n).getD h d = Int.ofNat h := by
  simp [consecutive_ids, List.getD_eq_getElem?_getD, hlt]

theorem CDT.id_eq_ids_getD (cdt : CDT) (h : Nat) :
    cdt.id h = (ids cdt.vertices).getD h (-1) := by
  simp only [CDT.id, ids, Vertex.fresh]
  rw [show ((-1 : Int)) = Vertex.id ⟨⟨0, 0⟩, -1⟩ from rfl, List.getD_map]

theorem CDT.point_eq_getD (cdt : CDT) (h : Nat) :
    cdt.point h = (cdt.vertices.map Vertex.point).getD h ⟨0, 0⟩ := by
  simp only [CDT.point, Vertex.fresh]
  rw [show (⟨0, 0⟩ : Point) = Vertex.point ⟨⟨0, 0⟩, -1⟩ from rfl, List.getD_map]

theorem Ingested.id_at {cdt : CDT} {index : Int} (hI : Ingested cdt index) {h : Nat}
    (hlt : h < cdt.vertices.length) : cdt.id h = Int.ofNat h := by
  rw [CDT.id_eq_ids_getD, hI.2.1, consecutive_ids_getD _ _ _ hlt]

theorem Ingested.point_inj {cdt : CDT} {index : Int} (hI : Ingested cdt index) {h1 h2 : Nat}
    (hlt1 : h1 < cdt.vertices.length) (hlt2 : h2 < cdt.vertices.length)
    (hp : cdt.point h1 = cdt.point h2) : h1 = h2 := by
  rw [CDT.point_eq_getD, CDT.point_eq_getD] at hp
  have l1 : h1 < (cdt.vertices.map Vertex.point).length := by simpa using hlt1
  have l2 : h2 < (cdt.vertices.map Vertex.point).length := by simpa using hlt2
  rw [List.getD_eq_getElem _ _ l1, List.getD_eq_getElem _ _ l2] at hp
  exact (List.Nodup.getElem_inj_iff hI.2.2).1 hp

/-- In an ingested triangulation two vertices have the same identity exactly when they have
the same point. -/
theorem Ingested.id_eq_iff {cdt : CDT} {index : Int} (hI : Ingested cdt index) {h1 h2 : Nat}
    (hlt1 : h1 < cdt.vertices.length) (hlt2 : h2 < cdt.vertices.length) :
    cdt.id h1 = cdt.id h2 ↔ cdt.point h1 = cdt.point h2 := by
  rw [hI.id_at hlt1, hI.id_at hlt2]
  constructor
  · intro h
    have : h1 = h2 := by simpa using h
    rw [this]
  · intro h
    rw [hI.point_inj hlt1 hlt2 h]

theorem Ingested.init : Ingested CDT.empty 0 := by
  refine ⟨rfl, rfl, ?_⟩
  simp [CDT.empty]


theorem List.modify_length_append {α : Type} (f : α → α) (l : List α) (a : α) :
    (l ++ [a]).modify f l.length = l ++ [f a] := by
  induction l with
  | nil => rfl
  | cons b rest ih =>
    simp only [List.cons_append, List.length_cons, List.modify, List.modifyTailIdx] at ih ⊢
    exact congrArg (List.cons b) ih

/-- Inserting a point that is already a vertex: the triangulation is unchanged and the
handle of the vertex is returned. -/
theorem CDT.insert_of_mem (cdt : CDT) (p : Point) (hp : p ∈ cdt.vertices.map Vertex.point) :
    (cdt.insert p).1 = cdt ∧ (cdt.insert p).2 < cdt.vertices.length
      ∧ cdt.point (cdt.insert p).2 = p := by
  have hex : ∃ v ∈ cdt.vertices, decide (v.point = p) = true := by
    obtain ⟨v, hv, rfl⟩ := List.mem_map.1 hp
    exact ⟨v, hv, by simp⟩
  have hlt := List.findIdx_lt_length_of_exists hex
  refine ⟨?_, ?_, ?_⟩
  · simp [CDT.insert, hlt]
  · simp [CDT.insert, hlt]
  · simp only [CDT.insert, hlt, if_true, CDT.point]
    rw [List.getD_eq_getElem _ _ hlt]
    have := @List.findIdx_getElem _ (fun v => decide (v.point = p)) cdt.vertices hlt
    simpa using this

/-- Inserting a point that is not yet a vertex appends a vertex with the sentinel. -/
theorem CDT.insert_of_not_mem (cdt : CDT) (p : Point)
    (hp : p ∉ cdt.vertices.map Vertex.point) :
    cdt.insert p
      = ({ cdt with vertices := cdt.vertices ++ [Vertex.fresh p] }, cdt.vertices.length) := by
  have hall : ∀ v ∈ cdt.vertices, decide (v.point = p) = false := by
    intro v hv
    simp only [decide_eq_false_iff_not]
    intro h
    exact hp (List.mem_map.2 ⟨v, hv, h⟩)
  have := List.findIdx_eq_length_of_false hall
  simp [CDT.insert, this]




theorem CDT.Extends.refl (cdt : CDT) : cdt.Extends cdt := ⟨[], by simp⟩

theorem CDT.Extends.trans {a b c : CDT} (h1 : a.Extends b) (h2 : b.Extends c) :
    a.Extends c := by
  obtain ⟨l1, e1⟩ := h1
  obtain ⟨l2, e2⟩ := h2
  exact ⟨l1 ++ l2, by rw [e2, e1, List.append_assoc]⟩

theorem CDT.Extends.length_le {a b : CDT} (h : a.Extends b) :
    a.vertices.length ≤ b.vertices.length := by
  obtain ⟨l, e⟩ := h
  rw [e, List.length_append]
  exact Nat.le_add_right _ _

theorem CDT.Extends.point_kept {a b : CDT} (h : a.Extends b) {vh : Nat}
    (hlt : vh < a.vertices.length) : b.point vh = a.point vh := by
  obtain ⟨l, e⟩ := h
  simp only [CDT.point, e]
  rw [List.getD_append _ _ _ _ hlt]

theorem CDT.Extends.id_kept {a b : CDT} (h : a.Extends b) {vh : Nat}
    (hlt : vh < a.vertices.length) : b.id vh = a.id vh := by
  obtain ⟨l, e⟩ := h
  simp only [CDT.id, e]
  rw [List.getD_append _ _ _ _ hlt]

/-- A point that is already a vertex: `insert_chain_point` changes neither the triangulation
nor the identity counter and returns the handle of that vertex. -/
theorem insert_chain_point_of_mem {cdt : CDT} {index : Int} (hI : Ingested cdt index)
    (p : Point) (hp : p ∈ cdt.vertices.map Vertex.point) :
    insert_chain_point cdt index p = (cdt, index, (cdt.insert p).2) := by
  obtain ⟨h1, h2, _⟩ := CDT.insert_of_mem cdt p hp
  have hid : (cdt.insert p).1.id (cdt.insert p).2 ≠ -1 := by
    rw [h1, hI.id_at h2]
    simp only [Int.ofNat_eq_coe]
    omega
  rw [h1] at hid
  simp only [insert_chain_point, h1, hid, if_false]

/-- A point that is not yet a vertex: `insert_chain_point` appends a vertex whose identity is
the counter, and advances the counter. -/
theorem insert_chain_point_of_not_mem {cdt : CDT} {index : Int} (p : Point)
    (hp : p ∉ cdt.vertices.map Vertex.point) :
    insert_chain_point cdt index p
      = ({ cdt with vertices := cdt.vertices ++ [⟨p, index⟩] }, index + 1,
          cdt.vertices.length) := by
  have hid : CDT.id { cdt with vertices := cdt.vertices ++ [Vertex.fresh p] }
      cdt.vertices.length = -1 := by
    simp only [CDT.id]
    rw [List.getD_append_right _ _ _ _ (Nat.le_refl _)]
    simp [Vertex.fresh]
  simp only [insert_chain_point, CDT.insert_of_not_mem cdt p hp, hid, if_true, CDT.set_id,
    List.modify_length_append]
  rfl

/-- What one step of the first loop of `insert_chain` establishes. -/
theorem insert_chain_point_spec {cdt : CDT} {index : Int} (hI : Ingested cdt index)
    (p : Point) :
    Ingested (insert_chain_point cdt index p).1 (insert_chain_point cdt index p).2.1
      ∧ cdt.Extends (insert_chain_point cdt index p).1
      ∧ (insert_chain_point cdt index p).1.constraints = cdt.constraints
      ∧ (insert_chain_point cdt index p).2.2 < (insert_chain_point cdt index p).1.vertices.length
      ∧ (insert_chain_point cdt index p).1.point (insert_chain_point cdt index p).2.2 = p
      ∧ ∀ q, q ∈ (insert_chain_point cdt index p).1.vertices.map Vertex.point
          ↔ q ∈ cdt.vertices.map Vertex.point ∨ q = p := by
  by_cases hp : p ∈ cdt.vertices.map Vertex.point
  · obtain ⟨_, h2, h3⟩ := CDT.insert_of_mem cdt p hp
    rw [insert_chain_point_of_mem hI p hp]
    refine ⟨hI, CDT.Extends.refl cdt, rfl, h2, h3, ?_⟩
    intro q
    constructor
    · exact Or.inl
    · rintro (h | rfl)
      · exact h
      · exact hp
  · rw [insert_chain_point_of_not_mem p hp]
    obtain ⟨e1, e2, e3⟩ := hI
    refine ⟨⟨?_, ?_, ?_⟩, ⟨[⟨p, index⟩], rfl⟩, rfl, ?_, ?_, ?_⟩
    · simp only [List.length_append, List.length_singleton, e1, Int.ofNat_eq_coe]
      push_cast
      ring
    · simp only [ids, List.map_append, List.map_cons, List.map_nil, List.length_append,
        List.length_singleton] at e2 ⊢
      rw [consecutive_ids_succ, e2, e1]
    · simp only [List.map_append, List.map_cons, List.map_nil]
      rw [List.nodup_append]
      refine ⟨e3, List.nodup_singleton _, ?_⟩
      intro a ha hb
      rw [List.mem_singleton] at hb
      exact hp (hb ▸ ha)
    · simp
    · simp only [CDT.point]
      rw [List.getD_append_right _ _ _ _ (Nat.le_refl _)]
      simp
    · intro q
      simp [List.mem_append]



theorem Recorded.mono {cdt cdt' : CDT} (h : cdt.Extends cdt') {chain : List Point}
    {hs : List Vertex_handle} (hr : Recorded cdt chain hs) : Recorded cdt' chain hs := by
  unfold Recorded at hr ⊢
  refine List.Forall₂.imp ?_ hr
  intro p vh hv
  exact ⟨Nat.lt_of_lt_of_le hv.1 h.length_le, by rw [h.point_kept hv.1]; exact hv.2⟩

/-- What the first loop of `insert_chain` establishes. -/
theorem insert_chain_points_spec (chain : List Point) :
    ∀ (cdt : CDT) (index : Int) (acc : List Vertex_handle), Ingested cdt index →
      Ingested (insert_chain_points cdt index acc chain).1
          (insert_chain_points cdt index acc chain).2.1
        ∧ cdt.Extends (insert_chain_points cdt index acc chain).1
        ∧ (insert_chain_points cdt index acc chain).1.constraints = cdt.constraints
        ∧ (∃ hs, (insert_chain_points cdt index acc chain).2.2 = acc ++ hs
            ∧ Recorded (insert_chain_points cdt index acc chain).1 chain hs)
        ∧ ∀ q, q ∈ (insert_chain_points cdt index acc chain).1.vertices.map Vertex.point
            ↔ q ∈ cdt.vertices.map Vertex.point ∨ q ∈ chain := by
  induction chain with
  | nil =>
    intro cdt index acc hI
    refine ⟨hI, CDT.Extends.refl cdt, rfl, ⟨[], by simp [insert_chain_points], ?_⟩, ?_⟩
    · exact List.Forall₂.nil
    · intro q
      simp [insert_chain_points]
  | cons p rest ih =>
    intro cdt index acc hI
    obtain ⟨s1, s2, s3, s4, s5, s6⟩ := insert_chain_point_spec hI p
    obtain ⟨r1, r2, r3, ⟨hs, r4, r5⟩, r6⟩ :=
      ih (insert_chain_point cdt index p).1 (insert_chain_point cdt index p).2.1
        (acc ++ [(insert_chain_point cdt index p).2.2]) s1
    simp only [insert_chain_points]
    refine ⟨r1, s2.trans r2, r3.trans s3, ⟨(insert_chain_point cdt index p).2.2 :: hs, ?_, ?_⟩, ?_⟩
    · rw [r4, List.append_assoc]
      rfl
    · refine List.Forall₂.cons ⟨Nat.lt_of_lt_of_le s4 r2.length_le, ?_⟩ r5
      rw [r2.point_kept s4]
      exact s5
    · intro q
      rw [r6 q, s6 q, List.mem_cons]
      constructor
      · rintro ((h | h) | h)
        · exact Or.inl h
        · exact Or.inr (Or.inl h)
        · exact Or.inr (Or.inr h)
      · rintro (h | h | h)
        · exact Or.inl (Or.inl h)
        · exact Or.inl (Or.inr h)
        · exact Or.inr h

theorem Recorded.length_eq {cdt : CDT} {chain : List Point} {hs : List Vertex_handle}
    (hr : Recorded cdt chain hs) : hs.length = chain.length :=
  (List.Forall₂.length_eq hr).symm

theorem nonzero_edges_length (chain : List Point) :
    ∀ hs : List Vertex_handle, hs.length = chain.length →
      (nonzero_edges chain hs).length = count_nonzero_edges chain := by
  induction chain with
  | nil => intro hs _; simp [nonzero_edges, count_nonzero_edges, consecutive_pairs]
  | cons p rest ih =>
    intro hs hl
    cases hs with
    | nil => simp at hl
    | cons a hs1 =>
      cases rest with
      | nil => simp [nonzero_edges, count_nonzero_edges, consecutive_pairs]
      | cons q rest2 =>
        cases hs1 with
        | nil => simp at hl
        | cons b hs2 =>
          have := ih (b :: hs2) (by simpa using hl)
          simp only [nonzero_edges, count_nonzero_edges, consecutive_pairs, List.zip_cons_cons,
            List.length_map] at this ⊢
          by_cases hpq : p = q
          · simp only [List.filter_cons, hpq, ne_eq, not_true_eq_false, decide_False,
              Bool.false_eq_true, if_false]
            exact this
          · simp only [List.filter_cons, hpq, ne_eq, not_false_eq_true, decide_True, if_true,
              List.length_cons]
            exact congrArg (fun n => n + 1) this



theorem nonzero_edges_cons_cons (p q : Point) (rest : List Point) (a b : Vertex_handle)
    (hs : List Vertex_handle) :
    nonzero_edges (p :: q :: rest) (a :: b :: hs)
      = if p = q then nonzero_edges (q :: rest) (b :: hs)
        else (a, b) :: nonzero_edges (q :: rest) (b :: hs) := by
  by_cases h : p = q
  · simp [nonzero_edges, consecutive_pairs, List.filter_cons, h]
    rfl
  · simp [nonzero_edges, consecutive_pairs, List.filter_cons, h]
    rfl

/-- What the second loop of `insert_chain` does when the handles are the vertices of the
chain points in an ingested triangulation: the pairs with two different points, and only
they, become constraints and table entries, and each advances the counter by one. -/
theorem insert_chain_edges_spec (type : Int) (chain : List Point) :
    ∀ (hs : List Vertex_handle) (cdt : CDT) (tbl : Table) (num index : Int),
      Ingested cdt index → Recorded cdt chain hs →
      insert_chain_edges type hs cdt tbl num
        = ({ cdt with constraints := cdt.constraints ++ nonzero_edges chain hs },
            (nonzero_edges chain hs).foldl (fun t k => Table.assign t k type) tbl,
            num + Int.ofNat (nonzero_edges chain hs).length) := by
  induction chain with
  | nil =>
    intro hs cdt tbl num index _ hr
    cases hr
    simp [insert_chain_edges, nonzero_edges, consecutive_pairs]
  | cons p rest ih =>
    intro hs cdt tbl num index hI hr
    cases hr with
    | cons hpa hr1 =>
      rename_i a hs1
      cases hr1 with
      | nil => simp [insert_chain_edges, nonzero_edges, consecutive_pairs]
      | cons hqb hr2 =>
        rename_i q b rest2 hs2
        have hr1 : Recorded cdt (q :: rest2) (b :: hs2) := List.Forall₂.cons hqb hr2
        have hid : cdt.id a = cdt.id b ↔ p = q := by
          rw [hI.id_eq_iff hpa.1 hqb.1, hpa.2, hqb.2]
        rw [nonzero_edges_cons_cons]
        by_cases hpq : p = q
        · have e : insert_chain_edge type a b cdt tbl num = (cdt, tbl, num) := by
            simp [insert_chain_edge, hid.2 hpq]
          simp only [insert_chain_edges, e, hpq, if_true]
          exact ih (b :: hs2) cdt tbl num index hI (hpq ▸ hr1)
        · have e : insert_chain_edge type a b cdt tbl num
              = (cdt.insert_constraint a b, Table.assign tbl (a, b) type, num + 1) := by
            simp [insert_chain_edge, mt hid.1 hpq]
          simp only [insert_chain_edges, e, hpq, if_false]
          rw [ih (b :: hs2) (cdt.insert_constraint a b) (Table.assign tbl (a, b) type) (num + 1)
            index hI hr1]
          simp only [CDT.insert_constraint, List.append_assoc, List.singleton_append,
            List.foldl_cons, List.length_cons, Int.ofNat_eq_coe, Nat.cast_add, Nat.cast_one]
          refine Prod.ext rfl (Prod.ext rfl ?_)
          simp only
          ring



theorem nonzero_edges_of_length_le_one (chain : List Point) (hs : List Vertex_handle)
    (h : hs.length ≤ 1) : nonzero_edges chain hs = [] := by
  cases hs with
  | nil => cases chain <;> simp [nonzero_edges, consecutive_pairs]
  | cons a hs1 =>
    cases hs1 with
    | nil =>
      cases chain with
      | nil => simp [nonzero_edges, consecutive_pairs]
      | cons p rest => cases rest <;> simp [nonzero_edges, consecutive_pairs]
    | cons b hs2 => simp at h

/-- What one call of `insert_chain` does in an ingested state. -/
theorem insert_chain_spec (s : Ingest) (chain : List Point) (type : Int)
    (hI : Ingested s.cdt s.index) :
    Ingested (insert_chain s chain type).1.cdt (insert_chain s chain type).1.index
      ∧ s.cdt.Extends (insert_chain s chain type).1.cdt
      ∧ Recorded (insert_chain s chain type).1.cdt chain (insert_chain s chain type).2
      ∧ (insert_chain s chain type).1.chain_edges
          = (nonzero_edges chain (insert_chain s chain type).2).foldl
              (fun t k => Table.assign t k type) s.chain_edges
      ∧ (insert_chain s chain type).1.num_edges_inserted
          = s.num_edges_inserted + Int.ofNat (count_nonzero_edges chain)
      ∧ (insert_chain s chain type).1.cdt.constraints
          = s.cdt.constraints ++ nonzero_edges chain (insert_chain s chain type).2
      ∧ ∀ q, q ∈ (insert_chain s chain type).1.cdt.vertices.map Vertex.point
          ↔ q ∈ s.cdt.vertices.map Vertex.point ∨ q ∈ chain := by
  obtain ⟨r1, r2, r3, ⟨hs, r4, r5⟩, r6⟩ := insert_chain_points_spec chain s.cdt s.index [] hI
  rw [List.nil_append] at r4
  rw [← r4] at r5
  have hlen := r5.length_eq
  by_cases h1 : (insert_chain_points s.cdt s.index [] chain).2.2.length = 1
  · have hz := nonzero_edges_of_length_le_one chain
      (insert_chain_points s.cdt s.index [] chain).2.2 (le_of_eq h1)
    have hc : count_nonzero_edges chain = 0 := by
      rw [← nonzero_edges_length chain _ hlen, hz]
      rfl
    simp only [insert_chain, h1, if_true, hz, List.foldl_nil, hc, List.append_nil]
    exact ⟨r1, r2, r5, trivial, by simp, r3, r6⟩
  · have he := insert_chain_edges_spec type chain
      (insert_chain_points s.cdt s.index [] chain).2.2
      (insert_chain_points s.cdt s.index [] chain).1 s.chain_edges s.num_edges_inserted
      (insert_chain_points s.cdt s.index [] chain).2.1 r1 r5
    simp only [insert_chain, h1, if_false, he]
    refine ⟨r1, r2, r5, trivial, ?_, ?_, r6⟩
    · rw [nonzero_edges_length chain _ hlen]
    · rw [r3]



theorem Recorded_all_mono {cdt cdt' : CDT} (h : cdt.Extends cdt') {chains : List (List Point)}
    {polys : List (List Vertex_handle)} (hr : List.Forall₂ (Recorded cdt) chains polys) :
    List.Forall₂ (Recorded cdt') chains polys :=
  List.Forall₂.imp (fun _ _ hv => Recorded.mono h hv) hr

theorem forall₂_append_singleton {α β : Type} {R : α → β → Prop} {l1 : List α} {l2 : List β}
    {a : α} {b : β} (h : List.Forall₂ R l1 l2) (hab : R a b) :
    List.Forall₂ R (l1 ++ [a]) (l2 ++ [b]) :=
  List.rel_append h (List.Forall₂.cons hab List.Forall₂.nil)

/-- What the loop over the rings establishes, from any ingested state in which the chains
`done` are recorded by `cgal_polygon`. -/
theorem ingest_rings_spec (rings : List (List Point)) :
    ∀ (type : Int) (s : Ingest) (cgal_polygon : List (List Vertex_handle))
      (done : List (List Point)),
      Ingested s.cdt s.index → List.Forall₂ (Recorded s.cdt) done cgal_polygon →
      (∀ q, q ∈ s.cdt.vertices.map Vertex.point ↔ q ∈ done.flatten) →
      Ingested (ingest_rings rings type s cgal_polygon).1.cdt
          (ingest_rings rings type s cgal_polygon).1.index
        ∧ List.Forall₂ (Recorded (ingest_rings rings type s cgal_polygon).1.cdt)
            (done ++ rings) (ingest_rings rings type s cgal_polygon).2
        ∧ ∀ q, q ∈ (ingest_rings rings type s cgal_polygon).1.cdt.vertices.map Vertex.point
            ↔ q ∈ (done ++ rings).flatten := by
  induction rings with
  | nil =>
    intro type s polys done hI hr hm
    simp only [ingest_rings, List.append_nil]
    exact ⟨hI, hr, hm⟩
  | cons ring rest ih =>
    intro type s polys done hI hr hm
    obtain ⟨c1, c2, c3, -, -, -, c7⟩ := insert_chain_spec s ring type hI
    have := ih 1 (insert_chain s ring type).1 (polys ++ [(insert_chain s ring type).2])
      (done ++ [ring]) c1 (forall₂_append_singleton (Recorded_all_mono c2 hr) c3)
      (by
        intro q
        rw [c7 q, hm q]
        simp [List.mem_append])
    simpa [ingest_rings, List.append_assoc] using this

/-- What the loop over the line-strings establishes. -/
theorem ingest_linestrings_spec (chains : List (List Point)) :
    ∀ (s : Ingest) (cgal_polygon : List (List Vertex_handle)) (done : List (List Point)),
      Ingested s.cdt s.index → List.Forall₂ (Recorded s.cdt) done cgal_polygon →
      (∀ q, q ∈ s.cdt.vertices.map Vertex.point ↔ q ∈ done.flatten) →
      Ingested (ingest_linestrings chains s cgal_polygon).1.cdt
          (ingest_linestrings chains s cgal_polygon).1.index
        ∧ List.Forall₂ (Recorded (ingest_linestrings chains s cgal_polygon).1.cdt)
            (done ++ chains) (ingest_linestrings chains s cgal_polygon).2
        ∧ ∀ q, q ∈ (ingest_linestrings chains s cgal_polygon).1.cdt.vertices.map Vertex.point
            ↔ q ∈ (done ++ chains).flatten := by
  induction chains with
  | nil =>
    intro s polys done hI hr hm
    simp only [ingest_linestrings, List.append_nil]
    exact ⟨hI, hr, hm⟩
  | cons chain rest ih =>
    intro s polys done hI hr hm
    obtain ⟨c1, c2, c3, -, -, -, c7⟩ := insert_chain_spec s chain 2 hI
    have := ih (insert_chain s chain 2).1 (polys ++ [(insert_chain s chain 2).2])
      (done ++ [chain]) c1 (forall₂_append_singleton (Recorded_all_mono c2 hr) c3)
      (by
        intro q
        rw [c7 q, hm q]
        simp [List.mem_append])
    simpa [ingest_linestrings, List.append_assoc] using this

/-- After the two ingestion loops of `main`: the state is ingested, `cgal_polygon` records
every chain, and the vertices are exactly the input points. -/
theorem main_ingest_spec (input : TessaInput) :
    Ingested (main_ingest input).1.cdt (main_ingest input).1.index
      ∧ List.Forall₂ (Recorded (main_ingest input).1.cdt)
          (input.polygon ++ input.linestrings) (main_ingest input).2
      ∧ ∀ q, q ∈ (main_ingest input).1.cdt.vertices.map Vertex.point
          ↔ q ∈ (input.polygon ++ input.linestrings).flatten := by
  obtain ⟨a1, a2, a3⟩ := ingest_rings_spec input.polygon 0 Ingest.init [] []
    Ingested.init List.Forall₂.nil (by intro q; simp [Ingest.init, CDT.empty])
  rw [List.nil_append] at a2 a3
  exact ingest_linestrings_spec input.linestrings _ _ input.polygon a1 a2 a3



theorem main_ingest_road_on_boundary : main_ingest input_road_on_boundary
    = (⟨⟨[⟨⟨0, 0⟩, 0⟩, ⟨⟨4, 0⟩, 1⟩, ⟨⟨4, 4⟩, 2⟩, ⟨⟨0, 4⟩, 3⟩],
          [(0, 1), (1, 2), (2, 3), (3, 0), (1, 0)]⟩,
        [((0, 1), 0), ((1, 0), 2), ((1, 2), 0), ((2, 3), 0), ((3, 0), 0)], 4, 5⟩,
      [[0, 1, 2, 3, 0], [1, 0]]) := by
  simp [main_ingest, input_road_on_boundary, ingest_rings, ingest_linestrings, insert_chain,
    insert_chain_points, insert_chain_point, insert_chain_edges, insert_chain_edge,
    CDT.insert, CDT.id, CDT.set_id, Ingest.init, CDT.empty, Vertex.fresh, List.findIdx_cons,
    CDT.insert_constraint, Table.assign, Key.lt]

/-- The number of vertices after ingestion is the number of distinct input points. -/
theorem main_ingest_index (input : TessaInput) :
    (main_ingest input).1.index
      = Int.ofNat (input.polygon ++ input.linestrings).flatten.dedup.length := by
  obtain ⟨hI, _, hm⟩ := main_ingest_spec input
  rw [hI.1]
  have hperm : ((main_ingest input).1.cdt.vertices.map Vertex.point).Perm
      (input.polygon ++ input.linestrings).flatten.dedup := by
    rw [List.perm_ext_iff_of_nodup hI.2.2 (List.nodup_dedup _)]
    intro q
    rw [hm q, List.mem_dedup]
  rw [← hperm.length_eq, List.length_map]

/-- C5: after ingestion of any input, every chain has one handle for each of its points;
two ingested points (of the same or of different chains) have the same vertex identity
exactly when they have the same coordinates; the identity counter is the number of
distinct coordinates that were ingested; and ingesting a coordinate that is already present
returns its vertex, whose point is that coordinate, and leaves the triangulation and the
counter unchanged. -/
theorem C5_identity_stability (input : TessaInput) :
    List.Forall₂ (fun chain hs => List.length hs = List.length chain)
        (input.polygon ++ input.linestrings) (main_ingest input).2
      ∧ (∀ c hs c' hs' p vh p' vh',
          (c, hs) ∈ (input.polygon ++ input.linestrings).zip (main_ingest input).2 →
          (c', hs') ∈ (input.polygon ++ input.linestrings).zip (main_ingest input).2 →
          (p, vh) ∈ c.zip hs → (p', vh') ∈ c'.zip hs' →
          ((main_ingest input).1.cdt.id vh = (main_ingest input).1.cdt.id vh' ↔ p = p'))
      ∧ (main_ingest input).1.index
          = Int.ofNat (input.polygon ++ input.linestrings).flatten.dedup.length
      ∧ (∀ p ∈ (input.polygon ++ input.linestrings).flatten,
          insert_chain_point (main_ingest input).1.cdt (main_ingest input).1.index p
              = ((main_ingest input).1.cdt, (main_ingest input).1.index,
                  ((main_ingest input).1.cdt.insert p).2)
            ∧ (main_ingest input).1.cdt.point ((main_ingest input).1.cdt.insert p).2 = p) := by
  obtain ⟨hI, hr, hm⟩ := main_ingest_spec input
  refine ⟨List.Forall₂.imp (fun _ _ h => Recorded.length_eq h) hr, ?_, main_ingest_index input, ?_⟩
  · intro c hs c' hs' p vh p' vh' h1 h2 h3 h4
    have r1 := List.forall₂_zip (List.forall₂_zip hr h1) h3
    have r2 := List.forall₂_zip (List.forall₂_zip hr h2) h4
    rw [hI.id_eq_iff r1.1 r2.1, r1.2, r2.2]
  · intro p hp
    have hmem := (hm p).2 hp
    exact ⟨insert_chain_point_of_mem hI p hmem, (CDT.insert_of_mem _ p hmem).2.2⟩

/-- C5, instance: in the square ring of `input_road_on_boundary` the first point `(0,0)` and
the closing point `(0,0)` have the same identity, and the corner `(4,0)` of the ring and the
start `(4,0)` of the road have the same identity. -/
theorem C5_identity_stability_witness :
    ((main_ingest input_road_on_boundary).1.cdt.id 0
        = (main_ingest input_road_on_boundary).1.cdt.id 0 ↔ (⟨0, 0⟩ : Point) = ⟨0, 0⟩)
      ∧ ((main_ingest input_road_on_boundary).1.cdt.id 1
        = (main_ingest input_road_on_boundary).1.cdt.id 1 ↔ (⟨4, 0⟩ : Point) = ⟨4, 0⟩)
      ∧ ((main_ingest input_road_on_boundary).1.cdt.id 0
        = (main_ingest input_road_on_boundary).1.cdt.id 1 ↔ (⟨0, 0⟩ : Point) = ⟨4, 0⟩) := by
  have h := (C5_identity_stability input_road_on_boundary).2.1
  have e : (input_road_on_boundary.polygon ++ input_road_on_boundary.linestrings).zip
      (main_ingest input_road_on_boundary).2
        = [([⟨0, 0⟩, ⟨4, 0⟩, ⟨4, 4⟩, ⟨0, 4⟩, ⟨0, 0⟩], [0, 1, 2, 3, 0]),
            ([⟨4, 0⟩, ⟨0, 0⟩], [1, 0])] := by
    rw [main_ingest_road_on_boundary]
    rfl
  rw [e] at h
  refine ⟨?_, ?_, ?_⟩
  · exact h [⟨0, 0⟩, ⟨4, 0⟩, ⟨4, 4⟩, ⟨0, 4⟩, ⟨0, 0⟩] [0, 1, 2, 3, 0]
      [⟨0, 0⟩, ⟨4, 0⟩, ⟨4, 4⟩, ⟨0, 4⟩, ⟨0, 0⟩] [0, 1, 2, 3, 0] ⟨0, 0⟩ 0 ⟨0, 0⟩ 0
      (by simp) (by simp) (by simp) (by simp)
  · exact h [⟨0, 0⟩, ⟨4, 0⟩, ⟨4, 4⟩, ⟨0, 4⟩, ⟨0, 0⟩] [0, 1, 2, 3, 0]
      [⟨4, 0⟩, ⟨0, 0⟩] [1, 0] ⟨4, 0⟩ 1 ⟨4, 0⟩ 1
      (by simp) (by simp) (by simp) (by simp)
  · exact h [⟨0, 0⟩, ⟨4, 0⟩, ⟨4, 4⟩, ⟨0, 4⟩, ⟨0, 0⟩] [0, 1, 2, 3, 0]
      [⟨4, 0⟩, ⟨0, 0⟩] [1, 0] ⟨0, 0⟩ 0 ⟨4, 0⟩ 1
      (by simp) (by simp) (by simp) (by simp)

/-- C6: in every state of ingestion (identity counter equal to the number of vertices, the
vertex at position `i` has identity `i`, points pairwise different) and for every chain,
`insert_chain` advances the edge counter by the number of indices `i` with
`chain[i] ≠ chain[i+1]`, returns one handle for each point, and changes the table by exactly
the assignments `chain_edges[{cgal_polygon[i], cgal_polygon[i+1]}] = type` for those
indices, in order: a pair of identical consecutive points gives neither an entry nor an
increment. A chain of at most one point leaves the table and the counter unchanged. -/
theorem C6_zero_length_edge_suppression (s : Ingest) (chain : List Point) (type : Int)
    (hI : Ingested s.cdt s.index) :
    (insert_chain s chain type).1.num_edges_inserted
        = s.num_edges_inserted + Int.ofNat (count_nonzero_edges chain)
      ∧ (insert_chain s chain type).2.length = chain.length
      ∧ (insert_chain s chain type).1.chain_edges
          = (nonzero_edges chain (insert_chain s chain type).2).foldl
              (fun t k => Table.assign t k type) s.chain_edges
      ∧ (chain.length ≤ 1 →
          (insert_chain s chain type).1.chain_edges = s.chain_edges
            ∧ (insert_chain s chain type).1.num_edges_inserted = s.num_edges_inserted) := by
  obtain ⟨_, _, c3, c4, c5, _, _⟩ := insert_chain_spec s chain type hI
  refine ⟨c5, c3.length_eq, c4, ?_⟩
  intro hlen
  have hz := nonzero_edges_of_length_le_one chain (insert_chain s chain type).2
    (by rw [c3.length_eq]; exact hlen)
  have hc : count_nonzero_edges chain = 0 := by
    rw [← nonzero_edges_length chain _ c3.length_eq, hz]
    rfl
  rw [c4, c5, hz, hc]
  simp

/-- C6, instance: from the initial state, the chain `(0 0, 0 0, 1 0, 1 0, 2 0)` has two
indices with different consecutive points; the counter goes from 0 to 2 and the table gets
the two entries `(0,1)` and `(1,2)`. -/
theorem C6_zero_length_edge_suppression_witness :
    Ingested Ingest.init.cdt Ingest.init.index
      ∧ count_nonzero_edges [⟨0, 0⟩, ⟨0, 0⟩, ⟨1, 0⟩, ⟨1, 0⟩, ⟨2, 0⟩] = 2
      ∧ (insert_chain Ingest.init [⟨0, 0⟩, ⟨0, 0⟩, ⟨1, 0⟩, ⟨1, 0⟩, ⟨2, 0⟩] road).2
          = [0, 0, 1, 1, 2]
      ∧ (insert_chain Ingest.init [⟨0, 0⟩, ⟨0, 0⟩, ⟨1, 0⟩, ⟨1, 0⟩, ⟨2, 0⟩] road).1.chain_edges
          = [((0, 1), road), ((1, 2), road)]
      ∧ (insert_chain Ingest.init [⟨0, 0⟩, ⟨0, 0⟩, ⟨1, 0⟩, ⟨1, 0⟩, ⟨2, 0⟩]
            road).1.num_edges_inserted
          = Ingest.init.num_edges_inserted
            + Int.ofNat (count_nonzero_edges [⟨0, 0⟩, ⟨0, 0⟩, ⟨1, 0⟩, ⟨1, 0⟩, ⟨2, 0⟩]) := by
  refine ⟨Ingested.init, ?_, ?_, ?_,
    (C6_zero_length_edge_suppression Ingest.init [⟨0, 0⟩, ⟨0, 0⟩, ⟨1, 0⟩, ⟨1, 0⟩, ⟨2, 0⟩] road
      Ingested.init).1⟩
  · simp [count_nonzero_edges, consecutive_pairs, List.filter_cons]
  · simp [insert_chain, insert_chain_points, insert_chain_point, insert_chain_edges,
      insert_chain_edge, CDT.insert, CDT.id, CDT.set_id, Ingest.init, CDT.empty, Vertex.fresh,
      List.findIdx_cons, CDT.insert_constraint, Table.assign, Key.lt]
  · simp [insert_chain, insert_chain_points, insert_chain_point, insert_chain_edges,
      insert_chain_edge, CDT.insert, CDT.id, CDT.set_id, Ingest.init, CDT.empty, Vertex.fresh,
      List.findIdx_cons, CDT.insert_constraint, Table.assign, Key.lt, road]

/-! ## Identity backfill -/

theorem consecutive_ids_add (n c : Nat) :
    consecutive_ids (n + c)
      = consecutive_ids n ++ (List.range c).map (fun i : Nat => Int.ofNat n + Int.ofNat i) := by
  simp [consecutive_ids, List.range_add, Function.comp_def]

theorem consecutive_ids_nodup (n : Nat) : (consecutive_ids n).Nodup := by
  unfold consecutive_ids
  exact (List.nodup_range n).map (fun a b h => by simpa using h)

theorem mem_consecutive_ids (n : Nat) (i : Int) :
    i ∈ consecutive_ids n ↔ 0 ≤ i ∧ i < Int.ofNat n := by
  simp only [consecutive_ids, List.mem_map, List.mem_range, Int.ofNat_eq_coe]
  constructor
  · rintro ⟨a, ha, rfl⟩
    omega
  · rintro ⟨h0, h1⟩
    exact ⟨i.toNat, by omega, by omega⟩

theorem cleanup_ids_length (vs : List Vertex) :
    ∀ index : Int, (cleanup_ids vs index).1.length = vs.length := by
  induction vs with
  | nil => intro index; rfl
  | cons v rest ih => intro index; simp [cleanup_ids, ih]

theorem cleanup_ids_points (vs : List Vertex) :
    ∀ index : Int, (cleanup_ids vs index).1.map Vertex.point = vs.map Vertex.point := by
  induction vs with
  | nil => intro index; rfl
  | cons v rest ih =>
    intro index
    by_cases h : v.id = -1
    · simp [cleanup_ids, h, ih]
    · simp [cleanup_ids, h, ih]

/-- The identities after the backfill loop: the identities that were already assigned, and
one new identity `index, index+1, ...` for each vertex that had the sentinel. -/
theorem cleanup_ids_perm (vs : List Vertex) :
    ∀ index : Int, (ids (cleanup_ids vs index).1).Perm
      (ids (vs.filter (fun v => decide (v.id ≠ -1)))
        ++ (List.range (vs.countP (fun v => decide (v.id = -1)))).map
            (fun i : Nat => index + Int.ofNat i)) := by
  induction vs with
  | nil => intro index; simp [cleanup_ids, ids]
  | cons v rest ih =>
    intro index
    by_cases h : v.id = -1
    · have e : (List.range (rest.countP (fun v => decide (v.id = -1)) + 1)).map
          (fun i : Nat => index + Int.ofNat i)
          = index :: (List.range (rest.countP (fun v => decide (v.id = -1)))).map
              (fun i : Nat => index + 1 + Int.ofNat i) := by
        rw [List.range_succ_eq_map, List.map_cons, List.map_map]
        simp only [Int.ofNat_eq_coe, CharP.cast_eq_zero, add_zero, List.cons.injEq, true_and]
        apply List.map_congr_left
        intro i _
        simp only [Function.comp, Nat.succ_eq_add_one, Nat.cast_add, Nat.cast_one]
        ring
      simp only [cleanup_ids, h, if_true, ids, List.map_cons, List.filter_cons, ne_eq,
        not_true_eq_false, decide_False, Bool.false_eq_true, if_false, List.countP_cons,
        decide_True]
      rw [e]
      exact (List.Perm.cons index (ih (index + 1))).trans List.perm_middle.symm
    · simp only [cleanup_ids, h, if_false, ids, List.map_cons, List.filter_cons, ne_eq,
        not_false_eq_true, decide_True, if_true, List.countP_cons, decide_False,
        Bool.false_eq_true, add_zero, List.cons_append]
      exact List.Perm.cons v.id (ih index)

theorem length_filter_add_countP (vs : List Vertex) :
    (vs.filter (fun v => decide (v.id ≠ -1))).length
      + vs.countP (fun v => decide (v.id = -1)) = vs.length := by
  induction vs with
  | nil => rfl
  | cons v rest ih =>
    by_cases h : v.id = -1
    · simp only [ne_eq, decide_not, List.filter_cons, h, decide_True, Bool.not_true,
        Bool.false_eq_true, if_false, List.countP_cons, if_true, List.length_cons] at ih ⊢
      omega
    · simp only [ne_eq, decide_not, List.filter_cons, h, decide_False, Bool.not_false,
        if_true, List.length_cons, List.countP_cons, Bool.false_eq_true, if_false,
        add_zero] at ih ⊢
      omega

/-- C8: let `vs` be the vertices of the triangulation, in the order of
`finite_vertex_handles()`, when the cleanup starts: the ingested vertices are kept (the
vertices of `vs` with an assigned identity are the vertices ingestion left), every other
vertex carries the sentinel `-1`, and such vertices exist only if an operation was requested.
After the cleanup there are as many vertices, with the same points, and their identities are
a rearrangement of `0, ..., N-1`: pairwise distinct, and exactly the integers from `0` to
`N-1`. -/
theorem C8_dense_identities (input : TessaInput) (f : Flags) (vs : List Vertex)
    (hkeep : (vs.filter (fun v => decide (v.id ≠ -1))).Perm (main_ingest input).1.cdt.vertices)
    (hnew : did_something f = false → ∀ v ∈ vs, v.id ≠ -1) :
    (main_cleanup (did_something f) vs (main_ingest input).1.index).1.length = vs.length
      ∧ (main_cleanup (did_something f) vs (main_ingest input).1.index).1.map Vertex.point
          = vs.map Vertex.point
      ∧ (ids (main_cleanup (did_something f) vs (main_ingest input).1.index).1).Perm
          (consecutive_ids vs.length)
      ∧ (ids (main_cleanup (did_something f) vs (main_ingest input).1.index).1).Nodup
      ∧ ∀ i : Int, i ∈ ids (main_cleanup (did_something f) vs (main_ingest input).1.index).1
          ↔ 0 ≤ i ∧ i < Int.ofNat vs.length := by
  obtain ⟨hI, _, _⟩ := main_ingest_spec input
  have hids : (ids (vs.filter (fun v => decide (v.id ≠ -1)))).Perm
      (consecutive_ids (main_ingest input).1.cdt.vertices.length) := by
    rw [← hI.2.1]
    exact hkeep.map Vertex.id
  have hlen := length_filter_add_countP vs
  rw [hkeep.length_eq] at hlen
  have hperm : (ids (main_cleanup (did_something f) vs (main_ingest input).1.index).1).Perm
      (consecutive_ids vs.length) := by
    cases hd : did_something f with
    | true =>
      simp only [main_cleanup, if_true]
      refine (cleanup_ids_perm vs _).trans ?_
      rw [← hlen, consecutive_ids_add, hI.1]
      exact List.Perm.append_right _ hids
    | false =>
      simp only [main_cleanup, Bool.false_eq_true, if_false]
      have hall : vs.filter (fun v => decide (v.id ≠ -1)) = vs := by
        rw [List.filter_eq_self]
        intro v hv
        simpa using hnew hd v hv
      rw [hall] at hids hkeep
      rw [hkeep.length_eq]
      exact hids
  refine ⟨?_, ?_, hperm, (hperm.nodup_iff).2 (consecutive_ids_nodup _), ?_⟩
  · cases did_something f <;> simp [main_cleanup, cleanup_ids_length]
  · cases did_something f <;> simp [main_cleanup, cleanup_ids_points]
  · intro i
    rw [hperm.mem_iff, mem_consecutive_ids]

/-- C8, instance: the rhombus after `--cdt`, with the new vertex `(10,1)` enumerated first:
the five vertices end with the identities `4, 0, 1, 2, 3`. -/
theorem C8_dense_identities_witness :
    ids (main_cleanup (did_something ⟨true, false, false⟩)
        (Vertex.fresh ⟨10, 1⟩ :: (main_ingest input_rhombus).1.cdt.vertices)
        (main_ingest input_rhombus).1.index).1 = [4, 0, 1, 2, 3]
      ∧ (ids (main_cleanup (did_something ⟨true, false, false⟩)
        (Vertex.fresh ⟨10, 1⟩ :: (main_ingest input_rhombus).1.cdt.vertices)
        (main_ingest input_rhombus).1.index).1).Perm
          (consecutive_ids
            (Vertex.fresh ⟨10, 1⟩ :: (main_ingest input_rhombus).1.cdt.vertices).length) := by
  refine ⟨?_, (C8_dense_identities input_rhombus ⟨true, false, false⟩
    (Vertex.fresh ⟨10, 1⟩ :: (main_ingest input_rhombus).1.cdt.vertices) ?_ ?_).2.2.1⟩
  · rw [main_ingest_rhombus]
    simp [main_cleanup, did_something, main_op_flags, cleanup_ids, Vertex.fresh, ids]
  · rw [main_ingest_rhombus]
    simp [List.filter_cons, Vertex.fresh]
  · intro h
    exact absurd h (by decide)

/-! ## The identity diagnostic of the vertex output -/

theorem output_vertices_warned_true (vs : List Vertex) (k : Int) :
    output_vertices_warned vs k true = true := by
  induction vs generalizing k with
  | nil => rfl
  | cons v rest ih => simp [output_vertices_warned, ih]

theorem output_vertices_warned_false_iff (vs : List Vertex) (k : Int) :
    output_vertices_warned vs k false = false
      ↔ ids vs = (List.range vs.length).map (fun i : Nat => k + Int.ofNat i) := by
  induction vs generalizing k with
  | nil => simp [output_vertices_warned, ids]
  | cons v rest ih =>
    have e : (List.range rest.length).map (fun i : Nat => k + 1 + Int.ofNat i)
        = (List.range rest.length).map ((fun i : Nat => k + Int.ofNat i) ∘ Nat.succ) := by
      apply List.map_congr_left
      intro i _
      simp only [Function.comp, Int.ofNat_eq_coe, Nat.succ_eq_add_one, Nat.cast_add, Nat.cast_one]
      ring
    by_cases h : v.id = k
    · simp only [output_vertices_warned, h, ne_eq, not_true_eq_false, false_and, if_false]
      rw [ih (k + 1), e]
      simp [ids, List.range_succ_eq_map, h]
    · simp [output_vertices_warned, h, output_vertices_warned_true, ids, List.range_succ_eq_map]

/-- The diagnostic is logged exactly when the identities, in the order in which the
vertices are written, are not `0, 1, ..., N-1`. -/
theorem warned_bad_ids_iff (vs : List Vertex) :
    warned_bad_ids vs = true ↔ ids vs ≠ consecutive_ids vs.length := by
  have h := output_vertices_warned_false_iff vs 0
  have e : (List.range vs.length).map (fun i : Nat => (0 : Int) + Int.ofNat i)
      = consecutive_ids vs.length := by
    simp [consecutive_ids]
  rw [e] at h
  unfold warned_bad_ids
  rw [Ne, ← h]
  simp

/-- C9 (amended): the diagnostic "Vertex ids are not consecutive from 0" is logged exactly
when the identities of the vertices, in the order in which they are written, are not the
sequence `0, 1, ..., N-1`. In particular it is logged whenever the identities are not a
rearrangement of `0, ..., N-1` (not pairwise distinct, or not the dense range), and it is
not logged when the vertex at every position `k` has identity `k`. -/
theorem C9_warning_iff_not_in_order (vs : List Vertex) :
    (warned_bad_ids vs = true ↔ ids vs ≠ consecutive_ids vs.length)
      ∧ (¬ (ids vs).Perm (consecutive_ids vs.length) → warned_bad_ids vs = true)
      ∧ (ids vs = consecutive_ids vs.length → warned_bad_ids vs = false) := by
  refine ⟨warned_bad_ids_iff vs, ?_, ?_⟩
  · intro h
    rw [warned_bad_ids_iff]
    intro he
    exact h (he ▸ List.Perm.refl _)
  · intro h
    have := (warned_bad_ids_iff vs).not.2 (not_not.2 h)
    simpa using this

/-- C9, instances: identities `0, 0` (a duplicate) are reported; identities `0, 1` are
not. -/
theorem C9_warning_iff_not_in_order_witness :
    ¬ (ids [⟨⟨0, 0⟩, 0⟩, ⟨⟨1, 0⟩, 0⟩]).Perm (consecutive_ids 2)
      ∧ warned_bad_ids [⟨⟨0, 0⟩, 0⟩, ⟨⟨1, 0⟩, 0⟩] = true
      ∧ ids [⟨⟨0, 0⟩, 0⟩, ⟨⟨1, 0⟩, 1⟩] = consecutive_ids 2
      ∧ warned_bad_ids [⟨⟨0, 0⟩, 0⟩, ⟨⟨1, 0⟩, 1⟩] = false :=
  ⟨by decide,
    (C9_warning_iff_not_in_order [⟨⟨0, 0⟩, 0⟩, ⟨⟨1, 0⟩, 0⟩]).2.1 (by decide),
    by decide,
    (C9_warning_iff_not_in_order [⟨⟨0, 0⟩, 0⟩, ⟨⟨1, 0⟩, 1⟩]).2.2 (by decide)⟩

/-- C9 (counterexample): the rhombus after `--cdt`, the new vertex `(10,1)` enumerated
before the four ingested vertices. After the cleanup the identities, in output order, are
`4, 0, 1, 2, 3`: pairwise distinct and exactly the dense range `0..4`, and the diagnostic is
logged all the same. -/
theorem C9_counterexample_dense_but_warned :
    ids (main_cleanup (did_something ⟨true, false, false⟩)
        (Vertex.fresh ⟨10, 1⟩ :: (main_ingest input_rhombus).1.cdt.vertices)
        (main_ingest input_rhombus).1.index).1 = [4, 0, 1, 2, 3]
      ∧ ([4, 0, 1, 2, 3] : List Int).Nodup
      ∧ (∀ i : Int, i ∈ ([4, 0, 1, 2, 3] : List Int) ↔ 0 ≤ i ∧ i < 5)
      ∧ warned_bad_ids (main_cleanup (did_something ⟨true, false, false⟩)
        (Vertex.fresh ⟨10, 1⟩ :: (main_ingest input_rhombus).1.cdt.vertices)
        (main_ingest input_rhombus).1.index).1 = true := by
  rw [main_ingest_rhombus]
  refine ⟨?_, by decide, ?_, ?_⟩
  · simp [main_cleanup, did_something, main_op_flags, cleanup_ids, Vertex.fresh, ids]
  · intro i
    simp only [List.mem_cons, List.mem_singleton, List.not_mem_nil, or_false]
    omega
  · simp [main_cleanup, did_something, main_op_flags, cleanup_ids, Vertex.fresh,
      warned_bad_ids, output_vertices_warned]

/-! ## The edge count of the output -/

theorem main_ingest_square : main_ingest input_square
    = (⟨⟨[⟨⟨0, 0⟩, 0⟩, ⟨⟨4, 0⟩, 1⟩, ⟨⟨4, 4⟩, 2⟩, ⟨⟨0, 4⟩, 3⟩],
          [(0, 1), (1, 2), (2, 3), (3, 0)]⟩,
        [((0, 1), 0), ((1, 2), 0), ((2, 3), 0), ((3, 0), 0)], 4, 4⟩,
      [[0, 1, 2, 3, 0]]) := by
  simp [main_ingest, input_square, ingest_rings, ingest_linestrings, insert_chain,
    insert_chain_points, insert_chain_point, insert_chain_edges, insert_chain_edge,
    CDT.insert, CDT.id, CDT.set_id, Ingest.init, CDT.empty, Vertex.fresh, List.findIdx_cons,
    CDT.insert_constraint, Table.assign, Key.lt]

theorem output_num_edges_eq (finite_edges : List Finite_edge) :
    output_num_edges finite_edges = Int.ofNat finite_edges.length := by
  have h : ∀ (l : List Finite_edge) (k : Int),
      l.foldl (fun num_edges _ => num_edges + 1) k = k + Int.ofNat l.length := by
    intro l
    induction l with
    | nil => intro k; simp
    | cons e rest ih =>
      intro k
      rw [List.foldl_cons, ih]
      simp only [List.length_cons, Int.ofNat_eq_coe, Nat.cast_add, Nat.cast_one]
      ring
  simpa [output_num_edges] using h finite_edges 0

theorem output_triangulation_edges_length (cdt : CDT) (chain_edges : Table) (free_for : String)
    (finite_edges : List Finite_edge) :
    (output_triangulation_edges cdt chain_edges free_for finite_edges).length
      = finite_edges.countP (fun e => e.f_in_domain || e.other_f_in_domain) := by
  induction finite_edges with
  | nil => rfl
  | cons e rest ih =>
    by_cases h : e.f_in_domain = true ∨ e.other_f_in_domain = true
    · have h2 : (e.f_in_domain || e.other_f_in_domain) = true := by simpa using h
      simp only [output_triangulation_edges, h, if_true, List.singleton_append,
        List.length_cons, ih, List.countP_cons, h2]
    · have h2 : (e.f_in_domain || e.other_f_in_domain) = false := by
        simpa using h
      simp only [output_triangulation_edges, h, if_false, List.nil_append, ih,
        List.countP_cons, h2, Bool.false_eq_true, add_zero]

/-- C7 (evaluation at the failing input): for `POLYGON((0 0,4 0,4 4,0 4,0 0))` without
operation flags the triangulation of the four corners has five finite edges, so line 2 of the
output is 5, while four edge lines follow, `0;1`, `1;2`, `2;3`, `3;0`, all of type boundary.
In general line 2 is the number of finite edges of the triangulation; with an operation flag
the number of edge lines is the number of finite edges with a face in the domain. -/
theorem C7_edge_count_differs_from_edge_lines :
    did_something ⟨false, false, false⟩ = false
      ∧ output_num_edges square_finite_edges = 5
      ∧ (output_edges (did_something ⟨false, false, false⟩) (main_ingest input_square).1.cdt
            (main_ingest input_square).1.chain_edges "" square_finite_edges
            (main_ingest input_square).2).map (fun l => (l.id_a, l.id_b, l.type_name))
          = [(0, 1, "boundary"), (1, 2, "boundary"), (2, 3, "boundary"), (3, 0, "boundary")]
      ∧ (∀ finite_edges, output_num_edges finite_edges = Int.ofNat finite_edges.length)
      ∧ (∀ cdt chain_edges free_for finite_edges cgal_polygon,
          (output_edges true cdt chain_edges free_for finite_edges cgal_polygon).length
            = finite_edges.countP (fun e => e.f_in_domain || e.other_f_in_domain)) := by
  refine ⟨by decide, by decide, ?_, output_num_edges_eq, ?_⟩
  · rw [main_ingest_square]
    have h0 : ∀ cs, CDT.id ⟨[⟨⟨0, 0⟩, 0⟩, ⟨⟨4, 0⟩, 1⟩, ⟨⟨4, 4⟩, 2⟩, ⟨⟨0, 4⟩, 3⟩], cs⟩ 0 = 0 :=
      fun _ => rfl
    have h1 : ∀ cs, CDT.id ⟨[⟨⟨0, 0⟩, 0⟩, ⟨⟨4, 0⟩, 1⟩, ⟨⟨4, 4⟩, 2⟩, ⟨⟨0, 4⟩, 3⟩], cs⟩ 1 = 1 :=
      fun _ => rfl
    have h2 : ∀ cs, CDT.id ⟨[⟨⟨0, 0⟩, 0⟩, ⟨⟨4, 0⟩, 1⟩, ⟨⟨4, 4⟩, 2⟩, ⟨⟨0, 4⟩, 3⟩], cs⟩ 2 = 2 :=
      fun _ => rfl
    have h3 : ∀ cs, CDT.id ⟨[⟨⟨0, 0⟩, 0⟩, ⟨⟨4, 0⟩, 1⟩, ⟨⟨4, 4⟩, 2⟩, ⟨⟨0, 4⟩, 3⟩], cs⟩ 3 = 3 :=
      fun _ => rfl
    simp [output_edges, did_something, main_op_flags, output_original_edges,
      output_ring_edges, output_edge, h0, h1, h2, h3, edge_type, Table.find, type_name]
  · intro cdt chain_edges free_for finite_edges cgal_polygon
    simp only [output_edges, if_true]
    exact output_triangulation_edges_length cdt chain_edges free_for finite_edges

/-! ## Label repair -/

/-- The squared length of a segment with two distinct end points is positive. -/
theorem along_self_pos {a b : Point} (hne : a ≠ b) : 0 < along a b b := by
  have h1 : b.x - a.x ≠ 0 ∨ b.y - a.y ≠ 0 := by
    by_contra hcon
    push_neg at hcon
    apply hne
    cases a; cases b
    simp only [Point.mk.injEq]
    constructor <;> linarith [hcon.1, hcon.2]
  unfold along
  rcases h1 with h1 | h1
  · have := pow_pos (abs_pos.2 h1) 2
    rw [sq_abs] at this
    nlinarith [sq_nonneg (b.y - a.y)]
  · have := pow_pos (abs_pos.2 h1) 2
    rw [sq_abs] at this
    nlinarith [sq_nonneg (b.x - a.x)]

/-- The intersection of two segments is a segment exactly when both segments have two
distinct endpoints, the endpoints of the second are on the line of the first, and the
parameter interval of the second along the first meets `[0, len]` in more than a point. -/
theorem is_segment_intersection_iff (p q r s : Point) :
    is_segment (intersection ⟨p, q⟩ ⟨r, s⟩) = true
      ↔ p ≠ q ∧ r ≠ s ∧ orientation p q r = 0 ∧ orientation p q s = 0
        ∧ (0 < along p q r ∨ 0 < along p q s)
        ∧ (along p q r < along p q q ∨ along p q s < along p q q)
        ∧ along p q r ≠ along p q s := by
  have hlen : p ≠ q → 0 < along p q q := fun hne => along_self_pos hne
  unfold intersection
  simp only
  by_cases hpq : p = q
  · simp only [hpq, if_true, ne_eq, not_true_eq_false, false_and, iff_false]
    split_ifs <;> simp [is_segment]
  · by_cases hrs : r = s
    · simp only [hpq, hrs, if_false, if_true, ne_eq, not_true_eq_false, false_and, and_false,
        iff_false]
      split_ifs <;> simp [is_segment]
    · simp only [hpq, hrs, if_false, ne_eq, not_false_eq_true, true_and]
      by_cases hcol : orientation p q r = 0 ∧ orientation p q s = 0
      · simp only [hcol, and_self, if_true, true_and]
        have key : (max 0 (min (along p q r) (along p q s))
            < min (along p q q) (max (along p q r) (along p q s)))
            ↔ ((0 < along p q r ∨ 0 < along p q s)
              ∧ (along p q r < along p q q ∨ along p q s < along p q q)
              ∧ along p q r ≠ along p q s) := by
          rw [max_lt_iff, lt_min_iff, lt_min_iff, lt_max_iff, min_lt_iff, min_lt_max]
          have := hlen hpq
          tauto
        by_cases hlt : max 0 (min (along p q r) (along p q s))
            < min (along p q q) (max (along p q r) (along p q s))
        · simp only [hlt, if_true, is_segment, true_iff]
          exact key.1 hlt
        · simp only [hlt, if_false]
          have hn := mt key.2 hlt
          split_ifs <;> simp [is_segment, hn]
      · have hn : ¬ (orientation p q r = 0 ∧ orientation p q s = 0 ∧
            (0 < along p q r ∨ 0 < along p q s)
            ∧ (along p q r < along p q q ∨ along p q s < along p q q)
            ∧ along p q r ≠ along p q s) := by
          intro h
          exact hcol ⟨h.1, h.2.1⟩
        simp only [hcol, if_false, hn, iff_false]
        split_ifs <;> simp [is_segment]

/-- Whether the intersection is a segment does not depend on the direction of the needle. -/
theorem is_segment_intersection_swap (p q r s : Point) :
    is_segment (intersection ⟨q, p⟩ ⟨r, s⟩) = is_segment (intersection ⟨p, q⟩ ⟨r, s⟩) := by
  rw [Bool.eq_iff_iff, is_segment_intersection_iff, is_segment_intersection_iff]
  have e1 : ∀ x, orientation q p x = - orientation p q x := by
    intro x; unfold orientation; ring
  have e2 : ∀ x, along q p x = along p q q - along p q x := by
    intro x; unfold along; ring
  have e3 : along q p p = along p q q := by
    unfold along; ring
  rw [e1 r, e1 s, e2 r, e2 s, e3]
  constructor
  · rintro ⟨h1, h2, h3, h4, h5, h6, h7⟩
    refine ⟨Ne.symm h1, h2, by linarith, by linarith, ?_, ?_, ?_⟩
    · rcases h6 with h | h
      · left; linarith
      · right; linarith
    · rcases h5 with h | h
      · left; linarith
      · right; linarith
    · intro h
      apply h7
      linarith
  · rintro ⟨h1, h2, h3, h4, h5, h6, h7⟩
    refine ⟨Ne.symm h1, h2, by linarith, by linarith, ?_, ?_, ?_⟩
    · rcases h6 with h | h
      · left; linarith
      · right; linarith
    · rcases h5 with h | h
      · left; linarith
      · right; linarith
    · intro h
      apply h7
      linarith

/-- A point strictly between `a` and `b`: the first half `a c` meets `a b` in a segment. -/
theorem is_segment_first_half {a b c : Point} (hne : a ≠ b) (hc : strictly_between a b c) :
    is_segment (intersection ⟨a, c⟩ ⟨a, b⟩) = true := by
  obtain ⟨t, ht0, ht1, hx, hy⟩ := hc
  have hD := along_self_pos hne
  have hac : a ≠ c := by
    intro h
    have h1 : t * (b.x - a.x) = 0 := by rw [← h] at hx; linarith
    have h2 : t * (b.y - a.y) = 0 := by rw [← h] at hy; linarith
    have h3 : b.x - a.x = 0 := by
      rcases mul_eq_zero.1 h1 with h | h
      · exact absurd h (ne_of_gt ht0)
      · exact h
    have h4 : b.y - a.y = 0 := by
      rcases mul_eq_zero.1 h2 with h | h
      · exact absurd h (ne_of_gt ht0)
      · exact h
    unfold along at hD
    rw [h3, h4] at hD
    simp at hD
  rw [is_segment_intersection_iff]
  have o1 : orientation a c a = 0 := by unfold orientation; ring
  have o2 : orientation a c b = 0 := by unfold orientation; rw [hx, hy]; ring
  have c1 : along a c a = 0 := by unfold along; ring
  have c2 : along a c b = t * along a b b := by unfold along; rw [hx, hy]; ring
  have c3 : along a c c = t * t * along a b b := by unfold along; rw [hx, hy]; ring
  have p1 : 0 < t * along a b b := mul_pos ht0 hD
  have p2 : 0 < t * t * along a b b := mul_pos (mul_pos ht0 ht0) hD
  refine ⟨hac, hne, o1, o2, ?_, ?_, ?_⟩
  · right; rw [c2]; exact p1
  · left; rw [c1, c3]; exact p2
  · rw [c1, c2]; exact ne_of_lt p1

/-- A point strictly between `a` and `b`: the second half `c b` meets `a b` in a segment. -/
theorem is_segment_second_half {a b c : Point} (hne : a ≠ b) (hc : strictly_between a b c) :
    is_segment (intersection ⟨c, b⟩ ⟨a, b⟩) = true := by
  obtain ⟨t, ht0, ht1, hx, hy⟩ := hc
  have hD := along_self_pos hne
  have hcb : c ≠ b := by
    intro h
    have h1 : (1 - t) * (b.x - a.x) = 0 := by rw [← h] at hx ⊢; linarith
    have h2 : (1 - t) * (b.y - a.y) = 0 := by rw [← h] at hy ⊢; linarith
    have ht : 1 - t ≠ 0 := by linarith
    have h3 : b.x - a.x = 0 := by
      rcases mul_eq_zero.1 h1 with h | h
      · exact absurd h ht
      · exact h
    have h4 : b.y - a.y = 0 := by
      rcases mul_eq_zero.1 h2 with h | h
      · exact absurd h ht
      · exact h
    unfold along at hD
    rw [h3, h4] at hD
    simp at hD
  rw [is_segment_intersection_iff]
  have o1 : orientation c b a = 0 := by unfold orientation; rw [hx, hy]; ring
  have o2 : orientation c b b = 0 := by unfold orientation; ring
  have c1 : along c b a = - (t * (1 - t) * along a b b) := by
    unfold along; rw [hx, hy]; ring
  have c2 : along c b b = (1 - t) * (1 - t) * along a b b := by
    unfold along; rw [hx, hy]; ring
  have p0 : 0 < 1 - t := by linarith
  have p1 : 0 < t * (1 - t) * along a b b := mul_pos (mul_pos ht0 p0) hD
  have p2 : 0 < (1 - t) * (1 - t) * along a b b := mul_pos (mul_pos p0 p0) hD
  refine ⟨hcb, hne, o1, o2, ?_, ?_, ?_⟩
  · right; rw [c2]; exact p2
  · left; rw [c1, c2]; linarith
  · rw [c1, c2]; intro h; linarith

/-- First match wins: when some entry of the table meets the needle in a segment and every
such entry has type `v`, the scan returns `v`. -/
theorem find_edge_type_bruteforce_eq (cdt : CDT) (a b : Vertex_handle) (v : Int)
    (t : Table)
    (hex : ∃ e ∈ t, is_segment (intersection ⟨cdt.point a, cdt.point b⟩ (cdt.segment e.1)) = true)
    (hall : ∀ e ∈ t,
      is_segment (intersection ⟨cdt.point a, cdt.point b⟩ (cdt.segment e.1)) = true → e.2 = v) :
    find_edge_type_bruteforce cdt a b t = v := by
  induction t with
  | nil =>
    obtain ⟨e, he, _⟩ := hex
    cases he
  | cons e rest ih =>
    obtain ⟨k, w⟩ := e
    by_cases h : is_segment (intersection ⟨cdt.point a, cdt.point b⟩ (cdt.segment k)) = true
    · have := hall (k, w) (List.mem_cons_self _ _) h
      simp only [CDT.segment] at h
      simp only [find_edge_type_bruteforce, h, if_true]
      exact this
    · have hex' : ∃ e ∈ rest,
          is_segment (intersection ⟨cdt.point a, cdt.point b⟩ (cdt.segment e.1)) = true := by
        obtain ⟨e, he, hs⟩ := hex
        rcases List.mem_cons.1 he with rfl | he'
        · exact absurd hs h
        · exact ⟨e, he', hs⟩
      have := ih hex' (fun e he => hall e (List.mem_cons_of_mem _ he))
      simp only [CDT.segment] at h
      simp only [find_edge_type_bruteforce, h, Bool.false_eq_true, if_false]
      exact this

/-- The entry of a key in `new_chain_edges` after the repair loop, when every edge of the
loop with that key is repaired to type `v`. -/
theorem repair_new_chain_edges_find (cdt : CDT) (chain_edges : Table) (k : Key) (v : Int)
    (hk : ∀ acc, repair_edge cdt chain_edges k.1 k.2 acc = Table.assign acc k v)
    (es : List (Vertex_handle × Vertex_handle)) :
    ∀ acc : Table, (Table.find acc k = some v ∨ k ∈ es) →
      Table.find (repair_new_chain_edges cdt chain_edges es acc) k = some v := by
  induction es with
  | nil =>
    intro acc h
    rcases h with h | h
    · exact h
    · cases h
  | cons e rest ih =>
    intro acc h
    simp only [repair_new_chain_edges]
    apply ih
    by_cases hek : e = k
    · left
      rw [hek, hk, Table.find_assign_self]
    · rcases h with h | h
      · left
        unfold repair_edge
        split_ifs
        · rw [Table.find_assign_ne _ _ _ _ (Ne.symm hek)]
          exact h
        · exact h
        · exact h
      · right
        rcases List.mem_cons.1 h with h' | h'
        · exact absurd h'.symm hek
        · exact h'

/-- A key that is not an edge of the loop keeps its entry. -/
theorem repair_new_chain_edges_find_of_not_mem (cdt : CDT) (chain_edges : Table) (k : Key)
    (es : List (Vertex_handle × Vertex_handle)) (hk : k ∉ es) :
    ∀ acc : Table,
      Table.find (repair_new_chain_edges cdt chain_edges es acc) k = Table.find acc k := by
  induction es with
  | nil => intro acc; rfl
  | cons e rest ih =>
    intro acc
    have hne : k ≠ e := fun h => hk (h ▸ List.mem_cons_self _ _)
    simp only [repair_new_chain_edges]
    rw [ih (fun h => hk (List.mem_cons_of_mem _ h))]
    unfold repair_edge
    split_ifs
    · exact Table.find_assign_ne _ _ _ _ hne
    · rfl
    · rfl

/-- Lookup after `merge`: an entry of the target wins, otherwise the entry of the source. -/
theorem Table.find_merge (source : Table) (k : Key) :
    ∀ target : Table, Table.find (Table.merge target source) k
      = match Table.find target k with
        | some v => some v
        | none => Table.find source k := by
  induction source with
  | nil =>
    intro target
    simp only [Table.merge, List.foldl_nil, Table.find]
    cases Table.find target k <;> rfl
  | cons e rest ih =>
    intro target
    obtain ⟨k', v'⟩ := e
    have hstep : Table.merge target ((k', v') :: rest)
        = Table.merge (if (Table.find target k').isSome then target
            else Table.assign target k' v') rest := rfl
    rw [hstep, ih]
    by_cases hkk : k' = k
    · subst hkk
      cases ht : Table.find target k' with
      | some v => simp [ht]
      | none => simp [ht, Table.find_assign_self, Table.find]
    · have hne : k ≠ k' := Ne.symm hkk
      have e1 : Table.find (if (Table.find target k').isSome then target
          else Table.assign target k' v') k = Table.find target k := by
        split_ifs
        · rfl
        · exact Table.find_assign_ne _ _ _ _ hne
      rw [e1]
      simp [Table.find, hkk]

theorem Table.find_eq_none_of_forall_ne (t : Table) (k : Key) (h : ∀ e ∈ t, e.1 ≠ k) :
    Table.find t k = none := by
  induction t with
  | nil => rfl
  | cons e rest ih =>
    obtain ⟨k', v'⟩ := e
    have h1 : k' ≠ k := h (k', v') (List.mem_cons_self _ _)
    simp only [Table.find, h1, if_false]
    exact ih (fun e he => h e (List.mem_cons_of_mem _ he))

/-- The type of an edge with a new end vertex after the repair: when the scan finds type `v`
for the edge in both directions, the table has no entry for it, and the triangulation
enumerates it in one of the two directions, `edge_type` returns `v`. -/
theorem edge_type_repair_labels (cdt : CDT) (chain_edges : Table)
    (finite_edges : List (Vertex_handle × Vertex_handle)) (u w : Vertex_handle) (v : Int)
    (hv : v ≠ -1)
    (hsent : cdt.id u = -1 ∨ cdt.id w = -1)
    (hkey1 : ∀ e ∈ chain_edges, e.1 ≠ (u, w)) (hkey2 : ∀ e ∈ chain_edges, e.1 ≠ (w, u))
    (hbf1 : find_edge_type_bruteforce cdt u w chain_edges = v)
    (hbf2 : find_edge_type_bruteforce cdt w u chain_edges = v)
    (hmem : (u, w) ∈ finite_edges ∨ (w, u) ∈ finite_edges) :
    edge_type u w (repair_labels cdt finite_edges chain_edges) = v := by
  have hk1 : ∀ acc, repair_edge cdt chain_edges u w acc = Table.assign acc (u, w) v := by
    intro acc
    simp only [repair_edge, hsent, if_true, hbf1, ne_eq, hv, not_false_eq_true]
  have hk2 : ∀ acc, repair_edge cdt chain_edges w u acc = Table.assign acc (w, u) v := by
    intro acc
    simp only [repair_edge, hsent.symm, if_true, hbf2, ne_eq, hv, not_false_eq_true]
  have n1 := Table.find_eq_none_of_forall_ne chain_edges (u, w) hkey1
  have n2 := Table.find_eq_none_of_forall_ne chain_edges (w, u) hkey2
  unfold edge_type repair_labels
  rw [Table.find_merge, Table.find_merge, n1, n2]
  simp only
  by_cases h1 : (u, w) ∈ finite_edges
  · rw [repair_new_chain_edges_find cdt chain_edges (u, w) v hk1 finite_edges [] (Or.inr h1)]
  · have h2 : (w, u) ∈ finite_edges := hmem.resolve_left h1
    rw [repair_new_chain_edges_find_of_not_mem cdt chain_edges (u, w) finite_edges h1 [],
      repair_new_chain_edges_find cdt chain_edges (w, u) v hk2 finite_edges [] (Or.inr h2)]
    rfl

/-- C2 (amended): let the table hold an entry `(A,B) → road` whose end points differ, and let
`C` be a new vertex (identity `-1`, named by no table entry) strictly between `A` and `B`. If
every table entry whose segment meets `AC` in a segment has type road, and every table entry
whose segment meets `CB` in a segment has type road, then after the repair pass over finite
edges that include `AC` and `CB` (each in either direction) `edge_type(A,C)` and
`edge_type(C,B)` are road. -/
theorem C2_repair_correctness (cdt : CDT) (chain_edges : Table)
    (finite_edges : List (Vertex_handle × Vertex_handle)) (A B C : Vertex_handle)
    (hentry : ((A, B), road) ∈ chain_edges)
    (hne : cdt.point A ≠ cdt.point B)
    (hC : cdt.id C = -1)
    (hbetween : strictly_between (cdt.point A) (cdt.point B) (cdt.point C))
    (hfresh : ∀ e ∈ chain_edges, e.1.1 ≠ C ∧ e.1.2 ≠ C)
    (hAC : ∀ e ∈ chain_edges,
      is_segment (intersection ⟨cdt.point A, cdt.point C⟩ (cdt.segment e.1)) = true →
        e.2 = road)
    (hCB : ∀ e ∈ chain_edges,
      is_segment (intersection ⟨cdt.point C, cdt.point B⟩ (cdt.segment e.1)) = true →
        e.2 = road)
    (hedgeAC : (A, C) ∈ finite_edges ∨ (C, A) ∈ finite_edges)
    (hedgeCB : (C, B) ∈ finite_edges ∨ (B, C) ∈ finite_edges) :
    edge_type A C (repair_labels cdt finite_edges chain_edges) = road
      ∧ edge_type C B (repair_labels cdt finite_edges chain_edges) = road := by
  have hroad : road ≠ -1 := by decide
  have hkey : ∀ x, ∀ e ∈ chain_edges, e.1 ≠ (x, C) ∧ e.1 ≠ (C, x) := by
    intro x e he
    obtain ⟨h1, h2⟩ := hfresh e he
    constructor
    · intro h
      rw [h] at h2
      exact h2 rfl
    · intro h
      rw [h] at h1
      exact h1 rfl
  have s1 : is_segment (intersection ⟨cdt.point A, cdt.point C⟩ (cdt.segment (A, B))) = true :=
    is_segment_first_half hne hbetween
  have s2 : is_segment (intersection ⟨cdt.point C, cdt.point B⟩ (cdt.segment (A, B))) = true :=
    is_segment_second_half hne hbetween
  have b1 : find_edge_type_bruteforce cdt A C chain_edges = road :=
    find_edge_type_bruteforce_eq cdt A C road chain_edges ⟨((A, B), road), hentry, s1⟩ hAC
  have b2 : find_edge_type_bruteforce cdt C A chain_edges = road := by
    apply find_edge_type_bruteforce_eq cdt C A road chain_edges
    · exact ⟨((A, B), road), hentry, by
        rw [CDT.segment, is_segment_intersection_swap]; exact s1⟩
    · intro e he h
      rw [CDT.segment, is_segment_intersection_swap] at h
      exact hAC e he h
  have b3 : find_edge_type_bruteforce cdt C B chain_edges = road :=
    find_edge_type_bruteforce_eq cdt C B road chain_edges ⟨((A, B), road), hentry, s2⟩ hCB
  have b4 : find_edge_type_bruteforce cdt B C chain_edges = road := by
    apply find_edge_type_bruteforce_eq cdt B C road chain_edges
    · exact ⟨((A, B), road), hentry, by
        rw [CDT.segment, is_segment_intersection_swap]; exact s2⟩
    · intro e he h
      rw [CDT.segment, is_segment_intersection_swap] at h
      exact hCB e he h
  constructor
  · exact edge_type_repair_labels cdt chain_edges finite_edges A C road hroad (Or.inr hC)
      (fun e he => (hkey A e he).1) (fun e he => (hkey A e he).2) b1 b2 hedgeAC
  · exact edge_type_repair_labels cdt chain_edges finite_edges C B road hroad (Or.inl hC)
      (fun e he => (hkey B e he).2) (fun e he => (hkey B e he).1) b3 b4 hedgeCB

theorem cdt_rhombus_split_eq : cdt_rhombus_split
    = ⟨[⟨⟨0, 1⟩, 0⟩, ⟨⟨10, 0⟩, 1⟩, ⟨⟨20, 1⟩, 2⟩, ⟨⟨10, 2⟩, 3⟩, ⟨⟨10, 1⟩, -1⟩],
        [(0, 1), (1, 2), (2, 3), (3, 0), (0, 2)]⟩ := by
  simp only [cdt_rhombus_split, main_ingest_rhombus]
  rfl

theorem cdt_square_split_eq : cdt_square_split
    = ⟨[⟨⟨0, 0⟩, 0⟩, ⟨⟨4, 0⟩, 1⟩, ⟨⟨4, 4⟩, 2⟩, ⟨⟨0, 4⟩, 3⟩, ⟨⟨2, 0⟩, -1⟩],
        [(0, 1), (1, 2), (2, 3), (3, 0), (1, 0)]⟩ := by
  simp only [cdt_square_split, main_ingest_road_on_boundary]
  rfl

/-- C2, instance: the rhombus with its road `(0 1, 20 1)` from vertex 0 to vertex 2, split by
the new vertex 4 at `(10,1)`; the repair over the edges `(0,4)` and `(4,2)` types both as
road. -/
theorem C2_repair_correctness_witness :
    edge_type 0 4 (repair_labels cdt_rhombus_split [(0, 4), (4, 2)]
        (main_ingest input_rhombus).1.chain_edges) = road
      ∧ edge_type 4 2 (repair_labels cdt_rhombus_split [(0, 4), (4, 2)]
        (main_ingest input_rhombus).1.chain_edges) = road := by
  have hp0 : cdt_rhombus_split.point 0 = ⟨0, 1⟩ := by rw [cdt_rhombus_split_eq]; rfl
  have hp1 : cdt_rhombus_split.point 1 = ⟨10, 0⟩ := by rw [cdt_rhombus_split_eq]; rfl
  have hp2 : cdt_rhombus_split.point 2 = ⟨20, 1⟩ := by rw [cdt_rhombus_split_eq]; rfl
  have hp3 : cdt_rhombus_split.point 3 = ⟨10, 2⟩ := by rw [cdt_rhombus_split_eq]; rfl
  have hp4 : cdt_rhombus_split.point 4 = ⟨10, 1⟩ := by rw [cdt_rhombus_split_eq]; rfl
  have hi0 : cdt_rhombus_split.id 0 = 0 := by rw [cdt_rhombus_split_eq]; rfl
  have hi1 : cdt_rhombus_split.id 1 = 1 := by rw [cdt_rhombus_split_eq]; rfl
  have hi2 : cdt_rhombus_split.id 2 = 2 := by rw [cdt_rhombus_split_eq]; rfl
  have hi3 : cdt_rhombus_split.id 3 = 3 := by rw [cdt_rhombus_split_eq]; rfl
  have hi4 : cdt_rhombus_split.id 4 = -1 := by rw [cdt_rhombus_split_eq]; rfl
  have ht : (main_ingest input_rhombus).1.chain_edges
      = [((0, 1), 0), ((0, 2), 2), ((1, 2), 0), ((2, 3), 0), ((3, 0), 0)] := by
    rw [main_ingest_rhombus]
  rw [ht]
  refine C2_repair_correctness cdt_rhombus_split _ [(0, 4), (4, 2)] 0 2 4 ?_ ?_ hi4 ?_ ?_ ?_ ?_
    (Or.inl (by simp)) (Or.inl (by simp))
  · simp [road]
  · rw [hp0, hp2]
    simp
  · rw [hp0, hp2, hp4]
    exact ⟨1 / 2, by norm_num, by norm_num, by norm_num, by norm_num⟩
  · intro e he
    simp only [List.mem_cons, List.mem_singleton, List.not_mem_nil, or_false] at he
    rcases he with rfl | rfl | rfl | rfl | rfl <;> decide
  · intro e he h
    simp only [List.mem_cons, List.mem_singleton, List.not_mem_nil, or_false] at he
    rcases he with rfl | rfl | rfl | rfl | rfl
    all_goals
      simp only [CDT.segment, hp0, hp1, hp2, hp3, hp4] at h
      norm_num [intersection, is_segment, orientation, along, on_segment, road] at h ⊢
  · intro e he h
    simp only [List.mem_cons, List.mem_singleton, List.not_mem_nil, or_false] at he
    rcases he with rfl | rfl | rfl | rfl | rfl
    all_goals
      simp only [CDT.segment, hp0, hp1, hp2, hp3, hp4] at h
      norm_num [intersection, is_segment, orientation, along, on_segment, road] at h ⊢

/-- C2 (counterexample): the square whose first side `(0 0, 4 0)` is also the road
`(4 0, 0 0)`. The table holds `(1,0) → road` (and `(0,1) → boundary`); the new vertex 4 at
`(2,0)` is strictly between vertex 1 and vertex 0. The repair over the edges `(1,4)` and
`(4,0)` finds the boundary entry first: both halves are typed boundary, not road. -/
theorem C2_counterexample_first_match_is_boundary :
    ((1, 0), road) ∈ (main_ingest input_road_on_boundary).1.chain_edges
      ∧ cdt_square_split.point 1 ≠ cdt_square_split.point 0
      ∧ cdt_square_split.id 4 = -1
      ∧ strictly_between (cdt_square_split.point 1) (cdt_square_split.point 0)
          (cdt_square_split.point 4)
      ∧ edge_type 1 4 (repair_labels cdt_square_split [(1, 4), (4, 0)]
          (main_ingest input_road_on_boundary).1.chain_edges) = boundary
      ∧ edge_type 4 0 (repair_labels cdt_square_split [(1, 4), (4, 0)]
          (main_ingest input_road_on_boundary).1.chain_edges) = boundary
      ∧ boundary ≠ road := by
  have hp0 : cdt_square_split.point 0 = ⟨0, 0⟩ := by rw [cdt_square_split_eq]; rfl
  have hp1 : cdt_square_split.point 1 = ⟨4, 0⟩ := by rw [cdt_square_split_eq]; rfl
  have hp2 : cdt_square_split.point 2 = ⟨4, 4⟩ := by rw [cdt_square_split_eq]; rfl
  have hp3 : cdt_square_split.point 3 = ⟨0, 4⟩ := by rw [cdt_square_split_eq]; rfl
  have hp4 : cdt_square_split.point 4 = ⟨2, 0⟩ := by rw [cdt_square_split_eq]; rfl
  have hi0 : cdt_square_split.id 0 = 0 := by rw [cdt_square_split_eq]; rfl
  have hi1 : cdt_square_split.id 1 = 1 := by rw [cdt_square_split_eq]; rfl
  have hi4 : cdt_square_split.id 4 = -1 := by rw [cdt_square_split_eq]; rfl
  have ht : (main_ingest input_road_on_boundary).1.chain_edges
      = [((0, 1), 0), ((1, 0), 2), ((1, 2), 0), ((2, 3), 0), ((3, 0), 0)] := by
    rw [main_ingest_road_on_boundary]
  have hb1 : find_edge_type_bruteforce cdt_square_split 1 4
      [((0, 1), 0), ((1, 0), 2), ((1, 2), 0), ((2, 3), 0), ((3, 0), 0)] = 0 := by
    simp only [find_edge_type_bruteforce, hp0, hp1, hp2, hp3, hp4]
    norm_num [intersection, is_segment, orientation, along, on_segment]
  have hb2 : find_edge_type_bruteforce cdt_square_split 4 0
      [((0, 1), 0), ((1, 0), 2), ((1, 2), 0), ((2, 3), 0), ((3, 0), 0)] = 0 := by
    simp only [find_edge_type_bruteforce, hp0, hp1, hp2, hp3, hp4]
    norm_num [intersection, is_segment, orientation, along, on_segment]
  rw [ht, hp0, hp1, hp4]
  refine ⟨by simp [road], by simp, hi4, ⟨1 / 2, by norm_num, by norm_num, by norm_num,
    by norm_num⟩, ?_, ?_, by decide⟩
  · simp [repair_labels, repair_new_chain_edges, repair_edge, hi0, hi1, hi4, hb1, hb2,
      Table.merge, Table.assign, Key.lt, edge_type, Table.find, boundary]
  · simp [repair_labels, repair_new_chain_edges, repair_edge, hi0, hi1, hi4, hb1, hb2,
      Table.merge, Table.assign, Key.lt, edge_type, Table.find, boundary]

/-! ## Label repair only extends the table -/

theorem Table.mem_assign (t : Table) (k : Key) (v : Int) :
    ∀ e ∈ Table.assign t k v, e ∈ t ∨ e = (k, v) := by
  induction t with
  | nil =>
    intro e he
    simp only [Table.assign, List.mem_singleton] at he
    exact Or.inr he
  | cons e0 rest ih =>
    obtain ⟨k', v'⟩ := e0
    intro e he
    by_cases h1 : k' = k
    · have hx : e ∈ (k, v) :: rest := by
        simpa only [Table.assign, h1, if_true] using he
      rcases List.mem_cons.1 hx with hx | hx
      · exact Or.inr hx
      · exact Or.inl (List.mem_cons_of_mem _ hx)
    · by_cases h2 : Key.lt k k' = true
      · have hx : e ∈ (k, v) :: (k', v') :: rest := by
          simpa only [Table.assign, h1, if_false, h2, if_true] using he
        rcases List.mem_cons.1 hx with hx | hx
        · exact Or.inr hx
        · exact Or.inl hx
      · have hx : e ∈ (k', v') :: Table.assign rest k v := by
          simpa only [Table.assign, h1, if_false, h2] using he
        rcases List.mem_cons.1 hx with hx | hx
        · exact Or.inl (by rw [hx]; exact List.mem_cons_self _ _)
        · rcases ih e hx with h | h
          · exact Or.inl (List.mem_cons_of_mem _ h)
          · exact Or.inr h

theorem Table.mem_assign_of_find_none (t : Table) (k : Key) (v : Int)
    (hk : Table.find t k = none) : ∀ e ∈ t, e ∈ Table.assign t k v := by
  induction t with
  | nil => intro e he; cases he
  | cons e0 rest ih =>
    obtain ⟨k', v'⟩ := e0
    have h1 : k' ≠ k := by
      intro h
      simp [Table.find, h] at hk
    have hk' : Table.find rest k = none := by
      simpa [Table.find, h1] using hk
    intro e he
    by_cases h2 : Key.lt k k' = true
    · simp only [Table.assign, h1, if_false, h2, if_true]
      exact List.mem_cons_of_mem _ he
    · simp only [Table.assign, h1, if_false, h2]
      rcases List.mem_cons.1 he with he | he
      · exact he ▸ List.mem_cons_self _ _
      · exact List.mem_cons_of_mem _ (ih hk' e he)

theorem Table.mem_merge_of_mem (source : Table) :
    ∀ target : Table, ∀ e ∈ target, e ∈ Table.merge target source := by
  induction source with
  | nil => intro target e he; exact he
  | cons s rest ih =>
    intro target e he
    have hstep : Table.merge target (s :: rest)
        = Table.merge (if (Table.find target s.1).isSome then target
            else Table.assign target s.1 s.2) rest := rfl
    rw [hstep]
    apply ih
    split_ifs with h
    · exact he
    · have hn : Table.find target s.1 = none := by
        cases hf : Table.find target s.1 with
        | none => rfl
        | some w => simp [hf] at h
      exact Table.mem_assign_of_find_none target s.1 s.2 hn e he

theorem Table.mem_merge (source : Table) :
    ∀ target : Table, ∀ e ∈ Table.merge target source, e ∈ target ∨ e ∈ source := by
  induction source with
  | nil => intro target e he; exact Or.inl he
  | cons s rest ih =>
    intro target e he
    have hstep : Table.merge target (s :: rest)
        = Table.merge (if (Table.find target s.1).isSome then target
            else Table.assign target s.1 s.2) rest := rfl
    rw [hstep] at he
    rcases ih _ e he with h | h
    · split_ifs at h
      · exact Or.inl h
      · rcases Table.mem_assign target s.1 s.2 e h with h' | h'
        · exact Or.inl h'
        · exact Or.inr (h' ▸ List.mem_cons_self _ _)
    · exact Or.inr (List.mem_cons_of_mem _ h)

/-- Every entry of `new_chain_edges` after the repair loop was there before the loop, or
belongs to a finite edge with a sentinel end vertex and carries the type the scan found. -/
theorem repair_new_chain_edges_mem (cdt : CDT) (chain_edges : Table)
    (es : List (Vertex_handle × Vertex_handle)) :
    ∀ acc : Table, ∀ e ∈ repair_new_chain_edges cdt chain_edges es acc,
      e ∈ acc ∨ (e.1 ∈ es ∧ (cdt.id e.1.1 = -1 ∨ cdt.id e.1.2 = -1)
        ∧ e.2 = find_edge_type_bruteforce cdt e.1.1 e.1.2 chain_edges ∧ e.2 ≠ -1) := by
  induction es with
  | nil => intro acc e he; exact Or.inl he
  | cons e0 rest ih =>
    intro acc e he
    simp only [repair_new_chain_edges] at he
    rcases ih _ e he with h | ⟨h1, h2⟩
    · unfold repair_edge at h
      split_ifs at h with hs hb
      · rcases Table.mem_assign _ _ _ e h with h' | h'
        · exact Or.inl h'
        · right
          subst h'
          exact ⟨List.mem_cons_self _ _, hs, rfl, hb⟩
      · exact Or.inl h
      · exact Or.inl h
    · exact Or.inr ⟨List.mem_cons_of_mem _ h1, h2⟩

theorem repair_new_chain_edges_of_no_sentinel (cdt : CDT) (chain_edges : Table)
    (es : List (Vertex_handle × Vertex_handle))
    (hno : ∀ e ∈ es, cdt.id e.1 ≠ -1 ∧ cdt.id e.2 ≠ -1) :
    ∀ acc : Table, repair_new_chain_edges cdt chain_edges es acc = acc := by
  induction es with
  | nil => intro acc; rfl
  | cons e0 rest ih =>
    intro acc
    obtain ⟨h1, h2⟩ := hno e0 (List.mem_cons_self _ _)
    simp only [repair_new_chain_edges]
    rw [ih (fun e he => hno e (List.mem_cons_of_mem _ he))]
    simp [repair_edge, h1, h2]

/-- C11: for every triangulation, every list of finite edges and every table, after the
repair pass (i) every entry of the table is still an entry, and every key keeps its type in
the lookup; (ii) every entry that was not there belongs to a finite edge of the triangulation
with at least one end vertex of identity `-1`, and its type is what the scan of the old table
found for that edge; (iii) when no end vertex of a finite edge carries the sentinel, the
table is unchanged. -/
theorem C11_repair_only_extends (cdt : CDT)
    (finite_edges : List (Vertex_handle × Vertex_handle)) (chain_edges : Table) :
    (∀ e ∈ chain_edges, e ∈ repair_labels cdt finite_edges chain_edges)
      ∧ (∀ k v, Table.find chain_edges k = some v →
          Table.find (repair_labels cdt finite_edges chain_edges) k = some v)
      ∧ (∀ e ∈ repair_labels cdt finite_edges chain_edges,
          e ∈ chain_edges ∨ (e.1 ∈ finite_edges ∧ (cdt.id e.1.1 = -1 ∨ cdt.id e.1.2 = -1)
            ∧ e.2 = find_edge_type_bruteforce cdt e.1.1 e.1.2 chain_edges ∧ e.2 ≠ -1))
      ∧ ((∀ e ∈ finite_edges, cdt.id e.1 ≠ -1 ∧ cdt.id e.2 ≠ -1) →
          repair_labels cdt finite_edges chain_edges = chain_edges) := by
  refine ⟨?_, ?_, ?_, ?_⟩
  · intro e he
    exact Table.mem_merge_of_mem _ _ e he
  · intro k v hk
    unfold repair_labels
    rw [Table.find_merge, hk]
  · intro e he
    rcases Table.mem_merge _ _ e he with h | h
    · exact Or.inl h
    · rcases repair_new_chain_edges_mem cdt chain_edges finite_edges [] e h with h' | h'
      · cases h'
      · exact Or.inr h'
  · intro hno
    unfold repair_labels
    rw [repair_new_chain_edges_of_no_sentinel cdt chain_edges finite_edges hno]
    rfl

/-- C11, instance: the rhombus without a new vertex; a repair over its five finite edges
leaves the table as ingestion built it. -/
theorem C11_repair_only_extends_witness :
    repair_labels (main_ingest input_rhombus).1.cdt [(0, 1), (1, 2), (2, 3), (3, 0), (0, 2)]
        (main_ingest input_rhombus).1.chain_edges
      = (main_ingest input_rhombus).1.chain_edges := by
  refine (C11_repair_only_extends (main_ingest input_rhombus).1.cdt
    [(0, 1), (1, 2), (2, 3), (3, 0), (0, 2)] (main_ingest input_rhombus).1.chain_edges).2.2.2 ?_
  rw [main_ingest_rhombus]
  intro e he
  simp only [List.mem_cons, List.mem_singleton, List.not_mem_nil, or_false] at he
  rcases he with rfl | rfl | rfl | rfl | rfl <;> decide

/-! ## The representative point and the seed synthesis -/

/-- C15: for every triangle `(v0, v1, v2)` that is not degenerate, the representative point
`v0 + 0.33*(v1 - v0) + 0.33*(v2 - v0)` is the combination of `v0`, `v1`, `v2` with the
weights `1 - 2*0.33`, `0.33`, `0.33` (`0.33` the value of the `double`); the weights are its
barycentric coordinates, they sum to 1 and each is strictly positive: the point is strictly
inside the triangle. -/
theorem C15_centroid_strictly_inside (v0 v1 v2 : Point) (h : orientation v0 v1 v2 ≠ 0) :
    centroid v0 v1 v2
        = ⟨(1 - 2 * c033) * v0.x + c033 * v1.x + c033 * v2.x,
            (1 - 2 * c033) * v0.y + c033 * v1.y + c033 * v2.y⟩
      ∧ (1 - 2 * c033) + c033 + c033 = 1
      ∧ orientation v1 v2 (centroid v0 v1 v2) / orientation v0 v1 v2 = 1 - 2 * c033
      ∧ orientation v2 v0 (centroid v0 v1 v2) / orientation v0 v1 v2 = c033
      ∧ orientation v0 v1 (centroid v0 v1 v2) / orientation v0 v1 v2 = c033
      ∧ 0 < 1 - 2 * c033 ∧ 0 < c033 := by
  refine ⟨?_, by ring, ?_, ?_, ?_, by norm_num [c033], by norm_num [c033]⟩
  · simp only [centroid, Point.mk.injEq]
    constructor <;> ring
  · rw [div_eq_iff h]
    simp only [centroid, orientation]
    ring
  · rw [div_eq_iff h]
    simp only [centroid, orientation]
    ring
  · rw [div_eq_iff h]
    simp only [centroid, orientation]
    ring

/-- C15, instance: the triangle `(1,1), (3,1), (2,3)`. -/
theorem C15_centroid_strictly_inside_witness :
    orientation ⟨1, 1⟩ ⟨3, 1⟩ ⟨2, 3⟩ ≠ 0
      ∧ 0 < orientation ⟨3, 1⟩ ⟨2, 3⟩ (centroid ⟨1, 1⟩ ⟨3, 1⟩ ⟨2, 3⟩)
          / orientation ⟨1, 1⟩ ⟨3, 1⟩ ⟨2, 3⟩
      ∧ 0 < orientation ⟨2, 3⟩ ⟨1, 1⟩ (centroid ⟨1, 1⟩ ⟨3, 1⟩ ⟨2, 3⟩)
          / orientation ⟨1, 1⟩ ⟨3, 1⟩ ⟨2, 3⟩
      ∧ 0 < orientation ⟨1, 1⟩ ⟨3, 1⟩ (centroid ⟨1, 1⟩ ⟨3, 1⟩ ⟨2, 3⟩)
          / orientation ⟨1, 1⟩ ⟨3, 1⟩ ⟨2, 3⟩ := by
  have hne : orientation ⟨1, 1⟩ ⟨3, 1⟩ ⟨2, 3⟩ ≠ 0 := by norm_num [orientation]
  obtain ⟨_, _, h1, h2, h3, p1, p2⟩ := C15_centroid_strictly_inside ⟨1, 1⟩ ⟨3, 1⟩ ⟨2, 3⟩ hne
  exact ⟨hne, by rw [h1]; exact p1, by rw [h2]; exact p2, by rw [h3]; exact p2⟩

/-- Claim C16: the first seed is `b + 0.0001*((a-b)+(c-b))` and the second seed is
`b - 0.01*((a-b)+(c-b))`, coordinate by coordinate, with the exact double values of the
two constants. For every ring (a handle list with at least three handles, `a`, `b`, `c`
the points of the first three), `construct_point_in_polygon` returns a result: the first
seed when it is on the bounded side of the ring, otherwise the second seed, on the bounded
side or not; the error is logged exactly when neither seed is on the bounded side. -/
theorem C16_seed_fallback_policy (cdt : CDT) (v0 v1 v2 : Vertex_handle)
    (rest : List Vertex_handle) :
    (∀ a b c : Point,
        seed_first a b c
            = ⟨b.x + 7378697629483821 / 73786976294838206464 * ((a.x - b.x) + (c.x - b.x)),
                b.y + 7378697629483821 / 73786976294838206464 * ((a.y - b.y) + (c.y - b.y))⟩
          ∧ seed_second a b c
            = ⟨b.x - 5764607523034235 / 576460752303423488 * ((a.x - b.x) + (c.x - b.x)),
                b.y - 5764607523034235 / 576460752303423488 * ((a.y - b.y) + (c.y - b.y))⟩)
      ∧ (∃ r, construct_point_in_polygon cdt (v0 :: v1 :: v2 :: rest) = some r)
      ∧ (bounded_side_2 ((v0 :: v1 :: v2 :: rest).map cdt.point)
            (seed_first (cdt.point v0) (cdt.point v1) (cdt.point v2))
            = Bounded_side.ON_BOUNDED_SIDE →
          construct_point_in_polygon cdt (v0 :: v1 :: v2 :: rest)
            = some (seed_first (cdt.point v0) (cdt.point v1) (cdt.point v2),
                Seed_message.first_attempt))
      ∧ (bounded_side_2 ((v0 :: v1 :: v2 :: rest).map cdt.point)
            (seed_first (cdt.point v0) (cdt.point v1) (cdt.point v2))
            ≠ Bounded_side.ON_BOUNDED_SIDE →
          ∃ m, construct_point_in_polygon cdt (v0 :: v1 :: v2 :: rest)
            = some (seed_second (cdt.point v0) (cdt.point v1) (cdt.point v2), m))
      ∧ ((∃ p, construct_point_in_polygon cdt (v0 :: v1 :: v2 :: rest)
            = some (p, Seed_message.not_in_hole))
          ↔ bounded_side_2 ((v0 :: v1 :: v2 :: rest).map cdt.point)
              (seed_first (cdt.point v0) (cdt.point v1) (cdt.point v2))
              ≠ Bounded_side.ON_BOUNDED_SIDE
            ∧ bounded_side_2 ((v0 :: v1 :: v2 :: rest).map cdt.point)
              (seed_second (cdt.point v0) (cdt.point v1) (cdt.point v2))
              ≠ Bounded_side.ON_BOUNDED_SIDE) := by
  refine ⟨fun a b c => ⟨rfl, rfl⟩, ?_⟩
  by_cases h1 : bounded_side_2 ((v0 :: v1 :: v2 :: rest).map cdt.point)
      (seed_first (cdt.point v0) (cdt.point v1) (cdt.point v2)) = Bounded_side.ON_BOUNDED_SIDE
  · simp only [List.map_cons] at h1
    simp [construct_point_in_polygon, h1]
  · by_cases h2 : bounded_side_2 ((v0 :: v1 :: v2 :: rest).map cdt.point)
        (seed_second (cdt.point v0) (cdt.point v1) (cdt.point v2))
        = Bounded_side.ON_BOUNDED_SIDE
    · simp only [List.map_cons] at h1 h2
      simp [construct_point_in_polygon, h1, h2]
    · simp only [List.map_cons] at h1 h2
      simp [construct_point_in_polygon, h1, h2]

theorem main_ingest_square_with_hole : main_ingest input_square_with_hole
    = (⟨⟨[⟨⟨0, 0⟩, 0⟩, ⟨⟨4, 0⟩, 1⟩, ⟨⟨4, 4⟩, 2⟩, ⟨⟨0, 4⟩, 3⟩, ⟨⟨1, 1⟩, 4⟩, ⟨⟨3, 1⟩, 5⟩,
            ⟨⟨3, 3⟩, 6⟩, ⟨⟨1, 3⟩, 7⟩],
          [(0, 1), (1, 2), (2, 3), (3, 0), (4, 5), (5, 6), (6, 7), (7, 4)]⟩,
        [((0, 1), 0), ((1, 2), 0), ((2, 3), 0), ((3, 0), 0), ((4, 5), 1), ((5, 6), 1),
          ((6, 7), 1), ((7, 4), 1)], 8, 8⟩,
      [[0, 1, 2, 3, 0], [4, 5, 6, 7, 4]]) := by
  simp [main_ingest, input_square_with_hole, square_hole_closed, ingest_rings,
    ingest_linestrings, insert_chain,
    insert_chain_points, insert_chain_point, insert_chain_edges, insert_chain_edge,
    CDT.insert, CDT.id, CDT.set_id, Ingest.init, CDT.empty, Vertex.fresh, List.findIdx_cons,
    CDT.insert_constraint, Table.assign, Key.lt]

theorem main_ingest_dart_hole : main_ingest input_dart_hole
    = (⟨⟨[⟨⟨0, 0⟩, 0⟩, ⟨⟨30000, 0⟩, 1⟩, ⟨⟨30000, 30000⟩, 2⟩, ⟨⟨0, 30000⟩, 3⟩,
            ⟨⟨20001, 1⟩, 4⟩, ⟨⟨1, 1⟩, 5⟩, ⟨⟨1, 20001⟩, 6⟩, ⟨⟨2, 2⟩, 7⟩],
          [(0, 1), (1, 2), (2, 3), (3, 0), (4, 5), (5, 6), (6, 7), (7, 4)]⟩,
        [((0, 1), 0), ((1, 2), 0), ((2, 3), 0), ((3, 0), 0), ((4, 5), 1), ((5, 6), 1),
          ((6, 7), 1), ((7, 4), 1)], 8, 8⟩,
      [[0, 1, 2, 3, 0], [4, 5, 6, 7, 4]]) := by
  simp [main_ingest, input_dart_hole, ingest_rings,
    ingest_linestrings, insert_chain,
    insert_chain_points, insert_chain_point, insert_chain_edges, insert_chain_edge,
    CDT.insert, CDT.id, CDT.set_id, Ingest.init, CDT.empty, Vertex.fresh, List.findIdx_cons,
    CDT.insert_constraint, Table.assign, Key.lt]


/-- C12 (amended): for every ring with at least three handles, `construct_point_in_polygon`
returns a point strictly inside the ring exactly when the first seed or the second seed is
strictly inside the ring. -/
theorem C12_seed_inside_iff (cdt : CDT) (v0 v1 v2 : Vertex_handle) (rest : List Vertex_handle) :
    (∃ p m, construct_point_in_polygon cdt (v0 :: v1 :: v2 :: rest) = some (p, m)
        ∧ bounded_side_2 ((v0 :: v1 :: v2 :: rest).map cdt.point) p
          = Bounded_side.ON_BOUNDED_SIDE)
      ↔ (bounded_side_2 ((v0 :: v1 :: v2 :: rest).map cdt.point)
            (seed_first (cdt.point v0) (cdt.point v1) (cdt.point v2))
            = Bounded_side.ON_BOUNDED_SIDE
          ∨ bounded_side_2 ((v0 :: v1 :: v2 :: rest).map cdt.point)
            (seed_second (cdt.point v0) (cdt.point v1) (cdt.point v2))
            = Bounded_side.ON_BOUNDED_SIDE) := by
  by_cases h1 : bounded_side_2 ((v0 :: v1 :: v2 :: rest).map cdt.point)
      (seed_first (cdt.point v0) (cdt.point v1) (cdt.point v2)) = Bounded_side.ON_BOUNDED_SIDE
  · have h1' := h1
    simp only [List.map_cons] at h1'
    have e : construct_point_in_polygon cdt (v0 :: v1 :: v2 :: rest)
        = some (seed_first (cdt.point v0) (cdt.point v1) (cdt.point v2),
            Seed_message.first_attempt) := by
      simp only [construct_point_in_polygon, h1, h1', if_true]
    simp only [h1, true_or, iff_true]
    exact ⟨_, _, e, h1⟩
  · by_cases h2 : bounded_side_2 ((v0 :: v1 :: v2 :: rest).map cdt.point)
        (seed_second (cdt.point v0) (cdt.point v1) (cdt.point v2))
        = Bounded_side.ON_BOUNDED_SIDE
    · have h1' := h1
      have h2' := h2
      simp only [List.map_cons] at h1' h2'
      have e : construct_point_in_polygon cdt (v0 :: v1 :: v2 :: rest)
          = some (seed_second (cdt.point v0) (cdt.point v1) (cdt.point v2),
              Seed_message.second_attempt) := by
        simp only [construct_point_in_polygon, h1, h1', if_false, h2, h2', if_true]
      simp only [h2, or_true, iff_true]
      exact ⟨_, _, e, h2⟩
    · have h1' := h1
      have h2' := h2
      simp only [List.map_cons] at h1' h2'
      have e : construct_point_in_polygon cdt (v0 :: v1 :: v2 :: rest)
          = some (seed_second (cdt.point v0) (cdt.point v1) (cdt.point v2),
              Seed_message.not_in_hole) := by
        simp only [construct_point_in_polygon, h1, h1', if_false, h2, h2']
      simp only [h1, h2, or_self, iff_false]
      rintro ⟨p, m, hpm, hin⟩
      rw [e] at hpm
      simp only [Option.some.injEq, Prod.mk.injEq] at hpm
      rw [← hpm.1] at hin
      exact h2 hin

theorem seed_first_square_hole :
    seed_first ⟨1, 1⟩ ⟨3, 1⟩ ⟨3, 3⟩ = ⟨3 - 2 * c00001, 1 + 2 * c00001⟩ := by
  simp only [seed_first, Point.mk.injEq]
  constructor <;> ring

theorem bounded_side_2_square_hole_closed_seed_first :
    bounded_side_2 square_hole_closed (seed_first ⟨1, 1⟩ ⟨3, 1⟩ ⟨3, 3⟩)
      = Bounded_side.ON_BOUNDED_SIDE := by
  rw [seed_first_square_hole]
  norm_num [square_hole_closed, c00001, bounded_side_2, polygon_edges, on_segment, crosses_ray,
    orientation, List.rotate, List.countP_cons]

/-- C12, instance: for the input with the hole ring `[(1,1),(3,1),(3,3),(1,3)]` (closed by
`(1,1)`), the seed synthesized by `main` is the first seed of the corner `(3,1)`, and it is
strictly inside the ring, closed or not. -/
theorem C12_seed_inside_iff_witness :
    main_seeds (main_ingest input_square_with_hole).1.cdt input_square_with_hole
        (main_ingest input_square_with_hole).2
      = [some (seed_first ⟨1, 1⟩ ⟨3, 1⟩ ⟨3, 3⟩, Seed_message.first_attempt)]
      ∧ bounded_side_2 square_hole (seed_first ⟨1, 1⟩ ⟨3, 1⟩ ⟨3, 3⟩)
        = Bounded_side.ON_BOUNDED_SIDE
      ∧ ∃ p m, construct_point_in_polygon (main_ingest input_square_with_hole).1.cdt
          [4, 5, 6, 7, 4] = some (p, m)
        ∧ bounded_side_2 ([4, 5, 6, 7, 4].map (main_ingest input_square_with_hole).1.cdt.point) p
          = Bounded_side.ON_BOUNDED_SIDE := by
  have hmap : [4, 5, 6, 7, 4].map (main_ingest input_square_with_hole).1.cdt.point
      = square_hole_closed := by
    rw [main_ingest_square_with_hole]
    rfl
  have hp4 : (main_ingest input_square_with_hole).1.cdt.point 4 = ⟨1, 1⟩ := by
    rw [main_ingest_square_with_hole]; rfl
  have hp5 : (main_ingest input_square_with_hole).1.cdt.point 5 = ⟨3, 1⟩ := by
    rw [main_ingest_square_with_hole]; rfl
  have hp6 : (main_ingest input_square_with_hole).1.cdt.point 6 = ⟨3, 3⟩ := by
    rw [main_ingest_square_with_hole]; rfl
  have hin : bounded_side_2 ([4, 5, 6, 7, 4].map (main_ingest input_square_with_hole).1.cdt.point)
      (seed_first ((main_ingest input_square_with_hole).1.cdt.point 4)
        ((main_ingest input_square_with_hole).1.cdt.point 5)
        ((main_ingest input_square_with_hole).1.cdt.point 6))
      = Bounded_side.ON_BOUNDED_SIDE := by
    rw [hmap, hp4, hp5, hp6]
    exact bounded_side_2_square_hole_closed_seed_first
  refine ⟨?_, ?_, (C12_seed_inside_iff (main_ingest input_square_with_hole).1.cdt 4 5 6 [7, 4]).2
    (Or.inl hin)⟩
  · have hpoly : (main_ingest input_square_with_hole).2 = [[0, 1, 2, 3, 0], [4, 5, 6, 7, 4]] := by
      rw [main_ingest_square_with_hole]
    have hlen : input_square_with_hole.polygon.length = 2 := rfl
    have hp7 : (main_ingest input_square_with_hole).1.cdt.point 7 = ⟨1, 3⟩ := by
      rw [main_ingest_square_with_hole]; rfl
    have hb : bounded_side_2 [⟨1, 1⟩, ⟨3, 1⟩, ⟨3, 3⟩, ⟨1, 3⟩, ⟨1, 1⟩]
        (seed_first ⟨1, 1⟩ ⟨3, 1⟩ ⟨3, 3⟩) = Bounded_side.ON_BOUNDED_SIDE :=
      bounded_side_2_square_hole_closed_seed_first
    simp only [main_seeds, hpoly, hlen, List.take_succ_cons, List.take_zero,
      List.drop_succ_cons, List.drop_zero, List.map_cons, List.map_nil,
      construct_point_in_polygon, hp4, hp5, hp6, hp7, hb, if_true]
  · rw [seed_first_square_hole]
    norm_num [square_hole, c00001, bounded_side_2, polygon_edges, on_segment, crosses_ray,
      orientation, List.rotate, List.countP_cons]

theorem simple_polygon_dart : simple_polygon dart := by
  refine ⟨by decide, by decide, ?_⟩
  norm_num [dart, polygon_edges, List.rotate, List.pairwise_cons, edges_meet_properly,
    intersection, on_segment, orientation, along, point_at]

theorem seed_first_dart :
    seed_first ⟨20001, 1⟩ ⟨1, 1⟩ ⟨1, 20001⟩ = ⟨1 + 20000 * c00001, 1 + 20000 * c00001⟩ := by
  simp only [seed_first, Point.mk.injEq]
  constructor <;> ring

theorem seed_second_dart :
    seed_second ⟨20001, 1⟩ ⟨1, 1⟩ ⟨1, 20001⟩ = ⟨1 - 20000 * c001, 1 - 20000 * c001⟩ := by
  simp only [seed_second, Point.mk.injEq]
  constructor <;> ring

theorem bounded_side_2_dart_closed_seed_first :
    bounded_side_2 [⟨20001, 1⟩, ⟨1, 1⟩, ⟨1, 20001⟩, ⟨2, 2⟩, ⟨20001, 1⟩]
        (seed_first ⟨20001, 1⟩ ⟨1, 1⟩ ⟨1, 20001⟩)
      = Bounded_side.ON_UNBOUNDED_SIDE := by
  rw [seed_first_dart]
  norm_num [c00001, bounded_side_2, polygon_edges, on_segment, crosses_ray,
    orientation, List.rotate, List.countP_cons]

theorem bounded_side_2_dart_closed_seed_second :
    bounded_side_2 [⟨20001, 1⟩, ⟨1, 1⟩, ⟨1, 20001⟩, ⟨2, 2⟩, ⟨20001, 1⟩]
        (seed_second ⟨20001, 1⟩ ⟨1, 1⟩ ⟨1, 20001⟩)
      = Bounded_side.ON_UNBOUNDED_SIDE := by
  rw [seed_second_dart]
  norm_num [c001, bounded_side_2, polygon_edges, on_segment, crosses_ray,
    orientation, List.rotate, List.countP_cons]

theorem bounded_side_2_dart_seed_second :
    bounded_side_2 dart (seed_second ⟨20001, 1⟩ ⟨1, 1⟩ ⟨1, 20001⟩)
      = Bounded_side.ON_UNBOUNDED_SIDE := by
  rw [seed_second_dart]
  norm_num [dart, c001, bounded_side_2, polygon_edges, on_segment, crosses_ray,
    orientation, List.rotate, List.countP_cons]


theorem main_seeds_dart_hole :
    main_seeds (main_ingest input_dart_hole).1.cdt input_dart_hole (main_ingest input_dart_hole).2
      = [some (seed_second ⟨20001, 1⟩ ⟨1, 1⟩ ⟨1, 20001⟩, Seed_message.not_in_hole)] := by
  have hpoly : (main_ingest input_dart_hole).2 = [[0, 1, 2, 3, 0], [4, 5, 6, 7, 4]] := by
    rw [main_ingest_dart_hole]
  have hlen : input_dart_hole.polygon.length = 2 := rfl
  have hp4 : (main_ingest input_dart_hole).1.cdt.point 4 = ⟨20001, 1⟩ := by
    rw [main_ingest_dart_hole]; rfl
  have hp5 : (main_ingest input_dart_hole).1.cdt.point 5 = ⟨1, 1⟩ := by
    rw [main_ingest_dart_hole]; rfl
  have hp6 : (main_ingest input_dart_hole).1.cdt.point 6 = ⟨1, 20001⟩ := by
    rw [main_ingest_dart_hole]; rfl
  have hp7 : (main_ingest input_dart_hole).1.cdt.point 7 = ⟨2, 2⟩ := by
    rw [main_ingest_dart_hole]; rfl
  simp only [main_seeds, hpoly, hlen, List.take_succ_cons, List.take_zero,
    List.drop_succ_cons, List.drop_zero, List.map_cons, List.map_nil,
    construct_point_in_polygon, hp4, hp5, hp6, hp7, bounded_side_2_dart_closed_seed_first,
    bounded_side_2_dart_closed_seed_second]
  simp

/-- C12 (counterexample): the hole `dart`, a simple polygon with four vertices. The first
seed of its corner `(1,1)` lies beyond the fourth vertex `(2,2)`, the second seed lies behind
the corner; `main` gets the second seed with the error message, and it is outside the ring. -/
theorem C12_counterexample_dart :
    simple_polygon dart
      ∧ input_dart_hole.polygon.drop 1 = [dart ++ dart.take 1]
      ∧ main_seeds (main_ingest input_dart_hole).1.cdt input_dart_hole
          (main_ingest input_dart_hole).2
        = [some (seed_second ⟨20001, 1⟩ ⟨1, 1⟩ ⟨1, 20001⟩, Seed_message.not_in_hole)]
      ∧ bounded_side_2 dart (seed_second ⟨20001, 1⟩ ⟨1, 1⟩ ⟨1, 20001⟩)
        ≠ Bounded_side.ON_BOUNDED_SIDE
      ∧ bounded_side_2 (dart ++ dart.take 1) (seed_second ⟨20001, 1⟩ ⟨1, 1⟩ ⟨1, 20001⟩)
        ≠ Bounded_side.ON_BOUNDED_SIDE := by
  refine ⟨simple_polygon_dart, rfl, main_seeds_dart_hole, ?_, ?_⟩
  · rw [bounded_side_2_dart_seed_second]
    decide
  · have h := bounded_side_2_dart_closed_seed_second
    have e : dart ++ dart.take 1 = [⟨20001, 1⟩, ⟨1, 1⟩, ⟨1, 20001⟩, ⟨2, 2⟩, ⟨20001, 1⟩] := rfl
    rw [e, h]
    decide

/-- C16, instance: for the dart-shaped hole the first seed is not on the bounded side and
the function returns the second seed, the point with both coordinates
`1 - 20000 * 0.01`. -/
theorem C16_seed_fallback_policy_witness :
    ∃ m, construct_point_in_polygon (main_ingest input_dart_hole).1.cdt [4, 5, 6, 7, 4]
      = some (⟨1 - 20000 * (5764607523034235 / 576460752303423488),
          1 - 20000 * (5764607523034235 / 576460752303423488)⟩, m) := by
  have hmap : [4, 5, 6, 7, 4].map (main_ingest input_dart_hole).1.cdt.point
      = [⟨20001, 1⟩, ⟨1, 1⟩, ⟨1, 20001⟩, ⟨2, 2⟩, ⟨20001, 1⟩] := by
    rw [main_ingest_dart_hole]
    rfl
  have hp4 : (main_ingest input_dart_hole).1.cdt.point 4 = ⟨20001, 1⟩ := by
    rw [main_ingest_dart_hole]; rfl
  have hp5 : (main_ingest input_dart_hole).1.cdt.point 5 = ⟨1, 1⟩ := by
    rw [main_ingest_dart_hole]; rfl
  have hp6 : (main_ingest input_dart_hole).1.cdt.point 6 = ⟨1, 20001⟩ := by
    rw [main_ingest_dart_hole]; rfl
  have h := (C16_seed_fallback_policy (main_ingest input_dart_hole).1.cdt 4 5 6 [7, 4]).2.2.2.1
    (by
      rw [hmap, hp4, hp5, hp6, bounded_side_2_dart_closed_seed_first]
      decide)
  rw [hp4, hp5, hp6, seed_second_dart] at h
  exact h

/-! ## The closed set of edge types -/

theorem Table.find_eq_none_iff (t : Table) (k : Key) :
    Table.find t k = none ↔ ∀ e ∈ t, e.1 ≠ k := by
  constructor
  · intro h
    induction t with
    | nil => intro e he; cases he
    | cons e0 rest ih =>
      obtain ⟨k', v'⟩ := e0
      by_cases h1 : k' = k
      · simp [Table.find, h1] at h
      · have h' : Table.find rest k = none := by simpa [Table.find, h1] using h
        intro e he
        rcases List.mem_cons.1 he with he | he
        · rw [he]; exact h1
        · exact ih h' e he
  · exact Table.find_eq_none_of_forall_ne t k

theorem Table.find_mem (t : Table) (k : Key) (v : Int) (h : Table.find t k = some v) :
    (k, v) ∈ t := by
  induction t with
  | nil => simp [Table.find] at h
  | cons e0 rest ih =>
    obtain ⟨k', v'⟩ := e0
    by_cases h1 : k' = k
    · simp only [Table.find, h1, if_true, Option.some.injEq] at h
      rw [h1, h]
      exact List.mem_cons_self _ _
    · have h' : Table.find rest k = some v := by simpa [Table.find, h1] using h
      exact List.mem_cons_of_mem _ (ih h')

theorem Table.Typed.assign {t : Table} (ht : t.Typed) (k : Key) {v : Int}
    (hv : v = boundary ∨ v = hole ∨ v = road) : (Table.assign t k v).Typed := by
  intro e he
  rcases Table.mem_assign t k v e he with h | h
  · exact ht e h
  · rw [h]; exact hv

theorem Table.Typed.foldl_assign (ks : List Key) {v : Int}
    (hv : v = boundary ∨ v = hole ∨ v = road) :
    ∀ t : Table, t.Typed → (ks.foldl (fun t k => Table.assign t k v) t).Typed := by
  induction ks with
  | nil => intro t ht; exact ht
  | cons k rest ih =>
    intro t ht
    exact ih _ (ht.assign k hv)

theorem insert_chain_typed (s : Ingest) (chain : List Point) {type : Int}
    (hI : Ingested s.cdt s.index) (ht : s.chain_edges.Typed)
    (hv : type = boundary ∨ type = hole ∨ type = road) :
    (insert_chain s chain type).1.chain_edges.Typed := by
  obtain ⟨_, _, _, c4, _, _, _⟩ := insert_chain_spec s chain type hI
  rw [c4]
  exact Table.Typed.foldl_assign _ hv _ ht

theorem ingest_rings_typed (rings : List (List Point)) :
    ∀ (type : Int) (s : Ingest) (cgal_polygon : List (List Vertex_handle)),
      Ingested s.cdt s.index → s.chain_edges.Typed →
      (type = boundary ∨ type = hole ∨ type = road) →
      Ingested (ingest_rings rings type s cgal_polygon).1.cdt
          (ingest_rings rings type s cgal_polygon).1.index
        ∧ (ingest_rings rings type s cgal_polygon).1.chain_edges.Typed := by
  induction rings with
  | nil =>
    intro type s polys hI ht _
    exact ⟨hI, ht⟩
  | cons ring rest ih =>
    intro type s polys hI ht hv
    simp only [ingest_rings]
    exact ih 1 _ _ (insert_chain_spec s ring type hI).1 (insert_chain_typed s ring hI ht hv)
      (Or.inr (Or.inl rfl))

theorem ingest_linestrings_typed (chains : List (List Point)) :
    ∀ (s : Ingest) (cgal_polygon : List (List Vertex_handle)),
      Ingested s.cdt s.index → s.chain_edges.Typed →
      (ingest_linestrings chains s cgal_polygon).1.chain_edges.Typed := by
  induction chains with
  | nil =>
    intro s polys _ ht
    exact ht
  | cons chain rest ih =>
    intro s polys hI ht
    simp only [ingest_linestrings]
    exact ih _ _ (insert_chain_spec s chain 2 hI).1
      (insert_chain_typed s chain hI ht (Or.inr (Or.inr rfl)))

/-- After ingestion every stored type is boundary, hole or road. -/
theorem main_ingest_typed (input : TessaInput) : (main_ingest input).1.chain_edges.Typed := by
  obtain ⟨h1, h2⟩ := ingest_rings_typed input.polygon 0 Ingest.init [] Ingested.init
    (by intro e he; cases he) (Or.inl rfl)
  exact ingest_linestrings_typed input.linestrings _ _ h1 h2

/-- The scan returns `-1` or the type of an entry of the table. -/
theorem find_edge_type_bruteforce_mem (cdt : CDT) (a b : Vertex_handle) (t : Table) :
    find_edge_type_bruteforce cdt a b t = -1
      ∨ ∃ e ∈ t, e.2 = find_edge_type_bruteforce cdt a b t := by
  induction t with
  | nil => exact Or.inl rfl
  | cons e0 rest ih =>
    obtain ⟨k, w⟩ := e0
    by_cases h : is_segment (intersection ⟨cdt.point a, cdt.point b⟩
        ⟨cdt.point k.1, cdt.point k.2⟩) = true
    · right
      simp only [find_edge_type_bruteforce, h, if_true]
      exact ⟨(k, w), List.mem_cons_self _ _, rfl⟩
    · simp only [find_edge_type_bruteforce, h, Bool.false_eq_true, if_false]
      rcases ih with h' | ⟨e, he, h'⟩
      · exact Or.inl h'
      · exact Or.inr ⟨e, List.mem_cons_of_mem _ he, h'⟩

theorem repair_labels_typed (cdt : CDT) (finite_edges : List (Vertex_handle × Vertex_handle))
    {t : Table} (ht : t.Typed) : (repair_labels cdt finite_edges t).Typed := by
  intro e he
  rcases Table.mem_merge _ t e he with h | h
  · exact ht e h
  · rcases repair_new_chain_edges_mem cdt t finite_edges [] e h with h' | ⟨_, _, h3, h4⟩
    · cases h'
    · rcases find_edge_type_bruteforce_mem cdt e.1.1 e.1.2 t with h5 | ⟨e', he', h5⟩
      · exact absurd (h3.trans h5) h4
      · rw [h3, ← h5]; exact ht e' he'

theorem main_repair_typed (f : Flags) (cdt : CDT)
    (finite_edges : List (Vertex_handle × Vertex_handle)) {t : Table} (ht : t.Typed) :
    (main_repair f cdt finite_edges t).Typed := by
  unfold main_repair
  split_ifs
  · exact repair_labels_typed cdt finite_edges ht
  · exact ht

theorem edge_type_cases (a b : Vertex_handle) (t : Table) :
    (∃ v, ((a, b), v) ∈ t ∧ edge_type a b t = v)
      ∨ (∃ v, ((b, a), v) ∈ t ∧ edge_type a b t = v)
      ∨ ((∀ e ∈ t, e.1 ≠ (a, b) ∧ e.1 ≠ (b, a)) ∧ edge_type a b t = mesh) := by
  unfold edge_type
  cases h1 : Table.find t (a, b) with
  | some v => exact Or.inl ⟨v, Table.find_mem t _ v h1, rfl⟩
  | none =>
    cases h2 : Table.find t (b, a) with
    | some v => exact Or.inr (Or.inl ⟨v, Table.find_mem t _ v h2, rfl⟩)
    | none =>
      refine Or.inr (Or.inr ⟨fun e he => ⟨(Table.find_eq_none_iff t _).1 h1 e he,
        (Table.find_eq_none_iff t _).1 h2 e he⟩, rfl⟩)

/-- Claim C18: in every run (any input, any operation flags, any triangulation and finite
edges at the time of the repair) the provenance table after ingestion and the guarded
repair stores only the types boundary (0), hole (1) and road (2); the type emitted for an
edge is one of boundary, hole, road and mesh (0, 1, 2, 3); it is mesh exactly when the
table has no entry for the edge in either direction; and the name printed for it is one
of the four names, never "unknown". -/
theorem C18_closed_type_set (input : TessaInput) (f : Flags) (cdt : CDT)
    (finite_edges : List (Vertex_handle × Vertex_handle)) :
    (∀ e ∈ main_repair f cdt finite_edges (main_ingest input).1.chain_edges,
        e.2 = boundary ∨ e.2 = hole ∨ e.2 = road)
      ∧ ∀ a b : Vertex_handle,
        (edge_type a b (main_repair f cdt finite_edges (main_ingest input).1.chain_edges)
            = boundary
          ∨ edge_type a b (main_repair f cdt finite_edges (main_ingest input).1.chain_edges)
            = hole
          ∨ edge_type a b (main_repair f cdt finite_edges (main_ingest input).1.chain_edges)
            = road
          ∨ edge_type a b (main_repair f cdt finite_edges (main_ingest input).1.chain_edges)
            = mesh)
        ∧ (edge_type a b (main_repair f cdt finite_edges (main_ingest input).1.chain_edges)
            = mesh
          ↔ ∀ e ∈ main_repair f cdt finite_edges (main_ingest input).1.chain_edges,
              e.1 ≠ (a, b) ∧ e.1 ≠ (b, a))
        ∧ (type_name (edge_type a b
              (main_repair f cdt finite_edges (main_ingest input).1.chain_edges))
            = "boundary"
          ∨ type_name (edge_type a b
              (main_repair f cdt finite_edges (main_ingest input).1.chain_edges))
            = "hole"
          ∨ type_name (edge_type a b
              (main_repair f cdt finite_edges (main_ingest input).1.chain_edges))
            = "road"
          ∨ type_name (edge_type a b
              (main_repair f cdt finite_edges (main_ingest input).1.chain_edges))
            = "mesh") := by
  have ht := main_repair_typed f cdt finite_edges (main_ingest_typed input)
  refine ⟨ht, ?_⟩
  intro a b
  generalize main_repair f cdt finite_edges (main_ingest input).1.chain_edges = t at ht ⊢
  have hne : ∀ v : Int, (v = boundary ∨ v = hole ∨ v = road) → v ≠ mesh := by
    intro v hv
    rcases hv with h | h | h <;> rw [h] <;> decide
  have hname : ∀ v : Int, (v = boundary ∨ v = hole ∨ v = road ∨ v = mesh) →
      (type_name v = "boundary" ∨ type_name v = "hole" ∨ type_name v = "road"
        ∨ type_name v = "mesh") := by
    intro v hv
    rcases hv with h | h | h | h <;> rw [h]
    · exact Or.inl (by decide)
    · exact Or.inr (Or.inl (by decide))
    · exact Or.inr (Or.inr (Or.inl (by decide)))
    · exact Or.inr (Or.inr (Or.inr (by decide)))
  rcases edge_type_cases a b t with ⟨v, hm, hv⟩ | ⟨v, hm, hv⟩ | ⟨hno, hv⟩
  · have h3 := ht _ hm
    have h4 : edge_type a b t = boundary ∨ edge_type a b t = hole ∨ edge_type a b t = road
        ∨ edge_type a b t = mesh := by
      rw [hv]; rcases h3 with h | h | h
      · exact Or.inl h
      · exact Or.inr (Or.inl h)
      · exact Or.inr (Or.inr (Or.inl h))
    refine ⟨h4, ⟨fun h => absurd (hv ▸ h) (hne v h3), fun h => absurd rfl (h _ hm).1⟩,
      hname _ h4⟩
  · have h3 := ht _ hm
    have h4 : edge_type a b t = boundary ∨ edge_type a b t = hole ∨ edge_type a b t = road
        ∨ edge_type a b t = mesh := by
      rw [hv]; rcases h3 with h | h | h
      · exact Or.inl h
      · exact Or.inr (Or.inl h)
      · exact Or.inr (Or.inr (Or.inl h))
    refine ⟨h4, ⟨fun h => absurd (hv ▸ h) (hne v h3), fun h => absurd rfl (h _ hm).2⟩,
      hname _ h4⟩
  · have h4 : edge_type a b t = boundary ∨ edge_type a b t = hole ∨ edge_type a b t = road
        ∨ edge_type a b t = mesh := Or.inr (Or.inr (Or.inr hv))
    exact ⟨h4, ⟨fun _ => hno, fun _ => hv⟩, hname _ h4⟩

/-! ## Exit status and output of `main` -/

theorem construct_point_in_polygon_isSome (cdt : CDT) (vhs : List Vertex_handle) :
    (construct_point_in_polygon cdt vhs).isSome = true ↔ 3 ≤ vhs.length := by
  match vhs with
  | [] => simp [construct_point_in_polygon]
  | [_] => simp [construct_point_in_polygon]
  | [_, _] => simp [construct_point_in_polygon]
  | v0 :: v1 :: v2 :: rest =>
    have h : 3 ≤ (v0 :: v1 :: v2 :: rest).length := by simp
    simp only [h, iff_true]
    simp only [construct_point_in_polygon]
    split_ifs <;> rfl

theorem list_of_seeds_isSome (l : List (Option (Point × Seed_message))) :
    (list_of_seeds l).isSome = true ↔ ∀ o ∈ l, o.isSome = true := by
  induction l with
  | nil => simp [list_of_seeds]
  | cons o rest ih =>
    cases o with
    | none => simp [list_of_seeds]
    | some s =>
      simp only [list_of_seeds, Option.isSome_map', ih, List.mem_cons, forall_eq_or_imp,
        Option.isSome_some, true_and]

/-- The handle lists of the rings after the first have the lengths of these rings. -/
theorem main_ingest_holes_length (input : TessaInput) :
    List.Forall₂ (fun (ring : List Point) (hs : List Vertex_handle) => hs.length = ring.length)
      (input.polygon.drop 1)
      (((main_ingest input).2.take input.polygon.length).drop 1) := by
  obtain ⟨_, h, _⟩ := main_ingest_spec input
  have h1 := List.forall₂_drop 1 (List.forall₂_take input.polygon.length h)
  rw [List.take_left] at h1
  exact h1.imp (fun _ _ hr => Recorded.length_eq hr)

theorem list_of_seeds_main_seeds (input : TessaInput) :
    (list_of_seeds (main_seeds (main_ingest input).1.cdt input (main_ingest input).2)).isSome
        = true
      ↔ ∀ ring ∈ input.polygon.drop 1, 3 ≤ ring.length := by
  rw [list_of_seeds_isSome, main_seeds]
  have h := main_ingest_holes_length input
  generalize input.polygon.drop 1 = rings at h
  generalize ((main_ingest input).2.take input.polygon.length).drop 1 = hss at h
  induction h with
  | nil => simp
  | cons hab _ ih =>
    simp only [List.map_cons, List.mem_cons, forall_eq_or_imp, ih,
      construct_point_in_polygon_isSome, hab]

/-- Claim C14, with the failing input: when `parse_wkt_polygon` reports failure, `main`
returns exit status 2 and writes nothing to the output stream, whatever the other
arguments. When it reports success and every ring after the first has at least three
points, `main` returns exit status 0 after writing the vertex count, the edge count and
the vertex and edge lines. When it reports success and some ring after the first has
fewer than three points, the run reaches the access `vhs[2]` past the end of the handle
vector in `construct_point_in_polygon` and has no defined exit status. -/
theorem C14_parse_failure_exit (input : TessaInput) (f : Flags) (free_for : String)
    (kernel : Kernel) :
    main false input f free_for kernel = some (2, [])
      ∧ ((∀ ring ∈ input.polygon.drop 1, 3 ≤ ring.length) →
          ∃ nv ne lines, main true input f free_for kernel
            = some (0, Output_line.number_of_vertices nv :: Output_line.num_edges ne :: lines))
      ∧ ((∃ ring ∈ input.polygon.drop 1, ring.length < 3) →
          main true input f free_for kernel = none) := by
  refine ⟨by simp [main], ?_, ?_⟩
  · intro h
    have h1 := (list_of_seeds_main_seeds input).2 h
    obtain ⟨seeds, hs⟩ := Option.isSome_iff_exists.1 h1
    simp only [main, hs, Bool.true_eq_false, if_false, List.cons_append, List.nil_append]
    exact ⟨_, _, _, rfl⟩
  · intro h
    have h1 : ¬ (list_of_seeds (main_seeds (main_ingest input).1.cdt input
        (main_ingest input).2)).isSome = true := by
      rw [list_of_seeds_main_seeds]
      obtain ⟨ring, hr, hl⟩ := h
      exact fun hall => absurd (hall ring hr) (by omega)
    have h2 : list_of_seeds (main_seeds (main_ingest input).1.cdt input
        (main_ingest input).2) = none := by
      cases h3 : list_of_seeds (main_seeds (main_ingest input).1.cdt input
          (main_ingest input).2) with
      | none => rfl
      | some v => rw [h3] at h1; exact absurd rfl h1
    simp only [main, h2, Bool.true_eq_false, if_false]

theorem C14_parse_failure_exit_witness :
    main false input_short_hole ⟨false, false, false⟩ "" kernel_idle = some (2, [])
      ∧ (∃ nv ne lines, main true input_square_with_hole ⟨false, false, false⟩ "" kernel_idle
          = some (0, Output_line.number_of_vertices nv :: Output_line.num_edges ne :: lines))
      ∧ main true input_short_hole ⟨false, false, false⟩ "" kernel_idle = none :=
  ⟨(C14_parse_failure_exit input_short_hole ⟨false, false, false⟩ "" kernel_idle).1,
    (C14_parse_failure_exit input_square_with_hole ⟨false, false, false⟩ "" kernel_idle).2.1
      (by simp [input_square_with_hole, square_hole_closed]),
    (C14_parse_failure_exit input_short_hole ⟨false, false, false⟩ "" kernel_idle).2.2
      ⟨[⟨1, 1⟩, ⟨2, 2⟩], by simp [input_short_hole], by simp⟩⟩

/-! ## Overlap matching -/

/-- The scan returns the type of the first entry that overlaps the needle in a segment, or
`-1` when no entry does. -/
theorem find_edge_type_bruteforce_cases (cdt : CDT) (a b : Vertex_handle) (t : Table) :
    (find_edge_type_bruteforce cdt a b t = -1
        ∧ ∀ e ∈ t, is_segment (intersection ⟨cdt.point a, cdt.point b⟩ (cdt.segment e.1)) = false)
      ∨ ∃ l₁ e l₂, t = l₁ ++ e :: l₂
        ∧ e.2 = find_edge_type_bruteforce cdt a b t
        ∧ is_segment (intersection ⟨cdt.point a, cdt.point b⟩ (cdt.segment e.1)) = true
        ∧ ∀ e' ∈ l₁,
          is_segment (intersection ⟨cdt.point a, cdt.point b⟩ (cdt.segment e'.1)) = false := by
  induction t with
  | nil => exact Or.inl ⟨rfl, fun e he => by cases he⟩
  | cons e0 rest ih =>
    obtain ⟨k, w⟩ := e0
    by_cases h : is_segment (intersection ⟨cdt.point a, cdt.point b⟩
        ⟨cdt.point k.1, cdt.point k.2⟩) = true
    · right
      refine ⟨[], (k, w), rest, rfl, ?_, h, fun e he => by cases he⟩
      simp only [find_edge_type_bruteforce, h, if_true]
    · have hstep : find_edge_type_bruteforce cdt a b ((k, w) :: rest)
          = find_edge_type_bruteforce cdt a b rest := by
        simp only [find_edge_type_bruteforce, h, Bool.false_eq_true, if_false]
      rw [hstep]
      have hf : is_segment (intersection ⟨cdt.point a, cdt.point b⟩ (cdt.segment k)) = false := by
        simpa [CDT.segment] using h
      rcases ih with ⟨h1, h2⟩ | ⟨l₁, e, l₂, h1, h2, h3, h4⟩
      · left
        refine ⟨h1, ?_⟩
        intro e he
        rcases List.mem_cons.1 he with he | he
        · rw [he]; exact hf
        · exact h2 e he
      · right
        refine ⟨(k, w) :: l₁, e, l₂, by rw [h1]; rfl, h2, h3, ?_⟩
        intro e' he'
        rcases List.mem_cons.1 he' with he' | he'
        · rw [he']; exact hf
        · exact h4 e' he'

/-- A result that is not a segment is empty or a single point. -/
theorem is_segment_eq_false_iff (x : Option Intersection_result) :
    is_segment x = false ↔ x = none ∨ ∃ p, x = some (Intersection_result.point p) := by
  cases x with
  | none => simp [is_segment]
  | some r =>
    cases r with
    | point p => simp [is_segment]
    | segment s => simp [is_segment]

/-- A point of the line through `p` and `q` is `p + (along / len) * (q - p)`. -/
theorem collinear_param {p q r : Point} (hpq : p ≠ q) (h : orientation p q r = 0) :
    r.x = p.x + along p q r / along p q q * (q.x - p.x)
      ∧ r.y = p.y + along p q r / along p q q * (q.y - p.y) := by
  have hL := along_self_pos hpq
  have hL' : along p q q ≠ 0 := ne_of_gt hL
  unfold orientation at h
  constructor
  · field_simp
    unfold along
    linear_combination (-(q.y - p.y)) * h
  · field_simp
    unfold along
    linear_combination (q.x - p.x) * h

theorem between_param (x u α β : ℚ) (hα : α ≤ 0) (hβ : 1 ≤ β) :
    min (x + α * u) (x + β * u) ≤ x ∧ x ≤ max (x + α * u) (x + β * u)
      ∧ min (x + α * u) (x + β * u) ≤ x + u ∧ x + u ≤ max (x + α * u) (x + β * u)
      ∧ min (x + β * u) (x + α * u) ≤ x ∧ x ≤ max (x + β * u) (x + α * u)
      ∧ min (x + β * u) (x + α * u) ≤ x + u
      ∧ x + u ≤ max (x + β * u) (x + α * u) := by
  simp only [min_le_iff, le_max_iff]
  rcases le_total 0 u with hu | hu
  · have h1 : α * u ≤ 0 := mul_nonpos_of_nonpos_of_nonneg hα hu
    have h2 : u ≤ β * u := by nlinarith
    refine ⟨Or.inl ?_, Or.inr ?_, Or.inl ?_, Or.inr ?_, Or.inr ?_, Or.inl ?_, Or.inr ?_, Or.inl ?_⟩
      <;> linarith
  · have h1 : 0 ≤ α * u := mul_nonneg_of_nonpos_of_nonpos hα hu
    have h2 : β * u ≤ u := by nlinarith
    refine ⟨Or.inr ?_, Or.inl ?_, Or.inr ?_, Or.inl ?_, Or.inl ?_, Or.inr ?_, Or.inl ?_, Or.inr ?_⟩
      <;> linarith

/-- Two segments that overlap in a segment, the second with no endpoint strictly between
the endpoints of the first: the second contains both endpoints of the first. -/
theorem overlap_contains {p q r s : Point}
    (h : is_segment (intersection ⟨p, q⟩ ⟨r, s⟩) = true)
    (hr : ¬ strictly_between p q r) (hs : ¬ strictly_between p q s) :
    on_segment r s p = true ∧ on_segment r s q = true := by
  obtain ⟨hpq, -, o1, o2, h1, h2, -⟩ := (is_segment_intersection_iff p q r s).1 h
  have hL := along_self_pos hpq
  obtain ⟨hrx, hry⟩ := collinear_param hpq o1
  obtain ⟨hsx, hsy⟩ := collinear_param hpq o2
  have hc : ¬ (0 < along p q r / along p q q ∧ along p q r / along p q q < 1) :=
    fun hh => hr ⟨_, hh.1, hh.2, hrx, hry⟩
  have hd : ¬ (0 < along p q s / along p q q ∧ along p q s / along p q q < 1) :=
    fun hh => hs ⟨_, hh.1, hh.2, hsx, hsy⟩
  have h1' : 0 < along p q r / along p q q ∨ 0 < along p q s / along p q q :=
    h1.imp (fun hh => div_pos hh hL) (fun hh => div_pos hh hL)
  have h2' : along p q r / along p q q < 1 ∨ along p q s / along p q q < 1 :=
    h2.imp (fun hh => (div_lt_one hL).2 hh) (fun hh => (div_lt_one hL).2 hh)
  generalize along p q r / along p q q = α at hrx hry hc h1' h2'
  generalize along p q s / along p q q = β at hsx hsy hd h1' h2'
  have hqx : p.x + (q.x - p.x) = q.x := by ring
  have hqy : p.y + (q.y - p.y) = q.y := by ring
  have hcases : (α ≤ 0 ∧ 1 ≤ β) ∨ (β ≤ 0 ∧ 1 ≤ α) := by
    by_cases ha : 0 < α
    · have ha1 : 1 ≤ α := by
        by_contra hcon
        exact hc ⟨ha, lt_of_not_le hcon⟩
      have hb1 : β < 1 := by
        rcases h2' with hh | hh
        · exact absurd hh (not_lt.2 ha1)
        · exact hh
      have hb0 : β ≤ 0 := by
        by_contra hcon
        exact hd ⟨lt_of_not_le hcon, hb1⟩
      exact Or.inr ⟨hb0, ha1⟩
    · have hb0 : 0 < β := by
        rcases h1' with hh | hh
        · exact absurd hh ha
        · exact hh
      have hb1 : 1 ≤ β := by
        by_contra hcon
        exact hd ⟨hb0, lt_of_not_le hcon⟩
      exact Or.inl ⟨not_lt.1 ha, hb1⟩
  have hor : orientation r s p = 0 ∧ orientation r s q = 0 := by
    unfold orientation
    rw [hrx, hry, hsx, hsy]
    constructor <;> ring
  simp only [on_segment, Bool.and_eq_true, decide_eq_true_eq, hor.1, hor.2, true_and]
  rcases hcases with ⟨ha, hb⟩ | ⟨hb, ha⟩
  · obtain ⟨x1, x2, x3, x4, -⟩ := between_param p.x (q.x - p.x) α β ha hb
    obtain ⟨y1, y2, y3, y4, -⟩ := between_param p.y (q.y - p.y) α β ha hb
    rw [← hrx, ← hsx] at x1 x2 x3 x4
    rw [← hry, ← hsy] at y1 y2 y3 y4
    rw [hqx] at x3 x4
    rw [hqy] at y3 y4
    exact ⟨⟨⟨⟨x1, x2⟩, y1⟩, y2⟩, ⟨⟨x3, x4⟩, y3⟩, y4⟩
  · obtain ⟨-, -, -, -, x1, x2, x3, x4⟩ := between_param p.x (q.x - p.x) β α hb ha
    obtain ⟨-, -, -, -, y1, y2, y3, y4⟩ := between_param p.y (q.y - p.y) β α hb ha
    rw [← hrx, ← hsx] at x1 x2 x3 x4
    rw [← hry, ← hsy] at y1 y2 y3 y4
    rw [hqx] at x3 x4
    rw [hqy] at y3 y4
    exact ⟨⟨⟨⟨x1, x2⟩, y1⟩, y2⟩, ⟨⟨x3, x4⟩, y3⟩, y4⟩

/-- Claim C17: the label repair hands `find_edge_type_bruteforce` a finite edge `(a,b)` of
the triangulation, which has no vertex strictly inside it, and the provenance table, whose
keys are vertices and whose types are boundary, hole or road. For every such candidate and
table: if the function returns a type other than `-1`, it is the type of a table entry
(the first, in table order, whose segment overlaps the candidate in a segment) whose
segment contains both endpoints of the candidate, hence the whole candidate; and if it
returns `-1`, the intersection of the candidate with every provenance segment is empty or
a single point. -/
theorem C17_overlap_matching (cdt : CDT) (a b : Vertex_handle) (t : Table)
    (hedge : ∀ vh, vh < cdt.vertices.length →
      ¬ strictly_between (cdt.point a) (cdt.point b) (cdt.point vh))
    (hkeys : ∀ e ∈ t, e.1.1 < cdt.vertices.length ∧ e.1.2 < cdt.vertices.length)
    (ht : t.Typed) :
    (find_edge_type_bruteforce cdt a b t ≠ -1 →
        ∃ l₁ e l₂, t = l₁ ++ e :: l₂
          ∧ e.2 = find_edge_type_bruteforce cdt a b t
          ∧ is_segment (intersection ⟨cdt.point a, cdt.point b⟩ (cdt.segment e.1)) = true
          ∧ (∀ e' ∈ l₁,
              is_segment (intersection ⟨cdt.point a, cdt.point b⟩ (cdt.segment e'.1)) = false)
          ∧ on_segment (cdt.point e.1.1) (cdt.point e.1.2) (cdt.point a) = true
          ∧ on_segment (cdt.point e.1.1) (cdt.point e.1.2) (cdt.point b) = true)
      ∧ (find_edge_type_bruteforce cdt a b t = -1 →
          ∀ e ∈ t, intersection ⟨cdt.point a, cdt.point b⟩ (cdt.segment e.1) = none
            ∨ ∃ p, intersection ⟨cdt.point a, cdt.point b⟩ (cdt.segment e.1)
                = some (Intersection_result.point p)) := by
  rcases find_edge_type_bruteforce_cases cdt a b t with ⟨h1, h2⟩ | ⟨l₁, e, l₂, h1, h2, h3, h4⟩
  · refine ⟨fun h => absurd h1 h, fun _ e he => ?_⟩
    exact (is_segment_eq_false_iff _).1 (h2 e he)
  · have he : e ∈ t := by rw [h1]; simp
    have hc := overlap_contains h3 (hedge _ (hkeys e he).1) (hedge _ (hkeys e he).2)
    refine ⟨fun _ => ⟨l₁, e, l₂, h1, h2, h3, h4, hc.1, hc.2⟩, ?_⟩
    intro hm
    have hty := ht e he
    rw [h2, hm] at hty
    have hno : ¬ ((-1 : Int) = boundary ∨ (-1 : Int) = hole ∨ (-1 : Int) = road) := by decide
    exact absurd hty hno

/-- C17, instance: the square with the road on its first side, after the insertion of the
new vertex 4 at `(2,0)` with the sentinel identity. For the finite edge from vertex 0 to
vertex 4 the function returns boundary, the type of an entry whose segment contains
`(0,0)` and `(2,0)`. -/
theorem C17_overlap_matching_witness :
    cdt_square_split.id 4 = -1
      ∧ find_edge_type_bruteforce cdt_square_split 0 4
          (main_ingest input_road_on_boundary).1.chain_edges = boundary
      ∧ ∃ e ∈ (main_ingest input_road_on_boundary).1.chain_edges, e.2 = boundary
          ∧ on_segment (cdt_square_split.point e.1.1) (cdt_square_split.point e.1.2)
              (cdt_square_split.point 0) = true
          ∧ on_segment (cdt_square_split.point e.1.1) (cdt_square_split.point e.1.2)
              (cdt_square_split.point 4) = true := by
  have hp0 : cdt_square_split.point 0 = ⟨0, 0⟩ := by rw [cdt_square_split_eq]; rfl
  have hp1 : cdt_square_split.point 1 = ⟨4, 0⟩ := by rw [cdt_square_split_eq]; rfl
  have hp2 : cdt_square_split.point 2 = ⟨4, 4⟩ := by rw [cdt_square_split_eq]; rfl
  have hp3 : cdt_square_split.point 3 = ⟨0, 4⟩ := by rw [cdt_square_split_eq]; rfl
  have hp4 : cdt_square_split.point 4 = ⟨2, 0⟩ := by rw [cdt_square_split_eq]; rfl
  have hi4 : cdt_square_split.id 4 = -1 := by rw [cdt_square_split_eq]; rfl
  have hlen : cdt_square_split.vertices.length = 5 := by rw [cdt_square_split_eq]; rfl
  have htab : (main_ingest input_road_on_boundary).1.chain_edges
      = [((0, 1), 0), ((1, 0), 2), ((1, 2), 0), ((2, 3), 0), ((3, 0), 0)] := by
    rw [main_ingest_road_on_boundary]
  have hedge : ∀ vh, vh < cdt_square_split.vertices.length →
      ¬ strictly_between (cdt_square_split.point 0) (cdt_square_split.point 4)
        (cdt_square_split.point vh) := by
    intro vh hvh
    rw [hlen] at hvh
    rw [hp0, hp4]
    rintro ⟨u, hu0, hu1, hx, hy⟩
    interval_cases vh
    · rw [hp0] at hx; norm_num at hx; linarith
    · rw [hp1] at hx; norm_num at hx; linarith
    · rw [hp2] at hy; norm_num at hy
    · rw [hp3] at hy; norm_num at hy
    · rw [hp4] at hx; norm_num at hx; linarith
  have hkeys : ∀ e ∈ (main_ingest input_road_on_boundary).1.chain_edges,
      e.1.1 < cdt_square_split.vertices.length ∧ e.1.2 < cdt_square_split.vertices.length := by
    rw [htab, hlen]
    intro e he
    simp only [List.mem_cons, List.mem_singleton, List.not_mem_nil, or_false] at he
    rcases he with rfl | rfl | rfl | rfl | rfl <;> decide
  have hv : find_edge_type_bruteforce cdt_square_split 0 4
      (main_ingest input_road_on_boundary).1.chain_edges = boundary := by
    rw [htab]
    simp only [find_edge_type_bruteforce, hp0, hp1, hp2, hp3, hp4]
    norm_num [intersection, is_segment, orientation, along, on_segment, boundary]
  have hne : find_edge_type_bruteforce cdt_square_split 0 4
      (main_ingest input_road_on_boundary).1.chain_edges ≠ -1 := by
    rw [hv]; decide
  obtain ⟨l₁, e, l₂, h1, h2, -, -, h5, h6⟩ :=
    (C17_overlap_matching cdt_square_split 0 4 (main_ingest input_road_on_boundary).1.chain_edges
      hedge hkeys (main_ingest_typed input_road_on_boundary)).1 hne
  exact ⟨hi4, hv, e, by rw [h1]; simp, h2.trans hv, h5, h6⟩

/-! ## The original chain edges in the output -/

theorem Table.find_foldl_assign (ks : List Key) (v : Int) (k : Key) :
    ∀ t : Table, Table.find (ks.foldl (fun t k => Table.assign t k v) t) k
      = if k ∈ ks then some v else Table.find t k := by
  induction ks with
  | nil => intro t; simp
  | cons k0 rest ih =>
    intro t
    rw [List.foldl_cons, ih]
    by_cases h1 : k ∈ rest
    · simp [h1]
    · by_cases h2 : k = k0
      · subst h2
        simp [h1, Table.find_assign_self]
      · simp [h1, h2, Table.find_assign_ne _ _ _ _ h2]

theorem last_type_append_singleton (l : List (List Key × Int)) (c : List Key × Int) (k : Key) :
    last_type (l ++ [c]) k = if k ∈ c.1 then some c.2 else last_type l k := by
  induction l with
  | nil => simp [last_type]
  | cons c0 rest ih =>
    have hstep : ∀ l : List (List Key × Int), last_type (c0 :: l) k
        = match last_type l k with
          | some w => some w
          | none => if k ∈ c0.1 then some c0.2 else none := fun _ => rfl
    rw [List.cons_append, hstep, hstep, ih]
    by_cases h : k ∈ c.1
    · simp [h]
    · simp [h]

theorem last_type_append (l₁ l₂ : List (List Key × Int)) (k : Key) :
    last_type (l₁ ++ l₂) k
      = match last_type l₂ k with
        | some w => some w
        | none => last_type l₁ k := by
  induction l₁ with
  | nil => cases h : last_type l₂ k <;> simp [last_type, h]
  | cons c rest ih =>
    have hstep : ∀ l : List (List Key × Int), last_type (c :: l) k
        = match last_type l k with
          | some w => some w
          | none => if k ∈ c.1 then some c.2 else none := fun _ => rfl
    rw [List.cons_append, hstep, hstep, ih]
    cases h : last_type l₂ k <;> simp

theorem last_type_eq_none (l : List (List Key × Int)) (k : Key) (h : ∀ c ∈ l, k ∉ c.1) :
    last_type l k = none := by
  induction l with
  | nil => rfl
  | cons c rest ih =>
    have h1 := ih (fun c' hc' => h c' (List.mem_cons_of_mem _ hc'))
    have h2 := h c (List.mem_cons_self _ _)
    simp [last_type, h1, h2]

theorem Tabled.step {done : List (List Point)} {polys : List (List Vertex_handle)}
    {types : List Int} {s : Ingest} (h : Tabled done polys types s.chain_edges)
    (hI : Ingested s.cdt s.index) (chain : List Point) (type : Int) :
    Tabled (done ++ [chain]) (polys ++ [(insert_chain s chain type).2]) (types ++ [type])
      (insert_chain s chain type).1.chain_edges := by
  obtain ⟨h1, h2, h3⟩ := h
  refine ⟨by simp [h1], by simp [h2], ?_⟩
  intro k
  obtain ⟨_, _, _, c4, _, _, _⟩ := insert_chain_spec s chain type hI
  rw [c4, Table.find_foldl_assign, List.zipWith_append _ _ _ _ _ h1,
    List.zip_append (by simp [h1, h2]), List.zipWith_cons_cons, List.zipWith_nil_left,
    List.zip_cons_cons, List.zip_nil_left, last_type_append_singleton, h3]

theorem ring_types_hole (rings : List (List Point)) :
    ring_types hole rings = rings.map (fun _ => hole) := by
  cases rings <;> rfl

theorem ingest_rings_tabled (rings : List (List Point)) :
    ∀ (type : Int) (s : Ingest) (polys : List (List Vertex_handle))
      (done : List (List Point)) (types : List Int),
      Ingested s.cdt s.index → Tabled done polys types s.chain_edges →
      Ingested (ingest_rings rings type s polys).1.cdt (ingest_rings rings type s polys).1.index
        ∧ Tabled (done ++ rings) (ingest_rings rings type s polys).2
            (types ++ ring_types type rings) (ingest_rings rings type s polys).1.chain_edges := by
  induction rings with
  | nil =>
    intro type s polys done types hI ht
    simpa [ingest_rings, ring_types] using And.intro hI ht
  | cons ring rest ih =>
    intro type s polys done types hI ht
    have h := ih 1 (insert_chain s ring type).1 (polys ++ [(insert_chain s ring type).2])
      (done ++ [ring]) (types ++ [type]) (insert_chain_spec s ring type hI).1
      (ht.step hI ring type)
    have e1 : ring_types 1 rest = rest.map (fun _ => hole) := ring_types_hole rest
    rw [e1] at h
    simpa [ingest_rings, ring_types] using h

theorem ingest_linestrings_tabled (chains : List (List Point)) :
    ∀ (s : Ingest) (polys : List (List Vertex_handle))
      (done : List (List Point)) (types : List Int),
      Ingested s.cdt s.index → Tabled done polys types s.chain_edges →
      Tabled (done ++ chains) (ingest_linestrings chains s polys).2
          (types ++ chains.map (fun _ => road)) (ingest_linestrings chains s polys).1.chain_edges := by
  induction chains with
  | nil =>
    intro s polys done types hI ht
    simpa [ingest_linestrings] using ht
  | cons chain rest ih =>
    intro s polys done types hI ht
    have h := ih (insert_chain s chain 2).1 (polys ++ [(insert_chain s chain 2).2])
      (done ++ [chain]) (types ++ [2]) (insert_chain_spec s chain 2 hI).1
      (ht.step hI chain 2)
    simpa [ingest_linestrings, road] using h

/-- After ingestion the table holds, for every directed pair, the type of the last chain
that has it among its edges. -/
theorem main_ingest_tabled (input : TessaInput) :
    (original_edges input).length = (input.polygon ++ input.linestrings).length
      ∧ ∀ k, Table.find (main_ingest input).1.chain_edges k = last_type (original_edges input) k := by
  obtain ⟨h1, h2⟩ := ingest_rings_tabled input.polygon 0 Ingest.init [] [] []
    Ingested.init ⟨rfl, rfl, fun k => rfl⟩
  have h3 := ingest_linestrings_tabled input.linestrings _ _ _ _ h1 h2
  simp only [List.nil_append] at h3
  obtain ⟨l1, l2, l3⟩ := h3
  refine ⟨?_, l3⟩
  have l2' : (chain_types input).length = (main_ingest input).2.length := l2
  have l1' : (input.polygon ++ input.linestrings).length = (main_ingest input).2.length := l1
  simp only [original_edges, List.length_zip, List.length_zipWith, l2', ← l1', min_self]

theorem output_ring_edges_eq {cdt : CDT} {index : Int} (hI : Ingested cdt index) (t : Table)
    (free_for : String) (chain : List Point) :
    ∀ (p : Point) (a : Vertex_handle) (hs : List Vertex_handle),
      Recorded cdt (p :: chain) (a :: hs) →
      output_ring_edges cdt t free_for a hs
        = (nonzero_edges (p :: chain) (a :: hs)).map
            (fun k => output_edge cdt k.1 k.2 free_for (edge_type k.1 k.2 t)) := by
  induction chain with
  | nil =>
    intro p a hs hr
    cases hr with
    | cons _ hrest =>
      cases hrest
      simp [output_ring_edges, nonzero_edges, consecutive_pairs]
  | cons q rest ih =>
    intro p a hs hr
    cases hr with
    | cons hpa hrest =>
      cases hs with
      | nil => cases hrest
      | cons b hs' =>
        have hqb : b < cdt.vertices.length ∧ cdt.point b = q := by
          cases hrest with
          | cons h _ => exact h
        have hiff : p = q ↔ a = b := by
          constructor
          · intro hpq
            exact hI.point_inj hpa.1 hqb.1 (by rw [hpa.2, hqb.2, hpq])
          · intro hab
            rw [← hpa.2, ← hqb.2, hab]
        rw [nonzero_edges_cons_cons, output_ring_edges, ih q b hs' hrest]
        by_cases hpq : p = q
        · have hab : a = b := hiff.1 hpq
          simp [hpq, hab]
        · have hab : a ≠ b := fun h => hpq (hiff.2 h)
          simp [hpq, hab]

theorem output_original_edges_cons (cdt : CDT) (t : Table) (free_for : String)
    (ring : List Vertex_handle) (rest : List (List Vertex_handle)) :
    output_original_edges cdt t free_for (ring :: rest)
      = (match ring with
          | [] => []
          | first :: _ => output_ring_edges cdt t free_for first ring)
        ++ output_original_edges cdt t free_for rest := by
  cases ring <;> simp only [output_original_edges]

theorem output_original_edges_eq {cdt : CDT} {index : Int} (hI : Ingested cdt index) (t : Table)
    (free_for : String) {chains : List (List Point)} {polys : List (List Vertex_handle)}
    (hr : List.Forall₂ (Recorded cdt) chains polys) :
    output_original_edges cdt t free_for polys
      = (List.zipWith nonzero_edges chains polys).flatMap (fun ks => ks.map
          (fun k => output_edge cdt k.1 k.2 free_for (edge_type k.1 k.2 t))) := by
  induction hr with
  | nil => rfl
  | @cons chain hs chains' polys' hab _ ih =>
    rw [output_original_edges_cons, ih, List.zipWith_cons_cons, List.flatMap_cons]
    congr 1
    cases hab with
    | nil => simp [nonzero_edges, consecutive_pairs]
    | @cons p a chain' hs' hpa hrest =>
      have h1 := output_ring_edges_eq hI t free_for chain' p a hs' (List.Forall₂.cons hpa hrest)
      simp only [output_ring_edges, ne_eq, not_true_eq_false, if_false, List.nil_append]
      exact h1

/-- Without operation the edge lines are the lines of the original chain edges. -/
theorem output_edges_original (input : TessaInput) (free_for : String)
    (finite_edges : List Finite_edge) :
    output_edges false (main_ingest input).1.cdt (main_ingest input).1.chain_edges free_for
        finite_edges (main_ingest input).2
      = original_edge_lines input free_for := by
  obtain ⟨hI, hr, _⟩ := main_ingest_spec input
  have hl := (main_ingest_tabled input).1
  have h1 : (original_edges input).map Prod.fst
      = List.zipWith nonzero_edges (input.polygon ++ input.linestrings) (main_ingest input).2 := by
    unfold original_edges
    apply List.map_fst_zip
    have : (original_edges input).length = (input.polygon ++ input.linestrings).length := hl
    simp only [original_edges, List.length_zip, List.length_zipWith] at this ⊢
    omega
  simp only [output_edges, Bool.false_eq_true, if_false, original_edge_lines]
  rw [output_original_edges_eq hI _ free_for hr, ← h1, List.flatMap_map]

theorem main_no_operation (input : TessaInput) (free_for : String) (kernel : Kernel)
    (hholes : ∀ ring ∈ input.polygon.drop 1, 3 ≤ ring.length) :
    main true input ⟨false, false, false⟩ free_for kernel
      = some (0,
          [Output_line.number_of_vertices (main_ingest input).1.cdt.vertices.length,
            Output_line.num_edges (output_num_edges (kernel.finite_edges ⟨false, false, false⟩
              (main_ingest input).1.cdt (main_ingest input).2))]
          ++ (main_ingest input).1.cdt.vertices.map
              (fun v => Output_line.vertex v.id v.point.x v.point.y)
          ++ (original_edge_lines input free_for).map Output_line.edge) := by
  have h1 := (list_of_seeds_main_seeds input).2 hholes
  obtain ⟨seeds, hs⟩ := Option.isSome_iff_exists.1 h1
  have hop : main_operations kernel ⟨false, false, false⟩ (main_ingest input).1.cdt seeds
      = (main_ingest input).1.cdt := rfl
  have hrep : ∀ cdt fe t, main_repair ⟨false, false, false⟩ cdt fe t = t := fun _ _ _ => rfl
  have hdid : did_something ⟨false, false, false⟩ = false := rfl
  have hclean : ∀ vs index, main_cleanup false vs index = (vs, index) := fun _ _ => rfl
  have heta : (⟨(main_ingest input).1.cdt.vertices, (main_ingest input).1.cdt.constraints⟩ : CDT)
      = (main_ingest input).1.cdt := rfl
  simp only [main, hs, Bool.true_eq_false, if_false, hop, hrep, hdid, hclean, heta,
    output_edges_original]

theorem edge_type_of_find {a b : Vertex_handle} {t : Table} {w : Int}
    (h : Table.find t (a, b) = some w) : edge_type a b t = w := by
  simp only [edge_type, h]

/-- Claim C13, amended: when no structural operation is requested (and every ring after
the first has at least three points, so that the run is defined), `main` returns 0 after
writing the two counts, the vertex lines and one edge line for every original chain edge
(every consecutive pair of distinct points of every ring and line-string, once per
occurrence, in the order of the chains). The type of the line of an edge is the type of
the last chain, in the order of ingestion, that has the same directed pair of vertices
among its edges: it is the type of the edge's own chain (boundary for the first ring, hole
for every later ring, road for every line-string) whenever no later chain has the same
directed pair. -/
theorem C13_original_edges_last_writer (input : TessaInput) (free_for : String)
    (kernel : Kernel) (hholes : ∀ ring ∈ input.polygon.drop 1, 3 ≤ ring.length) :
    main true input ⟨false, false, false⟩ free_for kernel
        = some (0,
            [Output_line.number_of_vertices (main_ingest input).1.cdt.vertices.length,
              Output_line.num_edges (output_num_edges (kernel.finite_edges ⟨false, false, false⟩
                (main_ingest input).1.cdt (main_ingest input).2))]
            ++ (main_ingest input).1.cdt.vertices.map
                (fun v => Output_line.vertex v.id v.point.x v.point.y)
            ++ (original_edge_lines input free_for).map Output_line.edge)
      ∧ (original_edges input).length = (input.polygon ++ input.linestrings).length
      ∧ ∀ l₁ c l₂, original_edges input = l₁ ++ c :: l₂ → ∀ k ∈ c.1,
          (∃ w, last_type (original_edges input) k = some w
              ∧ edge_type k.1 k.2 (main_ingest input).1.chain_edges = w)
            ∧ ((∀ c' ∈ l₂, k ∉ c'.1) →
                edge_type k.1 k.2 (main_ingest input).1.chain_edges = c.2) := by
  obtain ⟨hl, hfind⟩ := main_ingest_tabled input
  refine ⟨main_no_operation input free_for kernel hholes, hl, ?_⟩
  intro l₁ c l₂ hdec k hk
  have hstep : last_type (c :: l₂) k
      = match last_type l₂ k with
        | some w => some w
        | none => if k ∈ c.1 then some c.2 else none := rfl
  have hlast : last_type (original_edges input) k = last_type (c :: l₂) k := by
    rw [hdec, last_type_append, hstep]
    cases h : last_type l₂ k <;> simp [hk]
  have hk' : Table.find (main_ingest input).1.chain_edges (k.1, k.2)
      = last_type (original_edges input) k := hfind k
  constructor
  · cases h : last_type l₂ k with
    | none =>
      refine ⟨c.2, ?_, edge_type_of_find ?_⟩
      · rw [hlast, hstep, h]; simp [hk]
      · rw [hk', hlast, hstep, h]; simp [hk]
    | some w =>
      refine ⟨w, ?_, edge_type_of_find ?_⟩
      · rw [hlast, hstep, h]
      · rw [hk', hlast, hstep, h]
  · intro hno
    apply edge_type_of_find
    rw [hk', hlast, hstep, last_type_eq_none l₂ k hno]
    simp [hk]

theorem original_edges_road_on_boundary : original_edges input_road_on_boundary
    = [([(0, 1), (1, 2), (2, 3), (3, 0)], boundary), ([(1, 0)], road)] := by
  have hin : input_road_on_boundary.polygon ++ input_road_on_boundary.linestrings
      = [[⟨0, 0⟩, ⟨4, 0⟩, ⟨4, 4⟩, ⟨0, 4⟩, ⟨0, 0⟩], [⟨4, 0⟩, ⟨0, 0⟩]] := rfl
  have hty : chain_types input_road_on_boundary = [boundary, road] := rfl
  rw [original_edges, main_ingest_road_on_boundary, hin, hty]
  simp [nonzero_edges, consecutive_pairs]

theorem C13_original_edges_last_writer_witness :
    (∀ ring ∈ input_road_on_boundary.polygon.drop 1, 3 ≤ ring.length)
      ∧ edge_type 0 1 (main_ingest input_road_on_boundary).1.chain_edges = boundary
      ∧ edge_type 1 0 (main_ingest input_road_on_boundary).1.chain_edges = road := by
  have hholes : ∀ ring ∈ input_road_on_boundary.polygon.drop 1, 3 ≤ ring.length := by
    intro ring hr
    simp [input_road_on_boundary] at hr
  obtain ⟨-, -, h⟩ := C13_original_edges_last_writer input_road_on_boundary "" kernel_square hholes
  have h1 := (h [] ([(0, 1), (1, 2), (2, 3), (3, 0)], boundary) [([(1, 0)], road)]
    original_edges_road_on_boundary (0, 1) (by simp)).2 (by simp)
  have h2 := (h [([(0, 1), (1, 2), (2, 3), (3, 0)], boundary)] ([(1, 0)], road) []
    original_edges_road_on_boundary (1, 0) (by simp)).2 (by simp)
  exact ⟨hholes, h1, h2⟩

theorem main_ingest_road_along_boundary : main_ingest input_road_along_boundary
    = (⟨⟨[⟨⟨0, 0⟩, 0⟩, ⟨⟨4, 0⟩, 1⟩, ⟨⟨4, 4⟩, 2⟩, ⟨⟨0, 4⟩, 3⟩],
          [(0, 1), (1, 2), (2, 3), (3, 0), (0, 1)]⟩,
        [((0, 1), 2), ((1, 2), 0), ((2, 3), 0), ((3, 0), 0)], 4, 5⟩,
      [[0, 1, 2, 3, 0], [0, 1]]) := by
  simp [main_ingest, input_road_along_boundary, ingest_rings, ingest_linestrings, insert_chain,
    insert_chain_points, insert_chain_point, insert_chain_edges, insert_chain_edge,
    CDT.insert, CDT.id, CDT.set_id, Ingest.init, CDT.empty, Vertex.fresh, List.findIdx_cons,
    CDT.insert_constraint, Table.assign, Key.lt]

/-- Counterexample to claim C13: the input
`GEOMETRYCOLLECTION(POLYGON((0 0,4 0,4 4,0 4,0 0)),MULTILINESTRING((0 0,4 0)))` without
operation. The ring and the road share the edge from `(0,0)` to `(4,0)`; the road is
ingested last and overwrites the table entry of the pair, so the first edge of the first
ring is written with the type road, not boundary. -/
theorem C13_counterexample_shared_edge :
    original_edges input_road_along_boundary
        = [([(0, 1), (1, 2), (2, 3), (3, 0)], boundary), ([(0, 1)], road)]
      ∧ main true input_road_along_boundary ⟨false, false, false⟩ "" kernel_square
        = some (0,
            [Output_line.number_of_vertices 4, Output_line.num_edges 5,
              Output_line.vertex 0 0 0, Output_line.vertex 1 4 0,
              Output_line.vertex 2 4 4, Output_line.vertex 3 0 4,
              Output_line.edge ⟨0, 1, 16, "", "1", "road"⟩,
              Output_line.edge ⟨1, 2, 16, "", "1", "boundary"⟩,
              Output_line.edge ⟨2, 3, 16, "", "1", "boundary"⟩,
              Output_line.edge ⟨3, 0, 16, "", "1", "boundary"⟩,
              Output_line.edge ⟨0, 1, 16, "", "1", "road"⟩]) := by
  have hin : input_road_along_boundary.polygon ++ input_road_along_boundary.linestrings
      = [[⟨0, 0⟩, ⟨4, 0⟩, ⟨4, 4⟩, ⟨0, 4⟩, ⟨0, 0⟩], [⟨0, 0⟩, ⟨4, 0⟩]] := rfl
  have hty : chain_types input_road_along_boundary = [boundary, road] := rfl
  have horig : original_edges input_road_along_boundary
      = [([(0, 1), (1, 2), (2, 3), (3, 0)], boundary), ([(0, 1)], road)] := by
    rw [original_edges, main_ingest_road_along_boundary, hin, hty]
    simp [nonzero_edges, consecutive_pairs]
  refine ⟨horig, ?_⟩
  have hholes : ∀ ring ∈ input_road_along_boundary.polygon.drop 1, 3 ≤ ring.length := by
    intro ring hr
    simp [input_road_along_boundary] at hr
  have hv : (main_ingest input_road_along_boundary).1.cdt.vertices
      = [⟨⟨0, 0⟩, 0⟩, ⟨⟨4, 0⟩, 1⟩, ⟨⟨4, 4⟩, 2⟩, ⟨⟨0, 4⟩, 3⟩] := by
    rw [main_ingest_road_along_boundary]
  have ht : (main_ingest input_road_along_boundary).1.chain_edges
      = [((0, 1), 2), ((1, 2), 0), ((2, 3), 0), ((3, 0), 0)] := by
    rw [main_ingest_road_along_boundary]
  have hp0 : (main_ingest input_road_along_boundary).1.cdt.point 0 = ⟨0, 0⟩ := by
    rw [main_ingest_road_along_boundary]; rfl
  have hp1 : (main_ingest input_road_along_boundary).1.cdt.point 1 = ⟨4, 0⟩ := by
    rw [main_ingest_road_along_boundary]; rfl
  have hp2 : (main_ingest input_road_along_boundary).1.cdt.point 2 = ⟨4, 4⟩ := by
    rw [main_ingest_road_along_boundary]; rfl
  have hp3 : (main_ingest input_road_along_boundary).1.cdt.point 3 = ⟨0, 4⟩ := by
    rw [main_ingest_road_along_boundary]; rfl
  have hi0 : (main_ingest input_road_along_boundary).1.cdt.id 0 = 0 := by
    rw [main_ingest_road_along_boundary]; rfl
  have hi1 : (main_ingest input_road_along_boundary).1.cdt.id 1 = 1 := by
    rw [main_ingest_road_along_boundary]; rfl
  have hi2 : (main_ingest input_road_along_boundary).1.cdt.id 2 = 2 := by
    rw [main_ingest_road_along_boundary]; rfl
  have hi3 : (main_ingest input_road_along_boundary).1.cdt.id 3 = 3 := by
    rw [main_ingest_road_along_boundary]; rfl
  have hfe : output_num_edges (kernel_square.finite_edges ⟨false, false, false⟩
      (main_ingest input_road_along_boundary).1.cdt
      (main_ingest input_road_along_boundary).2) = 5 := rfl
  rw [main_no_operation _ _ _ hholes, original_edge_lines, horig, hfe, hv, ht]
  simp only [List.flatMap_cons, List.flatMap_nil, List.map_cons, List.map_nil, output_edge,
    hp0, hp1, hp2, hp3, hi0, hi1, hi2, hi3]
  norm_num [edge_type, Table.find, type_name, boundary, road]

/-! ## The first seed in a strictly convex ring -/

theorem zip_eq_consecutive_pairs {α : Type} (xs : List α) :
    ∀ x z : α, (x :: xs).zip (xs ++ [z]) = consecutive_pairs (x :: (xs ++ [z])) := by
  induction xs with
  | nil => intro x z; rfl
  | cons y ys ih =>
    intro x z
    have h := ih y z
    have e1 : consecutive_pairs (x :: (y :: ys ++ [z]))
        = (x, y) :: consecutive_pairs (y :: (ys ++ [z])) := rfl
    rw [e1, ← h]
    rfl

/-- The edges of a polygon are the consecutive pairs of its vertex list followed by its
first vertex. -/
theorem polygon_edges_cons (x : Point) (xs : List Point) :
    polygon_edges (x :: xs) = consecutive_pairs (x :: (xs ++ [x])) := by
  rw [polygon_edges, List.rotate_cons_succ, List.rotate_zero, zip_eq_consecutive_pairs]

theorem consecutive_pairs_suffix {α : Type} (l₁ : List α) :
    ∀ (l₂ : List α) (e : α × α), e ∈ consecutive_pairs l₂ → e ∈ consecutive_pairs (l₁ ++ l₂) := by
  induction l₁ with
  | nil => intro l₂ e he; exact he
  | cons a rest ih =>
    intro l₂ e he
    have h := ih l₂ e he
    cases hr : rest ++ l₂ with
    | nil => rw [hr] at h; simp [consecutive_pairs] at h
    | cons b tl =>
      rw [hr] at h
      simp only [List.cons_append, hr, consecutive_pairs]
      exact List.mem_cons_of_mem _ h

/-- On a path that starts at a vertex with the property and reaches a vertex without it,
some step leaves the property. -/
theorem path_transition {α : Type} (R : α → Prop) (l : List α) :
    ∀ u : α, R u → (∃ v ∈ l, ¬ R v) → ∃ e ∈ consecutive_pairs (u :: l), R e.1 ∧ ¬ R e.2 := by
  induction l with
  | nil => intro u _ h; obtain ⟨v, hv, _⟩ := h; cases hv
  | cons w rest ih =>
    intro u hu h
    by_cases hw : R w
    · obtain ⟨v, hv, hnv⟩ := h
      have hv' : v ∈ rest := by
        rcases List.mem_cons.1 hv with h1 | h1
        · rw [h1] at hnv; exact absurd hw hnv
        · exact h1
      obtain ⟨e, he, h1⟩ := ih w hw ⟨v, hv', hnv⟩
      refine ⟨e, ?_, h1⟩
      simp only [consecutive_pairs]
      exact List.mem_cons_of_mem _ he
    · refine ⟨(u, w), ?_, hu, hw⟩
      simp only [consecutive_pairs]
      exact List.mem_cons_self _ _

/-- Around a polygon that has a vertex with the property and a vertex without it, some edge
leaves the property. -/
theorem polygon_transition (R : Point → Prop) (poly : List Point) {u v : Point}
    (hu : u ∈ poly) (hRu : R u) (hv : v ∈ poly) (hRv : ¬ R v) :
    ∃ e ∈ polygon_edges poly, R e.1 ∧ ¬ R e.2 := by
  cases poly with
  | nil => cases hu
  | cons x xs =>
    rw [polygon_edges_cons]
    by_cases hx : R x
    · have hv' : v ∈ xs := by
        rcases List.mem_cons.1 hv with h1 | h1
        · rw [h1] at hRv; exact absurd hx hRv
        · exact h1
      exact path_transition R (xs ++ [x]) x hx ⟨v, List.mem_append_left _ hv', hRv⟩
    · have hu' : u ∈ xs := by
        rcases List.mem_cons.1 hu with h1 | h1
        · rw [h1] at hRu; exact absurd hRu hx
        · exact h1
      obtain ⟨l₁, l₂, hl⟩ := List.append_of_mem hu'
      obtain ⟨e, he, h1⟩ := path_transition R (l₂ ++ [x]) u hRu ⟨x, by simp, hx⟩
      refine ⟨e, ?_, h1⟩
      have := consecutive_pairs_suffix (x :: l₁) (u :: (l₂ ++ [x])) e he
      rw [hl]
      simpa using this

theorem polygon_edges_mem {poly : List Point} {e : Point × Point} (he : e ∈ polygon_edges poly) :
    e.1 ∈ poly ∧ e.2 ∈ poly := by
  have h := List.of_mem_zip (show (e.1, e.2) ∈ poly.zip (poly.rotate 1) from he)
  exact ⟨h.1, List.mem_rotate.1 h.2⟩

theorem polygon_edges_map_fst (poly : List Point) : (polygon_edges poly).map Prod.fst = poly :=
  List.map_fst_zip _ _ (by simp)

theorem polygon_edges_map_snd (poly : List Point) :
    (polygon_edges poly).map Prod.snd = poly.rotate 1 :=
  List.map_snd_zip _ _ (by simp)

theorem countP_eq_one {α : Type} [DecidableEq α] (P : α → Bool) {l : List α} (hn : l.Nodup)
    {x : α} (hx : x ∈ l) (hP : P x = true) (huniq : ∀ y ∈ l, P y = true → y = x) :
    l.countP P = 1 := by
  have h : l.countP P = l.countP (fun y => y == x) := by
    apply List.countP_congr
    intro y hy
    constructor
    · intro h1; simpa using huniq y hy h1
    · intro h1
      have : y = x := by simpa using h1
      rw [this]; exact hP
  rw [h]
  exact List.count_eq_one_of_mem hn hx

theorem straddle_identity (u1 v1 u2 v2 : Point) (t : ℚ) :
    ((v2.y - t) * orientation u1 v1 u2 + (t - u2.y) * orientation u1 v1 v2)
      + ((v1.y - t) * orientation u2 v2 u1 + (t - u1.y) * orientation u2 v2 v1) = 0 := by
  unfold orientation
  ring

/-- Two edges that both go up through the height `t`, each with the endpoints of the other
on its left or on its line: the start of the second is on the line of the first. -/
theorem straddle_unique {u1 v1 u2 v2 : Point} {t : ℚ} (h1 : u1.y ≤ t) (h2 : t < v1.y)
    (h3 : u2.y ≤ t) (h4 : t < v2.y) (o1 : 0 ≤ orientation u1 v1 u2)
    (o2 : 0 ≤ orientation u1 v1 v2) (o3 : 0 ≤ orientation u2 v2 u1)
    (o4 : 0 ≤ orientation u2 v2 v1) : orientation u1 v1 u2 = 0 := by
  have hid := straddle_identity u1 v1 u2 v2 t
  have p1 : 0 ≤ (v2.y - t) * orientation u1 v1 u2 := mul_nonneg (by linarith) o1
  have p2 : 0 ≤ (t - u2.y) * orientation u1 v1 v2 := mul_nonneg (by linarith) o2
  have p3 : 0 ≤ (v1.y - t) * orientation u2 v2 u1 := mul_nonneg (by linarith) o3
  have p4 : 0 ≤ (t - u1.y) * orientation u2 v2 v1 := mul_nonneg (by linarith) o4
  have hz : (v2.y - t) * orientation u1 v1 u2 = 0 := by linarith
  rcases mul_eq_zero.1 hz with h | h
  · linarith
  · exact h

theorem orientation_swap (u v w : Point) : orientation v u w = - orientation u v w := by
  unfold orientation
  ring

theorem orientation_self_left (u v : Point) : orientation u v u = 0 := by
  unfold orientation
  ring

theorem orientation_self_right (u v : Point) : orientation u v v = 0 := by
  unfold orientation
  ring

theorem on_segment_eq_false_of_orientation {u v p : Point} (h : orientation u v p ≠ 0) :
    on_segment u v p = false := by
  simp [on_segment, h]

/-- A point strictly to the left of every edge of a counterclockwise strictly convex
polygon, at a height that some vertex reaches and some vertex exceeds, is on the bounded
side. -/
theorem bounded_side_2_of_left {poly : List Point} {p : Point} (hn : poly.Nodup)
    (hconv : ∀ e ∈ polygon_edges poly, ∀ w ∈ poly, w ≠ e.1 → w ≠ e.2 →
      0 < orientation e.1 e.2 w)
    (hleft : ∀ e ∈ polygon_edges poly, 0 < orientation e.1 e.2 p)
    (hlow : ∃ w ∈ poly, w.y ≤ p.y) (hhigh : ∃ w ∈ poly, ¬ w.y ≤ p.y) :
    bounded_side_2 poly p = Bounded_side.ON_BOUNDED_SIDE := by
  have hge : ∀ e ∈ polygon_edges poly, ∀ w ∈ poly, 0 ≤ orientation e.1 e.2 w := by
    intro e he w hw
    by_cases h1 : w = e.1
    · rw [h1, orientation_self_left]
    · by_cases h2 : w = e.2
      · rw [h2, orientation_self_right]
      · exact le_of_lt (hconv e he w hw h1 h2)
  have hany : (polygon_edges poly).any (fun e => on_segment e.1 e.2 p) = false := by
    rw [List.any_eq_false]
    intro e he
    rw [on_segment_eq_false_of_orientation (ne_of_gt (hleft e he))]
    simp
  have hcross : ∀ e ∈ polygon_edges poly,
      (crosses_ray p e.1 e.2 = true ↔ e.1.y ≤ p.y ∧ p.y < e.2.y) := by
    intro e he
    have h1 := hleft e he
    have h2 : ¬ orientation e.1 e.2 p < 0 := not_lt.2 (le_of_lt h1)
    simp [crosses_ray, h1, h2]
  obtain ⟨w, hw, hwy⟩ := hlow
  obtain ⟨w', hw', hwy'⟩ := hhigh
  obtain ⟨e, he, he1, he2⟩ := polygon_transition (fun q => q.y ≤ p.y) poly hw hwy hw' hwy'
  have he2' : p.y < e.2.y := lt_of_not_le he2
  have hnodup : (polygon_edges poly).Nodup :=
    List.Nodup.of_map Prod.fst (by rw [polygon_edges_map_fst]; exact hn)
  have hcount : (polygon_edges poly).countP (fun e => crosses_ray p e.1 e.2) = 1 := by
    apply countP_eq_one _ hnodup he ((hcross e he).2 ⟨he1, he2'⟩)
    intro e' he' hc'
    obtain ⟨h1', h2'⟩ := (hcross e' he').1 hc'
    have hm := polygon_edges_mem he
    have hm' := polygon_edges_mem he'
    have hz := straddle_unique he1 he2' h1' h2' (hge e he _ hm'.1) (hge e he _ hm'.2)
      (hge e' he' _ hm.1) (hge e' he' _ hm.2)
    have hfst : e'.1 = e.1 := by
      by_contra hne
      by_cases h2 : e'.1 = e.2
      · rw [h2] at h1'; linarith
      · exact absurd hz (ne_of_gt (hconv e he _ hm'.1 hne h2))
    exact List.inj_on_of_nodup_map (by rw [polygon_edges_map_fst]; exact hn) he' he hfst
  simp [bounded_side_2, hany, hcount]

/-- A point strictly to the right of every edge of a clockwise strictly convex polygon, at
a height that some vertex reaches and some vertex exceeds, is on the bounded side. -/
theorem bounded_side_2_of_right {poly : List Point} {p : Point} (hn : poly.Nodup)
    (hconv : ∀ e ∈ polygon_edges poly, ∀ w ∈ poly, w ≠ e.1 → w ≠ e.2 →
      orientation e.1 e.2 w < 0)
    (hright : ∀ e ∈ polygon_edges poly, orientation e.1 e.2 p < 0)
    (hlow : ∃ w ∈ poly, w.y ≤ p.y) (hhigh : ∃ w ∈ poly, ¬ w.y ≤ p.y) :
    bounded_side_2 poly p = Bounded_side.ON_BOUNDED_SIDE := by
  have hge : ∀ e ∈ polygon_edges poly, ∀ w ∈ poly, 0 ≤ orientation e.2 e.1 w := by
    intro e he w hw
    by_cases h1 : w = e.1
    · rw [h1, orientation_self_right]
    · by_cases h2 : w = e.2
      · rw [h2, orientation_self_left]
      · rw [orientation_swap]
        linarith [hconv e he w hw h1 h2]
  have hany : (polygon_edges poly).any (fun e => on_segment e.1 e.2 p) = false := by
    rw [List.any_eq_false]
    intro e he
    rw [on_segment_eq_false_of_orientation (ne_of_lt (hright e he))]
    simp
  have hcross : ∀ e ∈ polygon_edges poly,
      (crosses_ray p e.1 e.2 = true ↔ e.2.y ≤ p.y ∧ p.y < e.1.y) := by
    intro e he
    have h1 := hright e he
    have h2 : ¬ 0 < orientation e.1 e.2 p := not_lt.2 (le_of_lt h1)
    simp [crosses_ray, h1, h2]
  obtain ⟨w, hw, hwy⟩ := hlow
  obtain ⟨w', hw', hwy'⟩ := hhigh
  obtain ⟨e, he, he1, he2⟩ := polygon_transition (fun q => ¬ q.y ≤ p.y) poly hw' hwy' hw
    (not_not.2 hwy)
  have he1' : p.y < e.1.y := lt_of_not_le he1
  have he2' : e.2.y ≤ p.y := not_not.1 he2
  have hn' : ((polygon_edges poly).map Prod.snd).Nodup := by
    rw [polygon_edges_map_snd]; exact List.nodup_rotate.2 hn
  have hnodup : (polygon_edges poly).Nodup := List.Nodup.of_map Prod.snd hn'
  have hcount : (polygon_edges poly).countP (fun e => crosses_ray p e.1 e.2) = 1 := by
    apply countP_eq_one _ hnodup he ((hcross e he).2 ⟨he2', he1'⟩)
    intro e' he' hc'
    obtain ⟨h1', h2'⟩ := (hcross e' he').1 hc'
    have hm := polygon_edges_mem he
    have hm' := polygon_edges_mem he'
    have hz := straddle_unique he2' he1' h1' h2' (hge e he _ hm'.2) (hge e he _ hm'.1)
      (hge e' he' _ hm.2) (hge e' he' _ hm.1)
    have hsnd : e'.2 = e.2 := by
      by_contra hne
      by_cases h2 : e'.2 = e.1
      · rw [h2] at h1'; linarith
      · have := hconv e he _ hm'.2 h2 hne
        rw [orientation_swap] at hz
        linarith
    exact List.inj_on_of_nodup_map hn' he' he hsnd
  simp [bounded_side_2, hany, hcount]

theorem orientation_seed_first (u v a b c : Point) :
    orientation u v (seed_first a b c)
      = (1 - 2 * c00001) * orientation u v b + c00001 * orientation u v a
        + c00001 * orientation u v c := by
  unfold orientation seed_first
  ring

theorem seed_first_y (a b c : Point) :
    (seed_first a b c).y = (1 - 2 * c00001) * b.y + c00001 * a.y + c00001 * c.y := by
  unfold seed_first
  ring

theorem c00001_pos : 0 < c00001 := by norm_num [c00001]

theorem c00001_lt_half : 0 < 1 - 2 * c00001 := by norm_num [c00001]

/-- The first seed of three points that are not collinear is at a height that one of them
reaches and one of them exceeds. -/
theorem seed_first_height {a b c : Point} (h : orientation a b c ≠ 0) :
    (a.y ≤ (seed_first a b c).y ∨ b.y ≤ (seed_first a b c).y ∨ c.y ≤ (seed_first a b c).y)
      ∧ (¬ a.y ≤ (seed_first a b c).y ∨ ¬ b.y ≤ (seed_first a b c).y
          ∨ ¬ c.y ≤ (seed_first a b c).y) := by
  have e1 := c00001_pos
  have e2 := c00001_lt_half
  have hy := seed_first_y a b c
  generalize (seed_first a b c).y = t at hy
  constructor
  · by_contra hcon
    push_neg at hcon
    obtain ⟨ha, hb, hc⟩ := hcon
    have := mul_pos e2 (sub_pos.2 hb)
    have := mul_pos e1 (sub_pos.2 ha)
    have := mul_pos e1 (sub_pos.2 hc)
    nlinarith
  · by_contra hcon
    push_neg at hcon
    obtain ⟨ha, hb, hc⟩ := hcon
    have p1 := mul_nonneg (le_of_lt e2) (sub_nonneg.2 hb)
    have p2 := mul_nonneg (le_of_lt e1) (sub_nonneg.2 ha)
    have p3 := mul_nonneg (le_of_lt e1) (sub_nonneg.2 hc)
    have z1 : (1 - 2 * c00001) * (t - b.y) = 0 := by nlinarith
    have z2 : c00001 * (t - a.y) = 0 := by nlinarith
    have z3 : c00001 * (t - c.y) = 0 := by nlinarith
    have hb' : b.y = t := by
      rcases mul_eq_zero.1 z1 with h1 | h1
      · linarith
      · linarith
    have ha' : a.y = t := by
      rcases mul_eq_zero.1 z2 with h1 | h1
      · linarith
      · linarith
    have hc' : c.y = t := by
      rcases mul_eq_zero.1 z3 with h1 | h1
      · linarith
      · linarith
    apply h
    unfold orientation
    rw [ha', hb', hc']
    ring

/-- Of three pairwise distinct points one is not an endpoint of the edge. -/
theorem three_points_edge {a b c : Point} (hab : a ≠ b) (hac : a ≠ c) (hbc : b ≠ c)
    (u v : Point) : (a ≠ u ∧ a ≠ v) ∨ (b ≠ u ∧ b ≠ v) ∨ (c ≠ u ∧ c ≠ v) := by
  by_cases h1 : a = u
  · by_cases h2 : b = v
    · right; right
      exact ⟨fun h => hac (h1.trans h.symm), fun h => hbc (h2.trans h.symm)⟩
    · right; left
      exact ⟨fun h => hab (h1.trans h.symm), h2⟩
  · by_cases h2 : a = v
    · by_cases h3 : b = u
      · right; right
        exact ⟨fun h => hbc (h3.trans h.symm), fun h => hac (h2.trans h.symm)⟩
      · right; left
        exact ⟨h3, fun h => hab (h2.trans h.symm)⟩
    · left
      exact ⟨h1, h2⟩

theorem consecutive_pairs_append_pair {α : Type} (l : List α) :
    ∀ a b : α, consecutive_pairs (l ++ [a, b]) = consecutive_pairs (l ++ [a]) ++ [(a, b)] := by
  induction l with
  | nil => intro a b; rfl
  | cons y rest ih =>
    intro a b
    cases rest with
    | nil => rfl
    | cons z rest' =>
      have h := ih a b
      have e1 : consecutive_pairs (y :: z :: rest' ++ [a, b])
          = (y, z) :: consecutive_pairs (z :: rest' ++ [a, b]) := rfl
      have e2 : consecutive_pairs (y :: z :: rest' ++ [a])
          = (y, z) :: consecutive_pairs (z :: rest' ++ [a]) := rfl
      rw [e1, e2, h]
      rfl

/-- Repeating the first vertex at the end of the vertex list adds the edge from that vertex
to itself. -/
theorem polygon_edges_closed (x : Point) (xs : List Point) :
    polygon_edges (x :: xs ++ [x]) = polygon_edges (x :: xs) ++ [(x, x)] := by
  have e0 : x :: xs ++ [x] = x :: (xs ++ [x]) := rfl
  rw [e0, polygon_edges_cons x (xs ++ [x]), polygon_edges_cons x xs]
  have h := consecutive_pairs_append_pair (x :: xs) x x
  have e1 : x :: (xs ++ [x] ++ [x]) = x :: xs ++ [x, x] := by simp
  rw [e1, h]
  rfl

/-- Repeating the first vertex at the end of the vertex list does not change the side of a
point other than that vertex. -/
theorem bounded_side_2_closed (x : Point) (xs : List Point) {p : Point} (hp : p ≠ x) :
    bounded_side_2 (x :: xs ++ [x]) p = bounded_side_2 (x :: xs) p := by
  have h1 : on_segment x x p = false := by
    by_contra hcon
    rw [Bool.not_eq_false] at hcon
    simp only [on_segment, Bool.and_eq_true, decide_eq_true_eq, min_self, max_self] at hcon
    apply hp
    cases p; cases x
    simp only [Point.mk.injEq]
    exact ⟨le_antisymm hcon.1.1.2 hcon.1.1.1.2, le_antisymm hcon.2 hcon.1.2⟩
  have h2 : crosses_ray p x x = false := by
    by_contra hcon
    rw [Bool.not_eq_false] at hcon
    simp only [crosses_ray, Bool.or_self, Bool.and_eq_true, decide_eq_true_eq,
      Bool.or_eq_true] at hcon
    rcases hcon with h | h <;> linarith [h.1.1, h.1.2]
  have h3 : [((x, x) : Point × Point)].any (fun e => on_segment e.1 e.2 p) = false := by
    simp only [List.any_cons, List.any_nil, h1, Bool.or_false]
  have h4 : [((x, x) : Point × Point)].countP (fun e => crosses_ray p e.1 e.2) = 0 := by
    rw [List.countP_eq_zero]
    intro e he
    simp only [List.mem_singleton] at he
    rw [he, h2]
    simp
  unfold bounded_side_2
  rw [polygon_edges_closed, List.any_append, List.countP_append, h3, h4, Bool.or_false,
    Nat.add_zero]

/-- The first seed of a strictly convex polygon is on its bounded side, with or without
the closing vertex in the vertex list. -/
theorem bounded_side_2_seed_first_convex {a b c : Point} {rest : List Point}
    (hconv : strictly_convex (a :: b :: c :: rest)) :
    bounded_side_2 (a :: b :: c :: rest) (seed_first a b c) = Bounded_side.ON_BOUNDED_SIDE
      ∧ bounded_side_2 (a :: b :: c :: rest ++ [a]) (seed_first a b c)
          = Bounded_side.ON_BOUNDED_SIDE := by
  obtain ⟨-, hn, hside⟩ := hconv
  have hab : a ≠ b := by
    intro h; rw [h] at hn; simp at hn
  have hac : a ≠ c := by
    intro h; rw [h] at hn; simp at hn
  have hbc : b ≠ c := by
    intro h; rw [h] at hn; simp at hn
  have ha : a ∈ a :: b :: c :: rest := by simp
  have hb : b ∈ a :: b :: c :: rest := by simp
  have hc : c ∈ a :: b :: c :: rest := by simp
  have hfirst : (a, b) ∈ polygon_edges (a :: b :: c :: rest) := by
    rw [polygon_edges_cons]
    simp [consecutive_pairs]
  have e1 := c00001_pos
  have e2 := c00001_lt_half
  have hlowhigh : orientation a b c ≠ 0 →
      (∃ w ∈ a :: b :: c :: rest, w.y ≤ (seed_first a b c).y)
        ∧ (∃ w ∈ a :: b :: c :: rest, ¬ w.y ≤ (seed_first a b c).y) := by
    intro h
    obtain ⟨h1, h2⟩ := seed_first_height h
    constructor
    · rcases h1 with h1 | h1 | h1
      · exact ⟨a, ha, h1⟩
      · exact ⟨b, hb, h1⟩
      · exact ⟨c, hc, h1⟩
    · rcases h2 with h2 | h2 | h2
      · exact ⟨a, ha, h2⟩
      · exact ⟨b, hb, h2⟩
      · exact ⟨c, hc, h2⟩
  have hopen : bounded_side_2 (a :: b :: c :: rest) (seed_first a b c)
      = Bounded_side.ON_BOUNDED_SIDE
      ∧ ∀ e ∈ polygon_edges (a :: b :: c :: rest), orientation e.1 e.2 (seed_first a b c) ≠ 0 := by
    rcases hside with hccw | hcw
    · have hge : ∀ e ∈ polygon_edges (a :: b :: c :: rest), ∀ w ∈ a :: b :: c :: rest,
          0 ≤ orientation e.1 e.2 w := by
        intro e he w hw
        by_cases h1 : w = e.1
        · rw [h1, orientation_self_left]
        · by_cases h2 : w = e.2
          · rw [h2, orientation_self_right]
          · exact le_of_lt (hccw e he w hw h1 h2)
      have hleft : ∀ e ∈ polygon_edges (a :: b :: c :: rest),
          0 < orientation e.1 e.2 (seed_first a b c) := by
        intro e he
        rw [orientation_seed_first]
        have ga := mul_nonneg (le_of_lt e1) (hge e he a ha)
        have gb := mul_nonneg (le_of_lt e2) (hge e he b hb)
        have gc := mul_nonneg (le_of_lt e1) (hge e he c hc)
        rcases three_points_edge hab hac hbc e.1 e.2 with h | h | h
        · have := mul_pos e1 (hccw e he a ha h.1 h.2)
          linarith
        · have := mul_pos e2 (hccw e he b hb h.1 h.2)
          linarith
        · have := mul_pos e1 (hccw e he c hc h.1 h.2)
          linarith
      obtain ⟨hlow, hhigh⟩ := hlowhigh
        (ne_of_gt (hccw (a, b) hfirst c hc (Ne.symm hac) (Ne.symm hbc)))
      exact ⟨bounded_side_2_of_left hn hccw hleft hlow hhigh,
        fun e he => ne_of_gt (hleft e he)⟩
    · have hle : ∀ e ∈ polygon_edges (a :: b :: c :: rest), ∀ w ∈ a :: b :: c :: rest,
          orientation e.1 e.2 w ≤ 0 := by
        intro e he w hw
        by_cases h1 : w = e.1
        · rw [h1, orientation_self_left]
        · by_cases h2 : w = e.2
          · rw [h2, orientation_self_right]
          · exact le_of_lt (hcw e he w hw h1 h2)
      have hright : ∀ e ∈ polygon_edges (a :: b :: c :: rest),
          orientation e.1 e.2 (seed_first a b c) < 0 := by
        intro e he
        rw [orientation_seed_first]
        have ga := mul_nonneg (le_of_lt e1) (neg_nonneg.2 (hle e he a ha))
        have gb := mul_nonneg (le_of_lt e2) (neg_nonneg.2 (hle e he b hb))
        have gc := mul_nonneg (le_of_lt e1) (neg_nonneg.2 (hle e he c hc))
        rcases three_points_edge hab hac hbc e.1 e.2 with h | h | h
        · have := mul_pos e1 (neg_pos.2 (hcw e he a ha h.1 h.2))
          linarith
        · have := mul_pos e2 (neg_pos.2 (hcw e he b hb h.1 h.2))
          linarith
        · have := mul_pos e1 (neg_pos.2 (hcw e he c hc h.1 h.2))
          linarith
      obtain ⟨hlow, hhigh⟩ := hlowhigh
        (ne_of_lt (hcw (a, b) hfirst c hc (Ne.symm hac) (Ne.symm hbc)))
      exact ⟨bounded_side_2_of_right hn hcw hright hlow hhigh,
        fun e he => ne_of_lt (hright e he)⟩
  refine ⟨hopen.1, ?_⟩
  have hpa : seed_first a b c ≠ a := by
    intro h
    have := hopen.2 (a, b) hfirst
    rw [h] at this
    exact this (orientation_self_left a b)
  have e0 : a :: b :: c :: rest ++ [a] = a :: (b :: c :: rest) ++ [a] := rfl
  rw [e0, bounded_side_2_closed a (b :: c :: rest) hpa]
  exact hopen.1

/-- Claim C19: for every ring whose vertex list is a strictly convex polygon (at least
three vertices, counterclockwise or clockwise, any size), given with or without the
repeated closing vertex, `construct_point_in_polygon` finds the first attempt
`b + 0.0001*((a-b)+(c-b))` on the bounded side of the ring and returns it with the
first-attempt message: the second attempt is not used. -/
theorem C19_seed_first_convex (cdt : CDT) (vhs : List Vertex_handle) (poly : List Point)
    (hconv : strictly_convex poly)
    (hvhs : vhs.map cdt.point = poly ∨ vhs.map cdt.point = poly ++ poly.take 1) :
    ∃ v0 v1 v2 rest, vhs = v0 :: v1 :: v2 :: rest
      ∧ bounded_side_2 (vhs.map cdt.point)
          (seed_first (cdt.point v0) (cdt.point v1) (cdt.point v2))
        = Bounded_side.ON_BOUNDED_SIDE
      ∧ construct_point_in_polygon cdt vhs
        = some (seed_first (cdt.point v0) (cdt.point v1) (cdt.point v2),
            Seed_message.first_attempt) := by
  have hlen := hconv.1
  match poly, hconv, hvhs, hlen with
  | a :: b :: c :: rest, hconv, hvhs, _ =>
    obtain ⟨h1, h2⟩ := bounded_side_2_seed_first_convex hconv
    have hshape : ∃ v0 v1 v2 r, vhs = v0 :: v1 :: v2 :: r ∧ cdt.point v0 = a
        ∧ cdt.point v1 = b ∧ cdt.point v2 = c := by
      match vhs, hvhs with
      | v0 :: v1 :: v2 :: r, hvhs =>
        refine ⟨v0, v1, v2, r, rfl, ?_⟩
        rcases hvhs with h | h
        · simp only [List.map_cons, List.cons.injEq] at h
          exact ⟨h.1, h.2.1, h.2.2.1⟩
        · simp only [List.map_cons, List.cons_append, List.cons.injEq] at h
          exact ⟨h.1, h.2.1, h.2.2.1⟩
      | [], hvhs => rcases hvhs with h | h <;> simp at h
      | [_], hvhs => rcases hvhs with h | h <;> simp at h
      | [_, _], hvhs => rcases hvhs with h | h <;> simp at h
    obtain ⟨v0, v1, v2, r, hv, p0, p1, p2⟩ := hshape
    have hin : bounded_side_2 (vhs.map cdt.point)
        (seed_first (cdt.point v0) (cdt.point v1) (cdt.point v2))
        = Bounded_side.ON_BOUNDED_SIDE := by
      rw [p0, p1, p2]
      rcases hvhs with h | h
      · rw [h]; exact h1
      · rw [h]; exact h2
    refine ⟨v0, v1, v2, r, hv, hin, ?_⟩
    rw [hv] at hin ⊢
    simp only [construct_point_in_polygon, hin, if_true]

theorem strictly_convex_big_triangle : strictly_convex big_triangle := by
  have hedges : polygon_edges big_triangle
      = [(⟨0, 0⟩, ⟨0, 3000000⟩), (⟨0, 3000000⟩, ⟨4000000, 0⟩), (⟨4000000, 0⟩, ⟨0, 0⟩)] := rfl
  refine ⟨by simp [big_triangle], by simp [big_triangle], Or.inr ?_⟩
  intro e he w hw h1 h2
  rw [hedges] at he
  simp only [big_triangle, List.mem_cons, List.mem_singleton, List.not_mem_nil, or_false]
    at he hw
  rcases he with rfl | rfl | rfl <;> rcases hw with rfl | rfl | rfl <;>
    first
    | exact absurd rfl h1
    | exact absurd rfl h2
    | norm_num [orientation]

theorem C19_seed_first_convex_witness :
    strictly_convex big_triangle
      ∧ [0, 1, 2, 0].map cdt_big_triangle.point = big_triangle ++ big_triangle.take 1
      ∧ construct_point_in_polygon cdt_big_triangle [0, 1, 2, 0]
        = some (seed_first ⟨0, 0⟩ ⟨0, 3000000⟩ ⟨4000000, 0⟩, Seed_message.first_attempt) := by
  have hmap : [0, 1, 2, 0].map cdt_big_triangle.point = big_triangle ++ big_triangle.take 1 :=
    rfl
  obtain ⟨v0, v1, v2, rest, hv, -, h⟩ := C19_seed_first_convex cdt_big_triangle [0, 1, 2, 0]
    big_triangle strictly_convex_big_triangle (Or.inr hmap)
  simp only [List.cons.injEq] at hv
  obtain ⟨rfl, rfl, rfl, -⟩ := hv
  exact ⟨strictly_convex_big_triangle, hmap, h⟩

end Tessa
